import Mathlib

/-!
Distributed-Systems: the MapReduce scheduler and the sharded key/value client.

A shallow embedding of

* `src/mapreduce/schedule.go`: the function `schedule`, as an interleaving
  step machine over the main goroutine, the task goroutines it starts, the
  WaitGroup counter and the channel `registerChan`;
* `src/shardkv/client.go`: `key2shard`, `MakeClerk`, `Clerk.Get` and
  `Clerk.PutAppend`, as functions that consume the replies of the RPCs and
  of the configuration queries they make.

Definitions come first, theorems afterwards.
-/

set_option autoImplicit false

/-! ## Part I: `shardkv/client.go` -/

namespace shardkv

/-- A Go string is a sequence of bytes. -/
abbrev GoString := List (Fin 256)

/-- Modelled from the spec: the type `Err` and its constants `OK`, `ErrNoKey`,
`ErrWrongGroup` and `ErrOutdated` are declared in a file of the package that
is not among the sources; `client.go` only compares replies against them.
The constructor `other` stands for every further value, the zero value of an
undelivered reply included. -/
inductive Err where
  | OK
  | ErrNoKey
  | ErrWrongGroup
  | ErrOutdated
  | other (s : GoString)
  deriving DecidableEq, Repr

/-- Modelled from the spec: `shardmaster.Config` is declared in package
`shardmaster`; `client.go` uses the array `Shards`, indexed by shard, and the
map `Groups` from a group id to its server names. The array type
`[NShards]int` fixes the length of `Shards`. -/
structure Config (NShards : Nat) where
  Num : Int
  Shards : { l : List Int // l.length = NShards }
  Groups : List (Int × List String)

/-- Arguments of the RPC `ShardKV.Get`, as filled in by `Clerk.Get`. -/
structure GetArgs where
  Key : GoString
  ClientId : Int
  Id : Int
  deriving DecidableEq, Repr

/-- Reply of the RPC `ShardKV.Get`, as read by `Clerk.Get`. -/
structure GetReply where
  WrongLeader : Bool
  Err : Err
  Value : GoString
  deriving DecidableEq, Repr

/-- Arguments of the RPC `ShardKV.PutAppend`, as filled in by `Clerk.PutAppend`. -/
structure PutAppendArgs where
  Key : GoString
  Value : GoString
  Op : String
  ClientId : Int
  Id : Int
  deriving DecidableEq, Repr

/-- Reply of the RPC `ShardKV.PutAppend`, as read by `Clerk.PutAppend`. -/
structure PutAppendReply where
  WrongLeader : Bool
  Err : Err
  deriving DecidableEq, Repr

/-- The function `key2shard` (client.go, lines 24-31). `NShards` is the constant
`shardmaster.NShards`; Go's `%` is the truncated remainder. -/
def key2shard (NShards : Nat) (key : GoString) : Int :=
  let shard : Int :=
    match key with
    | [] => 0
    | b :: _ => (b.val : Int)
  Int.tmod shard (NShards : Int)

/-- The array access `config.Shards[shard]`: `none` is the index-out-of-range
panic. -/
def Config.shardAt {NShards : Nat} (c : Config NShards) (shard : Int) : Option Int :=
  if 0 ≤ shard then c.Shards.val[shard.toNat]? else none

/-- The map access `config.Groups[gid]` with its `ok` flag. -/
def Config.group {NShards : Nat} (c : Config NShards) (gid : Int) : Option (List String) :=
  c.Groups.lookup gid

/-- Go's arithmetic on `int`: the integer `x` wrapped around into the range
`[-2^(IntSize-1), 2^(IntSize-1))` of a two's-complement integer of `IntSize`
bits. `IntSize` is 32 or 64, by platform. -/
def wrapInt (IntSize : Nat) (x : Int) : Int :=
  (x + 2 ^ (IntSize - 1)) % 2 ^ IntSize - 2 ^ (IntSize - 1)

/-- The fields of `Clerk` that its methods read and write: the cached
configuration, the client id and the operation counter. The mutex protects
the counter, so the prologue of an operation is atomic; `debug` only switches
printing and is left out. The counter is a Go `int`: the operations wrap it
around with `wrapInt`. -/
structure Clerk (NShards : Nat) where
  config : Config NShards
  id : Int
  count : Int

/-- The zero value of `shardmaster.Config`. -/
def Config.zero (NShards : Nat) : Config NShards :=
  { Num := 0, Shards := ⟨List.replicate NShards 0, List.length_replicate _ _⟩, Groups := [] }

/-- The function `MakeClerk` (lines 60-70); `rand` is the value returned by `nrand()`. -/
def MakeClerk (NShards : Nat) (rand : Int) : Clerk NShards :=
  { config := Config.zero NShards, id := rand, count := 0 }

/-- How an operation of the clerk stands once the replies handed to it are
used up. -/
inductive Outcome (α : Type) where
  | returned (v : α)
  | trying
  | panicked
  deriving DecidableEq, Repr

/-- How the loop over the servers of one group ends. -/
inductive Inner (α ρ : Type) where
  | returned (v : α)
  | over (rest : List (Bool × ρ))
  | pending
  deriving Repr

/-- The test of line 99 on the outcome of one `srv.Call`. -/
def Get.accepts (ok : Bool) (reply : GetReply) : Bool :=
  ok && reply.WrongLeader == false && (reply.Err == Err.OK || reply.Err == Err.ErrNoKey)

/-- The loop over `servers` in `Clerk.Get` (lines 95-108). `replies` are the
results `(ok, reply)` of the successive calls `srv.Call`; the first component
of the result lists the requests sent, with the server they went to. -/
def Get.tryServers (args : GetArgs) :
    List String → List (Bool × GetReply) → List (String × GetArgs) × Inner GoString GetReply
  | [], replies => ([], Inner.over replies)
  | srv :: _, [] => ([(srv, args)], Inner.pending)
  | srv :: servers, (ok, reply) :: replies =>
    if Get.accepts ok reply then
      ([(srv, args)], Inner.returned reply.Value)
    else if ok && reply.Err == Err.ErrWrongGroup then
      ([(srv, args)], Inner.over replies)
    else
      let r := Get.tryServers args servers replies
      ((srv, args) :: r.1, r.2)

/-- The outer loop of `Clerk.Get` (lines 90-113). `configs` are the results of
the successive calls `ck.sm.Query(-1)`. The result is the requests sent, the
configuration cached at the end, and the outcome. -/
def Get.loop {NShards : Nat} (key : GoString) (args : GetArgs) :
    Config NShards → List (Config NShards) → List (Bool × GetReply) →
      List (String × GetArgs) × Config NShards × Outcome GoString
  | config, configs, replies =>
    let shard := key2shard NShards key
    match config.shardAt shard with
    | none => ([], config, Outcome.panicked)
    | some gid =>
      let r : List (String × GetArgs) × Inner GoString GetReply :=
        match config.group gid with
        | some servers => Get.tryServers args servers replies
        | none => ([], Inner.over replies)
      match r.2 with
      | Inner.returned v => (r.1, config, Outcome.returned v)
      | Inner.pending => (r.1, config, Outcome.trying)
      | Inner.over rest =>
        match configs with
        | [] => (r.1, config, Outcome.trying)
        | c :: cs =>
          let q := Get.loop key args c cs rest
          (r.1 ++ q.1, q.2)

/-- The method `Clerk.Get` (lines 78-116): the clerk afterwards, the requests
sent and the outcome. `IntSize` is the size of an `int` in bits, in which
`ck.count += 1` is computed. -/
def Clerk.Get (IntSize : Nat) {NShards : Nat} (ck : Clerk NShards) (key : GoString)
    (configs : List (Config NShards)) (replies : List (Bool × GetReply)) :
    Clerk NShards × List (String × GetArgs) × Outcome GoString :=
  let id := ck.count
  let args : GetArgs := { Key := key, ClientId := ck.id, Id := id }
  let r := Get.loop key args ck.config configs replies
  ({ config := r.2.1, id := ck.id, count := wrapInt IntSize (ck.count + 1) }, r.1, r.2.2)

/-- The test of line 149 on the outcome of one `srv.Call`. -/
def PutAppend.accepts (ok : Bool) (reply : PutAppendReply) : Bool :=
  ok && reply.WrongLeader == false && (reply.Err == Err.OK || reply.Err == Err.ErrOutdated)

/-- The loop over `servers` in `Clerk.PutAppend` (lines 145-165). -/
def PutAppend.tryServers (args : PutAppendArgs) :
    List String → List (Bool × PutAppendReply) →
      List (String × PutAppendArgs) × Inner Unit PutAppendReply
  | [], replies => ([], Inner.over replies)
  | srv :: _, [] => ([(srv, args)], Inner.pending)
  | srv :: servers, (ok, reply) :: replies =>
    if PutAppend.accepts ok reply then
      ([(srv, args)], Inner.returned ())
    else if ok && reply.Err == Err.ErrWrongGroup then
      ([(srv, args)], Inner.over replies)
    else
      let r := PutAppend.tryServers args servers replies
      ((srv, args) :: r.1, r.2)

/-- The outer loop of `Clerk.PutAppend` (lines 137-170). -/
def PutAppend.loop {NShards : Nat} (key : GoString) (args : PutAppendArgs) :
    Config NShards → List (Config NShards) → List (Bool × PutAppendReply) →
      List (String × PutAppendArgs) × Config NShards × Outcome Unit
  | config, configs, replies =>
    let shard := key2shard NShards key
    match config.shardAt shard with
    | none => ([], config, Outcome.panicked)
    | some gid =>
      let r : List (String × PutAppendArgs) × Inner Unit PutAppendReply :=
        match config.group gid with
        | some servers => PutAppend.tryServers args servers replies
        | none => ([], Inner.over replies)
      match r.2 with
      | Inner.returned v => (r.1, config, Outcome.returned v)
      | Inner.pending => (r.1, config, Outcome.trying)
      | Inner.over rest =>
        match configs with
        | [] => (r.1, config, Outcome.trying)
        | c :: cs =>
          let q := PutAppend.loop key args c cs rest
          (r.1 ++ q.1, q.2)

/-- The method `Clerk.PutAppend` (lines 122-171). -/
def Clerk.PutAppend (IntSize : Nat) {NShards : Nat} (ck : Clerk NShards) (key value : GoString) (op : String)
    (configs : List (Config NShards)) (replies : List (Bool × PutAppendReply)) :
    Clerk NShards × List (String × PutAppendArgs) × Outcome Unit :=
  let id := ck.count
  let args : PutAppendArgs :=
    { Key := key, Value := value, Op := op, ClientId := ck.id, Id := id }
  let r := PutAppend.loop key args ck.config configs replies
  ({ config := r.2.1, id := ck.id, count := wrapInt IntSize (ck.count + 1) }, r.1, r.2.2)

/-- The method `Clerk.Put` (lines 173-175). -/
def Clerk.Put (IntSize : Nat) {NShards : Nat} (ck : Clerk NShards) (key value : GoString)
    (configs : List (Config NShards)) (replies : List (Bool × PutAppendReply)) :
    Clerk NShards × List (String × PutAppendArgs) × Outcome Unit :=
  ck.PutAppend IntSize key value "Put" configs replies

/-- The method `Clerk.Append` (lines 176-178). -/
def Clerk.Append (IntSize : Nat) {NShards : Nat} (ck : Clerk NShards) (key value : GoString)
    (configs : List (Config NShards)) (replies : List (Bool × PutAppendReply)) :
    Clerk NShards × List (String × PutAppendArgs) × Outcome Unit :=
  ck.PutAppend IntSize key value "Append" configs replies

/-- One operation issued on a clerk, with what its environment answers: the
results of its configuration queries and of its RPCs. -/
inductive Operation (NShards : Nat) where
  | get (key : GoString) (configs : List (Config NShards)) (replies : List (Bool × GetReply))
  | put (key value : GoString) (configs : List (Config NShards))
      (replies : List (Bool × PutAppendReply))
  | append (key value : GoString) (configs : List (Config NShards))
      (replies : List (Bool × PutAppendReply))

/-- Whether an operation has returned. -/
def Outcome.isReturned {α : Type} : Outcome α → Bool
  | Outcome.returned _ => true
  | _ => false

/-- What is observed of one operation run on `ck`: the clerk afterwards, the
`(ClientId, Id)` of every request it sent, in the order sent, and whether it
returned. -/
def Operation.observe (IntSize : Nat) {NShards : Nat} (ck : Clerk NShards) :
    Operation NShards → Clerk NShards × List (Int × Int) × Bool
  | Operation.get key configs replies =>
    let r := ck.Get IntSize key configs replies
    (r.1, r.2.1.map (fun x => (x.2.ClientId, x.2.Id)), r.2.2.isReturned)
  | Operation.put key value configs replies =>
    let r := ck.Put IntSize key value configs replies
    (r.1, r.2.1.map (fun x => (x.2.ClientId, x.2.Id)), r.2.2.isReturned)
  | Operation.append key value configs replies =>
    let r := ck.Append IntSize key value configs replies
    (r.1, r.2.1.map (fun x => (x.2.ClientId, x.2.Id)), r.2.2.isReturned)

/-- The operations of `ops` issued one after the other on `ck`: the clerk
afterwards and, for each operation, the `(ClientId, Id)` of every request it
sent and whether it returned. -/
def issue (IntSize : Nat) {NShards : Nat} :
    Clerk NShards → List (Operation NShards) → Clerk NShards × List (List (Int × Int) × Bool)
  | ck, [] => (ck, [])
  | ck, op :: ops =>
    let r := op.observe IntSize ck
    let q := issue IntSize r.1 ops
    (q.1, r.2 :: q.2)

/-- Whether configuration `c` names at least one server for the shard of `key`. -/
def Config.serves {NShards : Nat} (c : Config NShards) (key : GoString) : Bool :=
  match c.shardAt (key2shard NShards key) with
  | none => false
  | some gid =>
    match c.group gid with
    | some (_ :: _) => true
    | _ => false

/-- A configuration with ten shards, all of them held by group 1, whose
servers are `s1` and `s2`. -/
def sampleConfig : Config 10 :=
  { Num := 1, Shards := ⟨List.replicate 10 1, List.length_replicate _ _⟩,
    Groups := [(1, ["s1", "s2"])] }

/-- Whether the environment of an operation lets it finish: every
configuration it is given names a server for the shard of its key, and one
of its first `configs.length` replies is one the operation returns on. -/
def Operation.answered {NShards : Nat} : Operation NShards → Bool
  | Operation.get key configs replies =>
    configs.all (fun c => c.serves key) &&
      (replies.take configs.length).any (fun x => Get.accepts x.1 x.2)
  | Operation.put key _ configs replies =>
    configs.all (fun c => c.serves key) &&
      (replies.take configs.length).any (fun x => PutAppend.accepts x.1 x.2)
  | Operation.append key _ configs replies =>
    configs.all (fun c => c.serves key) &&
      (replies.take configs.length).any (fun x => PutAppend.accepts x.1 x.2)

/-- The number of replies of an operation that come before the first one it
returns on. -/
def Operation.rejected {NShards : Nat} : Operation NShards → Nat
  | Operation.get _ _ replies =>
    (replies.takeWhile (fun x => !Get.accepts x.1 x.2)).length
  | Operation.put _ _ _ replies =>
    (replies.takeWhile (fun x => !PutAppend.accepts x.1 x.2)).length
  | Operation.append _ _ _ replies =>
    (replies.takeWhile (fun x => !PutAppend.accepts x.1 x.2)).length

/-- A `Get` of the key `"a"` that is answered at once, by a reply with
`Err = OK`. -/
def sampleGet : Operation 10 :=
  Operation.get [97] [sampleConfig] [(true, { WrongLeader := false, Err := Err.OK, Value := [] })]

/-- A `Get`, a `Put` and an `Append` of the key `"a"`: the `Get` is answered
after a call that fails, the `Put` after a reply from a wrong leader, the
`Append` at once with `ErrOutdated`. -/
def sampleOps : List (Operation 10) :=
  [Operation.get [97] [sampleConfig, sampleConfig]
     [(false, { WrongLeader := false, Err := Err.other [], Value := [] }),
      (true, { WrongLeader := false, Err := Err.OK, Value := [120] })],
   Operation.put [97] [120] [sampleConfig, sampleConfig]
     [(true, { WrongLeader := true, Err := Err.OK }),
      (true, { WrongLeader := false, Err := Err.OK })],
   Operation.append [97] [121] [sampleConfig]
     [(true, { WrongLeader := false, Err := Err.ErrOutdated })]]

end shardkv

/-! ## Part II: `mapreduce/schedule.go` -/

namespace mapreduce

/-- Modelled from the spec: the type `jobPhase` and its constants `mapPhase`
and `reducePhase` are declared in a file of the package that is not among the
sources. The constructor `other` stands for every value that matches neither
case of the `switch` of `schedule`, which has no default. -/
inductive jobPhase where
  | mapPhase
  | reducePhase
  | other (name : String)
  deriving DecidableEq, Repr

/-- The task descriptor `DoTaskArgs`, with the fields `schedule` fills in. -/
structure DoTaskArgs where
  JobName : String
  File : String
  Phase : jobPhase
  TaskNumber : Int
  NumOtherPhase : Int
  deriving DecidableEq, Repr

/-- The arguments of one call of `schedule`. The channel `registerChan` is made
by the caller; `cap` is its capacity (0 for an unbuffered channel). -/
structure Input where
  jobName : String
  mapFiles : List String
  nReduce : Int
  phase : jobPhase
  cap : Nat
  deriving DecidableEq, Repr

/-- The variable `ntasks` after the `switch` (lines 17-26). -/
def ntasks (inp : Input) : Int :=
  match inp.phase with
  | jobPhase.mapPhase => (inp.mapFiles.length : Int)
  | jobPhase.reducePhase => inp.nReduce
  | jobPhase.other _ => 0

/-- The variable `n_other` after the `switch` (lines 17-26). -/
def n_other (inp : Input) : Int :=
  match inp.phase with
  | jobPhase.mapPhase => inp.nReduce
  | jobPhase.reducePhase => (inp.mapFiles.length : Int)
  | jobPhase.other _ => 0

/-- The descriptor built in turn `i` of the loop (lines 39-44); `none` is the
index-out-of-range panic of `mapFiles[i]`. -/
def mkArgs (inp : Input) (i : Nat) : Option DoTaskArgs :=
  if inp.phase = jobPhase.mapPhase then
    match inp.mapFiles[i]? with
    | some file =>
      some { JobName := inp.jobName, File := file, Phase := inp.phase,
             TaskNumber := (i : Int), NumOtherPhase := n_other inp }
    | none => none
  else
    some { JobName := inp.jobName, File := "", Phase := inp.phase,
           TaskNumber := (i : Int), NumOtherPhase := n_other inp }

/-- Where a task goroutine (lines 46-59) stands. -/
inductive Pc where
  /-- At `nowWorker := <- registerChan` (line 49). -/
  | awaiting
  /-- Inside `call(nowWorker, "Worker.DoTask", args, nil)` (line 52). -/
  | invoking (w : String)
  /-- The call returned `true`; before `wg.Done()` (line 54). -/
  | succeeded (w : String)
  /-- At `registerChan <- nowWorker` (line 55). -/
  | pushing (w : String)
  /-- After `break`: the goroutine is over. -/
  | finished
  deriving DecidableEq, Repr

/-- A task goroutine: its argument `args` and where it stands. The counter
`retry` is written and never read, and is left out. -/
structure Goroutine where
  args : DoTaskArgs
  pc : Pc
  deriving DecidableEq, Repr

/-- Where the goroutine that runs `schedule` stands. -/
inductive MainPc where
  /-- At the test `i < ntasks` of the loop (line 38). -/
  | loop (i : Nat)
  /-- After `wg.Add(1)` (line 45), before the `go` statement (line 46). -/
  | added (i : Nat) (args : DoTaskArgs)
  /-- Inside `wg.Wait()` (line 61). -/
  | waiting
  /-- `wg.Wait()` has returned. -/
  | returned
  deriving DecidableEq, Repr

/-- What an execution does that can be observed; the state keeps the history. -/
inductive Event where
  /-- A sender outside `schedule` starts to offer handle `w` on `registerChan`. -/
  | register (w : String)
  /-- Task goroutine `t` received `w` from `registerChan`. -/
  | pull (t : Nat) (w : String)
  /-- In goroutine `t`, `call(w, "Worker.DoTask", args, nil)` returned `ok`. -/
  | call (t : Nat) (w : String) (args : DoTaskArgs) (ok : Bool)
  /-- Goroutine `t` executed `wg.Done()`. -/
  | done (t : Nat)
  /-- The send `registerChan <- w` of goroutine `t` completed. -/
  | push (t : Nat) (w : String)
  /-- `wg.Wait()` returned in `schedule`. -/
  | ret
  deriving DecidableEq, Repr

/-- A state of an execution of `schedule`. -/
structure State where
  /-- The goroutine of `schedule` itself. -/
  main : MainPc
  /-- The counter of the WaitGroup `wg`. -/
  wg : Int
  /-- The task goroutines started so far, in the order of the loop. -/
  tasks : List Goroutine
  /-- The buffer of `registerChan`, oldest element first. -/
  chan : List String
  /-- The handles that senders outside `schedule` (the registration of
  workers) are offering on `registerChan` and that were not received yet. -/
  offers : List String
  /-- Whether the program has panicked. -/
  panicked : Bool
  /-- The history, latest event first. -/
  log : List Event
  deriving DecidableEq, Repr

/-- The state in which `schedule` is entered: `var wg sync.WaitGroup` is zero. -/
def init : State :=
  { main := MainPc.loop 0, wg := 0, tasks := [], chan := [], offers := [],
    panicked := false, log := [] }

/-- The atomic steps of an execution. -/
inductive Action where
  /-- The goroutine of `schedule` executes its next statement. -/
  | main
  /-- A worker registers: a sender outside starts to offer `w`. -/
  | register (w : String)
  /-- A sender outside puts `w` into the buffer of the channel. -/
  | extSend (w : String)
  /-- The receive of goroutine `t` takes `w` directly from a sender outside. -/
  | extHand (w : String) (t : Nat)
  /-- The receive of goroutine `t` takes the oldest element of the buffer. -/
  | recv (t : Nat)
  /-- The `call` of goroutine `t` returns `ok`. -/
  | callRet (t : Nat) (ok : Bool)
  /-- Goroutine `t` executes `wg.Done()`. -/
  | done (t : Nat)
  /-- The send of goroutine `t` puts its handle into the buffer. -/
  | send (t : Nat)
  /-- The receive of goroutine `u` takes the handle directly from the send of
  goroutine `t`. -/
  | hand (t u : Nat)
  deriving DecidableEq, Repr

/-- One step of `schedule` (lines 37-61) and of its task goroutines (lines
46-59) under the semantics of Go channels and of `sync.WaitGroup`; `none` when
the action is not enabled. A send on a channel completes when the buffer has
room or a receiver takes the value directly; a receive takes the oldest
buffered value, or is served directly by a sender when the buffer is empty.
`wg.Done()` panics when the counter would become negative; `wg.Wait()` returns
once the counter is zero. -/
def step (inp : Input) (s : State) (a : Action) : Option State :=
  if s.panicked then none else
  match a with
  | Action.main =>
    match s.main with
    | MainPc.loop i =>
      if (i : Int) < ntasks inp then
        match mkArgs inp i with
        | some args => some { s with main := MainPc.added i args, wg := s.wg + 1 }
        | none => some { s with panicked := true }
      else some { s with main := MainPc.waiting }
    | MainPc.added i args =>
      some { s with main := MainPc.loop (i + 1),
                    tasks := s.tasks ++ [{ args := args, pc := Pc.awaiting }] }
    | MainPc.waiting =>
      if s.wg = 0 then some { s with main := MainPc.returned, log := Event.ret :: s.log }
      else none
    | MainPc.returned => none
  | Action.register w =>
    some { s with offers := w :: s.offers, log := Event.register w :: s.log }
  | Action.extSend w =>
    if w ∈ s.offers ∧ s.chan.length < inp.cap then
      some { s with offers := s.offers.erase w, chan := s.chan ++ [w] }
    else none
  | Action.extHand w t =>
    match s.tasks[t]? with
    | some { args := args, pc := Pc.awaiting } =>
      if w ∈ s.offers ∧ s.chan = [] then
        some { s with offers := s.offers.erase w,
                      tasks := s.tasks.set t { args := args, pc := Pc.invoking w },
                      log := Event.pull t w :: s.log }
      else none
    | _ => none
  | Action.recv t =>
    match s.tasks[t]?, s.chan with
    | some { args := args, pc := Pc.awaiting }, w :: rest =>
      some { s with chan := rest,
                    tasks := s.tasks.set t { args := args, pc := Pc.invoking w },
                    log := Event.pull t w :: s.log }
    | _, _ => none
  | Action.callRet t ok =>
    match s.tasks[t]? with
    | some { args := args, pc := Pc.invoking w } =>
      some { s with tasks := s.tasks.set t
                      { args := args, pc := if ok then Pc.succeeded w else Pc.awaiting },
                    log := Event.call t w args ok :: s.log }
    | _ => none
  | Action.done t =>
    match s.tasks[t]? with
    | some { args := args, pc := Pc.succeeded w } =>
      if s.wg - 1 < 0 then some { s with panicked := true }
      else some { s with wg := s.wg - 1,
                         tasks := s.tasks.set t { args := args, pc := Pc.pushing w },
                         log := Event.done t :: s.log }
    | _ => none
  | Action.send t =>
    match s.tasks[t]? with
    | some { args := args, pc := Pc.pushing w } =>
      if s.chan.length < inp.cap then
        some { s with chan := s.chan ++ [w],
                      tasks := s.tasks.set t { args := args, pc := Pc.finished },
                      log := Event.push t w :: s.log }
      else none
    | _ => none
  | Action.hand t u =>
    match s.tasks[t]?, s.tasks[u]? with
    | some { args := args, pc := Pc.pushing w }, some { args := args2, pc := Pc.awaiting } =>
      if s.chan = [] then
        some { s with tasks := (s.tasks.set t { args := args, pc := Pc.finished }).set u
                        { args := args2, pc := Pc.invoking w },
                      log := Event.pull u w :: Event.push t w :: s.log }
      else none
    | _, _ => none

/-- The execution of a sequence of actions; `none` when one of them is not
enabled. -/
def run (inp : Input) : State → List Action → Option State
  | s, [] => some s
  | s, a :: as =>
    match step inp s a with
    | some s1 => run inp s1 as
    | none => none

/-- The number of tasks of the batch, as a natural number. -/
def taskCount (inp : Input) : Nat := (ntasks inp).toNat

/-- The arguments of the successful invocations of the history. -/
def successes : List Event → List DoTaskArgs
  | [] => []
  | Event.call _ _ args true :: es => args :: successes es
  | _ :: es => successes es

/-- The invocations of the history: task goroutine, handle, arguments, result. -/
def calls : List Event → List (Nat × String × DoTaskArgs × Bool)
  | [] => []
  | Event.call t w args ok :: es => (t, w, args, ok) :: calls es
  | _ :: es => calls es

/-- The reference batch, in the words of the specification: `len(mapFiles)`
entries in the map phase and `nReduce` in the reduce phase; entry `i` has
`TaskNumber = i`, the given phase and job name, the complementary count as
`NumOtherPhase`, and `File = mapFiles[i]` in the map phase, empty in the
reduce phase. -/
def referenceBatch (jobName : String) (mapFiles : List String) (nReduce : Int) :
    jobPhase → List DoTaskArgs
  | jobPhase.mapPhase =>
    (List.range mapFiles.length).map fun (i : Nat) =>
      { JobName := jobName, File := mapFiles.getD i "", Phase := jobPhase.mapPhase,
        TaskNumber := (i : Int), NumOtherPhase := nReduce }
  | jobPhase.reducePhase =>
    (List.range nReduce.toNat).map fun (i : Nat) =>
      { JobName := jobName, File := "", Phase := jobPhase.reducePhase,
        TaskNumber := (i : Int), NumOtherPhase := (mapFiles.length : Int) }
  | jobPhase.other _ => []

/-- A map phase over two files with two reduce tasks, on an unbuffered channel. -/
def sampleInput : Input :=
  { jobName := "job", mapFiles := ["a.txt", "b.txt"], nReduce := 2,
    phase := jobPhase.mapPhase, cap := 0 }

/-- An execution on `sampleInput` with the single worker `w`: both tasks are
started, task 0 receives `w` from the registration, succeeds, and hands `w`
over to task 1, which succeeds; then `schedule` returns. -/
def sampleRun : List Action :=
  [Action.register "w", Action.main, Action.main, Action.main, Action.main, Action.main,
   Action.extHand "w" 0, Action.callRet 0 true, Action.done 0, Action.hand 0 1,
   Action.callRet 1 true, Action.done 1, Action.main]

/-- The descriptor of task `i` on `sampleInput`. -/
def sampleArgs (i : Nat) (file : String) : DoTaskArgs :=
  { JobName := "job", File := file, Phase := jobPhase.mapPhase, TaskNumber := (i : Int),
    NumOtherPhase := 2 }

/-- The state `sampleRun` ends in. -/
def sampleFinal : State :=
  { main := MainPc.returned, wg := 0,
    tasks := [{ args := sampleArgs 0 "a.txt", pc := Pc.finished },
              { args := sampleArgs 1 "b.txt", pc := Pc.pushing "w" }],
    chan := [], offers := [], panicked := false,
    log := [Event.ret, Event.done 1, Event.call 1 "w" (sampleArgs 1 "b.txt") true,
            Event.pull 1 "w", Event.push 0 "w", Event.done 0,
            Event.call 0 "w" (sampleArgs 0 "a.txt") true, Event.pull 0 "w",
            Event.register "w"] }

/-- The beginning of an execution on `sampleInput`: task 0 is started, receives
`w`, succeeds and executes `wg.Done()` before `schedule` gets to `wg.Add(1)`
for task 1. -/
def sampleEarlyRun : List Action :=
  [Action.register "w", Action.main, Action.main, Action.extHand "w" 0,
   Action.callRet 0 true, Action.done 0]

/-- The state `sampleEarlyRun` ends in. -/
def sampleEarly : State :=
  { main := MainPc.loop 1, wg := 0,
    tasks := [{ args := sampleArgs 0 "a.txt", pc := Pc.pushing "w" }],
    chan := [], offers := [], panicked := false,
    log := [Event.done 0, Event.call 0 "w" (sampleArgs 0 "a.txt") true, Event.pull 0 "w",
            Event.register "w"] }

/-- An execution on `sampleInput` in which the invocation of task 0 on the
worker `w1` fails and its next invocation, on the worker `w2`, succeeds. -/
def sampleRetryRun : List Action :=
  [Action.register "w1", Action.main, Action.main, Action.extHand "w1" 0,
   Action.callRet 0 false, Action.register "w2", Action.extHand "w2" 0,
   Action.callRet 0 true]

/-- The state `sampleRetryRun` ends in. -/
def sampleRetried : State :=
  { main := MainPc.loop 1, wg := 1,
    tasks := [{ args := sampleArgs 0 "a.txt", pc := Pc.succeeded "w2" }],
    chan := [], offers := [], panicked := false,
    log := [Event.call 0 "w2" (sampleArgs 0 "a.txt") true, Event.pull 0 "w2",
            Event.register "w2", Event.call 0 "w1" (sampleArgs 0 "a.txt") false,
            Event.pull 0 "w1", Event.register "w1"] }

/-- Whether the goroutine has executed `wg.Done()`. -/
def Pc.isDone : Pc → Bool
  | Pc.pushing _ => true
  | Pc.finished => true
  | _ => false

/-- Whether the `call` of the goroutine has returned `true`. -/
def Pc.hasSucceeded : Pc → Bool
  | Pc.succeeded _ => true
  | Pc.pushing _ => true
  | Pc.finished => true
  | _ => false

/-- Whether the goroutine holds a worker handle: it has received one and
its send, if any, has not completed. -/
def Pc.holding : Pc → Bool
  | Pc.invoking _ => true
  | Pc.succeeded _ => true
  | Pc.pushing _ => true
  | _ => false

/-- The number of task goroutines that have executed `wg.Done()`. -/
def doneCount (s : State) : Nat := s.tasks.countP fun g => g.pc.isDone

/-- The steps of `step`, one rule for each way an action can be taken. -/
inductive Step (inp : Input) (s : State) : Action → State → Prop where
  | enter (i : Nat) (args : DoTaskArgs) :
    s.panicked = false → s.main = MainPc.loop i → (i : Int) < ntasks inp →
    mkArgs inp i = some args →
    Step inp s Action.main { s with main := MainPc.added i args, wg := s.wg + 1 }
  | indexPanic (i : Nat) :
    s.panicked = false → s.main = MainPc.loop i → (i : Int) < ntasks inp →
    mkArgs inp i = none →
    Step inp s Action.main { s with panicked := true }
  | wait (i : Nat) :
    s.panicked = false → s.main = MainPc.loop i → ¬ (i : Int) < ntasks inp →
    Step inp s Action.main { s with main := MainPc.waiting }
  | go (i : Nat) (args : DoTaskArgs) :
    s.panicked = false → s.main = MainPc.added i args →
    Step inp s Action.main
      { s with main := MainPc.loop (i + 1),
               tasks := s.tasks ++ [{ args := args, pc := Pc.awaiting }] }
  | ret :
    s.panicked = false → s.main = MainPc.waiting → s.wg = 0 →
    Step inp s Action.main { s with main := MainPc.returned, log := Event.ret :: s.log }
  | register (w : String) :
    s.panicked = false →
    Step inp s (Action.register w)
      { s with offers := w :: s.offers, log := Event.register w :: s.log }
  | extSend (w : String) :
    s.panicked = false → w ∈ s.offers → s.chan.length < inp.cap →
    Step inp s (Action.extSend w) { s with offers := s.offers.erase w, chan := s.chan ++ [w] }
  | extHand (w : String) (t : Nat) (args : DoTaskArgs) :
    s.panicked = false → s.tasks[t]? = some { args := args, pc := Pc.awaiting } →
    w ∈ s.offers → s.chan = [] →
    Step inp s (Action.extHand w t)
      { s with offers := s.offers.erase w,
               tasks := s.tasks.set t { args := args, pc := Pc.invoking w },
               log := Event.pull t w :: s.log }
  | recv (t : Nat) (args : DoTaskArgs) (w : String) (rest : List String) :
    s.panicked = false → s.tasks[t]? = some { args := args, pc := Pc.awaiting } →
    s.chan = w :: rest →
    Step inp s (Action.recv t)
      { s with chan := rest,
               tasks := s.tasks.set t { args := args, pc := Pc.invoking w },
               log := Event.pull t w :: s.log }
  | callRet (t : Nat) (ok : Bool) (args : DoTaskArgs) (w : String) :
    s.panicked = false → s.tasks[t]? = some { args := args, pc := Pc.invoking w } →
    Step inp s (Action.callRet t ok)
      { s with tasks := s.tasks.set t
                 { args := args, pc := if ok then Pc.succeeded w else Pc.awaiting },
               log := Event.call t w args ok :: s.log }
  | done (t : Nat) (args : DoTaskArgs) (w : String) :
    s.panicked = false → s.tasks[t]? = some { args := args, pc := Pc.succeeded w } →
    ¬ s.wg - 1 < 0 →
    Step inp s (Action.done t)
      { s with wg := s.wg - 1,
               tasks := s.tasks.set t { args := args, pc := Pc.pushing w },
               log := Event.done t :: s.log }
  | donePanic (t : Nat) (args : DoTaskArgs) (w : String) :
    s.panicked = false → s.tasks[t]? = some { args := args, pc := Pc.succeeded w } →
    s.wg - 1 < 0 →
    Step inp s (Action.done t) { s with panicked := true }
  | send (t : Nat) (args : DoTaskArgs) (w : String) :
    s.panicked = false → s.tasks[t]? = some { args := args, pc := Pc.pushing w } →
    s.chan.length < inp.cap →
    Step inp s (Action.send t)
      { s with chan := s.chan ++ [w],
               tasks := s.tasks.set t { args := args, pc := Pc.finished },
               log := Event.push t w :: s.log }
  | hand (t u : Nat) (args args2 : DoTaskArgs) (w : String) :
    s.panicked = false → s.tasks[t]? = some { args := args, pc := Pc.pushing w } →
    s.tasks[u]? = some { args := args2, pc := Pc.awaiting } → s.chan = [] →
    Step inp s (Action.hand t u)
      { s with tasks := (s.tasks.set t { args := args, pc := Pc.finished }).set u
                 { args := args2, pc := Pc.invoking w },
               log := Event.pull u w :: Event.push t w :: s.log }

end mapreduce

/-! ### Invariants of the executions of `schedule` -/

namespace mapreduce

/-- Whether the event is an invocation by goroutine `t` that returned `true`. -/
def Event.isSuccessOf (t : Nat) : Event → Bool
  | Event.call u _ _ true => u == t
  | _ => false

/-- Whether the event is an invocation by goroutine `t` that returned `false`. -/
def Event.isFailureOf (t : Nat) : Event → Bool
  | Event.call u _ _ false => u == t
  | _ => false

/-- Whether the event is an invocation by goroutine `t`. -/
def Event.isCallOf (t : Nat) : Event → Bool
  | Event.call u _ _ _ => u == t
  | _ => false

/-- Whether the event is a receive by goroutine `t`. -/
def Event.isPullOf (t : Nat) : Event → Bool
  | Event.pull u _ => u == t
  | _ => false

/-- Whether the event is the `wg.Done()` of goroutine `t`. -/
def Event.isDoneOf (t : Nat) : Event → Bool
  | Event.done u => u == t
  | _ => false

/-- Whether the event is the completed send of goroutine `t`. -/
def Event.isPushOf (t : Nat) : Event → Bool
  | Event.push u _ => u == t
  | _ => false

/-- The control invariant: no panic, the WaitGroup counter is the number of
`wg.Add(1)` executed minus the number of `wg.Done()` executed, and goroutine
`t` carries the descriptor built in turn `t` of the loop. -/
structure Inv (inp : Input) (s : State) : Prop where
  noPanic : s.panicked = false
  atLoop : ∀ i, s.main = MainPc.loop i →
    s.tasks.length = i ∧ i ≤ taskCount inp ∧ s.wg = (i : Int) - (doneCount s : Int)
  atAdded : ∀ i args, s.main = MainPc.added i args →
    s.tasks.length = i ∧ i < taskCount inp ∧ mkArgs inp i = some args ∧
      s.wg = (i : Int) + 1 - (doneCount s : Int)
  atWait : s.main = MainPc.waiting →
    s.tasks.length = taskCount inp ∧ s.wg = (taskCount inp : Int) - (doneCount s : Int)
  atRet : s.main = MainPc.returned →
    s.tasks.length = taskCount inp ∧ s.wg = 0 ∧ doneCount s = taskCount inp
  args : ∀ (t : Nat) (g : Goroutine), s.tasks[t]? = some g → mkArgs inp t = some g.args


/-- Whether the goroutine stands right before its `wg.Done()`. -/
def Pc.beforeDone : Pc → Bool
  | Pc.succeeded _ => true
  | _ => false

/-- Where goroutine `t` stands, if it was started. -/
def State.pcAt (s : State) (t : Nat) : Option Pc := (s.tasks[t]?).map Goroutine.pc

/-- The number 1 if the goroutine was started and stands at a place that
satisfies `p`, and 0 otherwise. -/
def indicator (p : Pc → Bool) : Option Pc → Nat
  | some pc => if p pc then 1 else 0
  | none => 0

/-- A property `Q e older` holds for every event `e` of a history, `older`
being the events that came before it. -/
def EachAfter (Q : Event → List Event → Prop) : List Event → Prop
  | [] => True
  | e :: older => Q e older ∧ EachAfter Q older

/-- What comes before an event of a task goroutine: a receive or an invocation
by `t` comes after no successful invocation by `t`; an invocation on `w` comes
after the receive of `w`; `wg.Done()` comes after a successful invocation and
after no other `wg.Done()` of `t`; the send of `w` comes after the successful
invocation on `w`, after `wg.Done()`, and after no other send of `t`. -/
def Event.inOrder (e : Event) (older : List Event) : Prop :=
  match e with
  | Event.pull t _ => older.countP (Event.isSuccessOf t) = 0
  | Event.call t w _ _ => Event.pull t w ∈ older ∧ older.countP (Event.isSuccessOf t) = 0
  | Event.done t =>
    (∃ w a, Event.call t w a true ∈ older) ∧ older.countP (Event.isDoneOf t) = 0
  | Event.push t w =>
    (∃ a, Event.call t w a true ∈ older) ∧ Event.done t ∈ older ∧
      older.countP (Event.isPushOf t) = 0
  | _ => True

/-- One statement of the loop of a task goroutine (lines 48-58): where the
goroutine stands before, the event, and where it stands afterwards. -/
inductive TaskMove (t : Nat) (args : DoTaskArgs) : Pc → Event → Pc → Prop where
  | pull (w : String) : TaskMove t args Pc.awaiting (Event.pull t w) (Pc.invoking w)
  | call (w : String) (ok : Bool) :
    TaskMove t args (Pc.invoking w) (Event.call t w args ok)
      (if ok then Pc.succeeded w else Pc.awaiting)
  | done (w : String) : TaskMove t args (Pc.succeeded w) (Event.done t) (Pc.pushing w)
  | push (w : String) : TaskMove t args (Pc.pushing w) (Event.push t w) Pc.finished

/-- The history invariant: the events of the history of each goroutine match
the place where it stands. -/
structure Hist (s : State) : Prop where
  succ : ∀ t, s.log.countP (Event.isSuccessOf t) = indicator Pc.hasSucceeded (s.pcAt t)
  dones : ∀ t, s.log.countP (Event.isDoneOf t) = indicator Pc.isDone (s.pcAt t)
  pushes : ∀ t, s.log.countP (Event.isPushOf t) = indicator (fun pc => pc == Pc.finished) (s.pcAt t)
  callArgs : ∀ t w a ok, Event.call t w a ok ∈ s.log → ∃ pc, s.tasks[t]? = some ⟨a, pc⟩
  pulled : ∀ t w, s.pcAt t = some (Pc.invoking w) → Event.pull t w ∈ s.log
  won : ∀ t w, s.pcAt t = some (Pc.succeeded w) ∨ s.pcAt t = some (Pc.pushing w) →
    ∃ a, Event.call t w a true ∈ s.log
  order : EachAfter Event.inOrder s.log
  total : (successes s.log).length = s.tasks.countP fun g => g.pc.hasSucceeded


/-- Whether the goroutine holds the handle `w`. -/
def Pc.holds (w : String) : Pc → Bool
  | Pc.invoking u => u == w
  | Pc.succeeded u => u == w
  | Pc.pushing u => u == w
  | _ => false

/-- The handles that were registered, latest first. -/
def registered : List Event → List String
  | [] => []
  | Event.register w :: es => w :: registered es
  | _ :: es => registered es

/-- Whether the event is an invocation on `w` that returned `false`. -/
def Event.isFailureOn (w : String) : Event → Bool
  | Event.call _ u _ false => u == w
  | _ => false

/-- Whether the event is an invocation that returned `false`. -/
def Event.isFailure : Event → Bool
  | Event.call _ _ _ false => true
  | _ => false

/-- The number of places where the handle `w` sits: offered by a sender
outside, in the buffer of the channel, or held by a task goroutine. -/
def occurrences (w : String) (s : State) : Nat :=
  s.offers.count w + s.chan.count w + s.tasks.countP fun g => g.pc.holds w

/-- The number of handles in the system. -/
def tokens (s : State) : Nat :=
  s.offers.length + s.chan.length + s.tasks.countP fun g => g.pc.holding

/-- A receive of `w` comes after fewer failed invocations on `w` than
registrations of `w`. -/
def Event.pullLive (e : Event) (older : List Event) : Prop :=
  match e with
  | Event.pull _ w => older.countP (Event.isFailureOn w) < (registered older).count w
  | _ => True

/-- The conservation of handles: a handle enters with a registration and
leaves with a failed invocation, and with nothing else. -/
structure Tokens (s : State) : Prop where
  each : ∀ w, occurrences w s + s.log.countP (Event.isFailureOn w) = (registered s.log).count w
  total : tokens s + s.log.countP Event.isFailure = (registered s.log).length
  live : EachAfter Event.pullLive s.log


/-- Whether the invocation of the goroutine is in flight. -/
def Pc.inFlight : Pc → Bool
  | Pc.invoking _ => true
  | _ => false

/-- The actions of an execution in which no further worker registers and no
invocation fails: all but a registration and the return of `false`. -/
def Action.steady : Action → Bool
  | Action.register _ => false
  | Action.callRet _ false => false
  | _ => true

/-- The number of statements a task goroutine has left when no invocation
fails. -/
def Pc.weight : Pc → Nat
  | Pc.awaiting => 4
  | Pc.invoking _ => 3
  | Pc.succeeded _ => 2
  | Pc.pushing _ => 1
  | Pc.finished => 0

/-- The number of steps the goroutine of `schedule` has left, those of the
goroutines it has yet to start included. -/
def MainPc.weight (n : Nat) : MainPc → Nat
  | MainPc.loop i => 6 * (n - i) + 2
  | MainPc.added i _ => 6 * (n - i) + 1
  | MainPc.waiting => 1
  | MainPc.returned => 0

/-- A bound on the number of steps left when no further worker registers and
no invocation fails. -/
def remaining (inp : Input) (s : State) : Nat :=
  s.main.weight (taskCount inp) + (s.tasks.map fun g => g.pc.weight).sum + s.offers.length

end mapreduce

/-! ## Theorems on `shardkv/client.go` -/

namespace shardkv

theorem key2shard_nil (NShards : Nat) : key2shard NShards [] = 0 := by
  simp [key2shard]

theorem key2shard_cons (NShards : Nat) (b : Fin 256) (rest : GoString) :
    key2shard NShards (b :: rest) = ((b.val % NShards : Nat) : Int) := by
  show Int.tmod (b.val : Int) (NShards : Int) = _
  exact (Int.ofNat_tmod _ _).symm

theorem key2shard_range (NShards : Nat) (hN : 0 < NShards) (key : GoString) :
    0 ≤ key2shard NShards key ∧ key2shard NShards key < (NShards : Int) := by
  cases key with
  | nil => rw [key2shard_nil]; exact ⟨le_refl _, by exact_mod_cast hN⟩
  | cons b rest =>
    rw [key2shard_cons]
    exact ⟨Int.ofNat_nonneg _, by exact_mod_cast Nat.mod_lt _ hN⟩

theorem shardAt_key2shard {NShards : Nat} (hN : 0 < NShards) (c : Config NShards)
    (key : GoString) : ∃ gid, c.shardAt (key2shard NShards key) = some gid := by
  obtain ⟨h0, h1⟩ := key2shard_range NShards hN key
  have hlt : (key2shard NShards key).toNat < c.Shards.val.length := by
    rw [c.Shards.property]; omega
  refine ⟨c.Shards.val[(key2shard NShards key).toNat], ?_⟩
  simp [Config.shardAt, h0, List.getElem?_eq_getElem hlt]


theorem Get.accepts_ok {ok : Bool} {reply : GetReply} (h : Get.accepts ok reply = true) :
    ok = true ∧ reply.WrongLeader = false ∧ (reply.Err = Err.OK ∨ reply.Err = Err.ErrNoKey) := by
  simpa [Get.accepts, and_assoc] using h

theorem Get.tryServers_returned (args : GetArgs) :
    ∀ (servers : List String) (replies : List (Bool × GetReply))
      (sent : List (String × GetArgs)) (v : GoString),
      Get.tryServers args servers replies = (sent, Inner.returned v) →
      ∃ pre r post, replies = pre ++ (true, r) :: post ∧ Get.accepts true r = true ∧
        v = r.Value ∧ (∀ x ∈ pre, Get.accepts x.1 x.2 = false) ∧
        sent.length = pre.length + 1 := by
  intro servers
  induction servers with
  | nil => intro replies sent v h; simp [Get.tryServers] at h
  | cons srv servers ih =>
    intro replies sent v h
    cases replies with
    | nil => simp [Get.tryServers] at h
    | cons x replies =>
      obtain ⟨ok, reply⟩ := x
      simp only [Get.tryServers] at h
      split at h
      · rename_i hacc
        have hok := (Get.accepts_ok hacc).1
        subst hok
        simp only [Prod.mk.injEq, Inner.returned.injEq] at h
        refine ⟨[], reply, replies, rfl, hacc, h.2.symm, by simp, ?_⟩
        rw [← h.1]; rfl
      · rename_i hacc
        split at h
        · simp at h
        · simp only [Prod.mk.injEq] at h
          obtain ⟨pre, r, post, h1, h2, h3, h4, h5⟩ :=
            ih replies (Get.tryServers args servers replies).1 v (Prod.ext rfl h.2)
          refine ⟨(ok, reply) :: pre, r, post, by rw [h1]; rfl, h2, h3, ?_, ?_⟩
          · intro x hx
            rcases List.mem_cons.1 hx with hx | hx
            · subst hx; simpa using hacc
            · exact h4 x hx
          · rw [← h.1]; simp [h5]

theorem Get.tryServers_over (args : GetArgs) :
    ∀ (servers : List String) (replies : List (Bool × GetReply))
      (sent : List (String × GetArgs)) (rest : List (Bool × GetReply)),
      Get.tryServers args servers replies = (sent, Inner.over rest) →
      ∃ pre, replies = pre ++ rest ∧ (∀ x ∈ pre, Get.accepts x.1 x.2 = false) ∧
        sent.length = pre.length := by
  intro servers
  induction servers with
  | nil =>
    intro replies sent rest h
    simp only [Get.tryServers, Prod.mk.injEq, Inner.over.injEq] at h
    exact ⟨[], by simp [h.2], by simp, by rw [← h.1]; rfl⟩
  | cons srv servers ih =>
    intro replies sent rest h
    cases replies with
    | nil => simp [Get.tryServers] at h
    | cons x replies =>
      obtain ⟨ok, reply⟩ := x
      simp only [Get.tryServers] at h
      split at h
      · simp at h
      · rename_i hacc
        split at h
        · simp only [Prod.mk.injEq, Inner.over.injEq] at h
          refine ⟨[(ok, reply)], by simp [h.2], ?_, by rw [← h.1]; rfl⟩
          intro x hx
          rw [List.mem_singleton.1 hx]; simpa using hacc
        · simp only [Prod.mk.injEq] at h
          obtain ⟨pre, h1, h4, h5⟩ :=
            ih replies (Get.tryServers args servers replies).1 rest (Prod.ext rfl h.2)
          refine ⟨(ok, reply) :: pre, by rw [h1]; rfl, ?_, ?_⟩
          · intro x hx
            rcases List.mem_cons.1 hx with hx | hx
            · subst hx; simpa using hacc
            · exact h4 x hx
          · rw [← h.1]; simp [h5]

theorem Get.tryServers_args (args : GetArgs) :
    ∀ (servers : List String) (replies : List (Bool × GetReply)),
      ∀ x ∈ (Get.tryServers args servers replies).1, x.2 = args := by
  intro servers
  induction servers with
  | nil => intro replies x hx; simp [Get.tryServers] at hx
  | cons srv servers ih =>
    intro replies x hx
    cases replies with
    | nil => simp [Get.tryServers] at hx; rw [hx]
    | cons y replies =>
      obtain ⟨ok, reply⟩ := y
      simp only [Get.tryServers] at hx
      split at hx
      · simp at hx; rw [hx]
      · split at hx
        · simp at hx; rw [hx]
        · rcases List.mem_cons.1 hx with hx | hx
          · rw [hx]
          · exact ih replies x hx


/-- One turn of the outer loop of `Get`, with the array access resolved. -/
theorem Get.loop_step {NShards : Nat} (key : GoString) (args : GetArgs)
    (config : Config NShards) (configs : List (Config NShards))
    (replies : List (Bool × GetReply)) (gid : Int)
    (hg : config.shardAt (key2shard NShards key) = some gid) :
    Get.loop key args config configs replies =
      (let r : List (String × GetArgs) × Inner GoString GetReply :=
        match config.group gid with
        | some servers => Get.tryServers args servers replies
        | none => ([], Inner.over replies)
      match r.2 with
      | Inner.returned v => (r.1, config, Outcome.returned v)
      | Inner.pending => (r.1, config, Outcome.trying)
      | Inner.over rest =>
        match configs with
        | [] => (r.1, config, Outcome.trying)
        | c :: cs =>
          let q := Get.loop key args c cs rest
          (r.1 ++ q.1, q.2)) := by
  cases configs
  · simp [Get.loop, hg]
  · conv_lhs => rw [Get.loop]
    simp only [hg]


theorem Get.loop_returned {NShards : Nat} (hN : 0 < NShards) (key : GoString) (args : GetArgs) :
    ∀ (configs : List (Config NShards)) (config : Config NShards)
      (replies : List (Bool × GetReply)) (v : GoString),
      (Get.loop key args config configs replies).2.2 = Outcome.returned v →
      ∃ pre r post, replies = pre ++ (true, r) :: post ∧ Get.accepts true r = true ∧
        v = r.Value ∧ (∀ x ∈ pre, Get.accepts x.1 x.2 = false) ∧
        (Get.loop key args config configs replies).1.length = pre.length + 1 := by
  intro configs
  induction configs with
  | nil =>
    intro config replies v h
    obtain ⟨gid, hg⟩ := shardAt_key2shard hN config key
    rw [Get.loop_step key args config [] replies gid hg] at h ⊢
    cases hgr : config.group gid with
    | none => simp [hgr] at h
    | some servers =>
      simp only [hgr] at h ⊢
      cases hi : (Get.tryServers args servers replies).2 with
      | returned w =>
        simp only [hi] at h ⊢
        simp only [Outcome.returned.injEq] at h
        subst h
        exact Get.tryServers_returned args servers replies _ w (Prod.ext rfl hi)
      | over rest => simp [hi] at h
      | pending => simp [hi] at h
  | cons c cs ih =>
    intro config replies v h
    obtain ⟨gid, hg⟩ := shardAt_key2shard hN config key
    rw [Get.loop_step key args config (c :: cs) replies gid hg] at h ⊢
    cases hgr : config.group gid with
    | none =>
      simp only [hgr] at h ⊢
      obtain ⟨pre, r, post, h1, h2, h3, h4, h5⟩ := ih c replies v h
      exact ⟨pre, r, post, h1, h2, h3, h4, by simpa using h5⟩
    | some servers =>
      simp only [hgr] at h ⊢
      cases hi : (Get.tryServers args servers replies).2 with
      | returned w =>
        simp only [hi] at h ⊢
        simp only [Outcome.returned.injEq] at h
        subst h
        exact Get.tryServers_returned args servers replies _ w (Prod.ext rfl hi)
      | pending => simp [hi] at h
      | over rest =>
        simp only [hi] at h ⊢
        obtain ⟨pre0, g1, g4, g5⟩ :=
          Get.tryServers_over args servers replies _ rest (Prod.ext rfl hi)
        obtain ⟨pre, r, post, h1, h2, h3, h4, h5⟩ := ih c rest v h
        refine ⟨pre0 ++ pre, r, post, by rw [g1, h1]; simp, h2, h3, ?_, ?_⟩
        · intro x hx
          rcases List.mem_append.1 hx with hx | hx
          · exact g4 x hx
          · exact h4 x hx
        · simp only [List.length_append, g5, h5]; omega

theorem Get.loop_no_panic {NShards : Nat} (hN : 0 < NShards) (key : GoString) (args : GetArgs) :
    ∀ (configs : List (Config NShards)) (config : Config NShards)
      (replies : List (Bool × GetReply)),
      (Get.loop key args config configs replies).2.2 ≠ Outcome.panicked := by
  intro configs
  induction configs with
  | nil =>
    intro config replies
    obtain ⟨gid, hg⟩ := shardAt_key2shard hN config key
    rw [Get.loop_step key args config [] replies gid hg]
    dsimp only
    split <;> simp
  | cons c cs ih =>
    intro config replies
    obtain ⟨gid, hg⟩ := shardAt_key2shard hN config key
    rw [Get.loop_step key args config (c :: cs) replies gid hg]
    dsimp only
    split
    · simp
    · simp
    · exact ih c _

theorem Get.loop_args {NShards : Nat} (key : GoString) (args : GetArgs) :
    ∀ (configs : List (Config NShards)) (config : Config NShards)
      (replies : List (Bool × GetReply)),
      ∀ x ∈ (Get.loop key args config configs replies).1, x.2 = args := by
  intro configs
  induction configs with
  | nil =>
    intro config replies x hx
    cases hg : config.shardAt (key2shard NShards key) with
    | none => simp [Get.loop, hg] at hx
    | some gid =>
      rw [Get.loop_step key args config [] replies gid hg] at hx
      cases hgr : config.group gid with
      | none => simp [hgr] at hx
      | some servers =>
        simp only [hgr] at hx
        have := Get.tryServers_args args servers replies x
        split at hx <;> exact this hx
  | cons c cs ih =>
    intro config replies x hx
    cases hg : config.shardAt (key2shard NShards key) with
    | none => rw [Get.loop] at hx; simp [hg] at hx
    | some gid =>
      rw [Get.loop_step key args config (c :: cs) replies gid hg] at hx
      cases hgr : config.group gid with
      | none =>
        simp only [hgr] at hx
        exact ih c replies x (by simpa using hx)
      | some servers =>
        simp only [hgr] at hx
        have := Get.tryServers_args args servers replies x
        split at hx
        · exact this hx
        · exact this hx
        · rcases List.mem_append.1 hx with hx | hx
          · exact this hx
          · exact ih c _ x hx


theorem Config.serves_iff {NShards : Nat} (c : Config NShards) (key : GoString) :
    c.serves key = true ↔
      ∃ gid srv servers, c.shardAt (key2shard NShards key) = some gid ∧
        c.group gid = some (srv :: servers) := by
  unfold Config.serves
  cases hg : c.shardAt (key2shard NShards key) with
  | none => simp
  | some gid =>
    cases hgr : c.group gid with
    | none => simp [hgr]
    | some l =>
      cases l with
      | nil => simp [hgr]
      | cons a l => simp [hgr]

theorem Get.tryServers_progress (args : GetArgs) (r : GetReply) (post : List (Bool × GetReply))
    (hr : Get.accepts true r = true) :
    ∀ (servers : List String) (pre : List (Bool × GetReply)),
      (∀ x ∈ pre, Get.accepts x.1 x.2 = false) →
      (Get.tryServers args servers (pre ++ (true, r) :: post)).2 = Inner.returned r.Value ∨
      ∃ pre1 pre2, pre = pre1 ++ pre2 ∧
        (Get.tryServers args servers (pre ++ (true, r) :: post)).2
          = Inner.over (pre2 ++ (true, r) :: post) ∧
        (servers ≠ [] → pre1 ≠ []) := by
  intro servers
  induction servers with
  | nil =>
    intro pre _
    exact Or.inr ⟨[], pre, rfl, by simp [Get.tryServers], by simp⟩
  | cons srv servers ih =>
    intro pre hpre
    cases pre with
    | nil => left; simp [Get.tryServers, hr]
    | cons x pre =>
      obtain ⟨ok, reply⟩ := x
      have hrej : Get.accepts ok reply = false := hpre (ok, reply) (List.mem_cons_self _ _)
      have hpre2 : ∀ x ∈ pre, Get.accepts x.1 x.2 = false :=
        fun x hx => hpre x (List.mem_cons_of_mem _ hx)
      by_cases hw : (ok && reply.Err == Err.ErrWrongGroup) = true
      · right
        exact ⟨[(ok, reply)], pre, rfl, by simp [Get.tryServers, hrej, hw], by simp⟩
      · rcases ih pre hpre2 with h | ⟨pre1, pre2, h1, h2, _⟩
        · left
          simp only [List.cons_append, Get.tryServers, hrej, hw]
          simpa using h
        · right
          refine ⟨(ok, reply) :: pre1, pre2, by rw [h1]; rfl, ?_, by simp⟩
          simp only [List.cons_append, Get.tryServers, hrej, hw]
          simpa using h2

theorem Get.loop_live {NShards : Nat} (key : GoString) (args : GetArgs) (r : GetReply)
    (post : List (Bool × GetReply)) (hr : Get.accepts true r = true) :
    ∀ (configs : List (Config NShards)) (config : Config NShards)
      (pre : List (Bool × GetReply)),
      (∀ x ∈ pre, Get.accepts x.1 x.2 = false) →
      (∀ c ∈ configs, c.serves key = true) →
      ((config.serves key = true ∧ pre.length ≤ configs.length) ∨
        (∃ gid, config.shardAt (key2shard NShards key) = some gid) ∧
          pre.length + 1 ≤ configs.length) →
      (Get.loop key args config configs (pre ++ (true, r) :: post)).2.2
        = Outcome.returned r.Value := by
  intro configs
  induction configs with
  | nil =>
    intro config pre hpre _ hlen
    rcases hlen with ⟨hs, hl⟩ | ⟨_, hl⟩
    · obtain ⟨gid, srv, servers, hg, hgr⟩ := (Config.serves_iff config key).1 hs
      have hp : pre = [] := List.length_eq_zero.1 (Nat.le_zero.1 hl)
      subst hp
      rw [Get.loop_step key args config [] _ gid hg]
      simp [hgr, Get.tryServers, hr]
    · simp at hl
  | cons c cs ih =>
    intro config pre hpre hcs hlen
    have hc : c.serves key = true := hcs c (List.mem_cons_self _ _)
    have hcs2 : ∀ c ∈ cs, c.serves key = true := fun x hx => hcs x (List.mem_cons_of_mem _ hx)
    have hgid : ∃ gid, config.shardAt (key2shard NShards key) = some gid := by
      rcases hlen with ⟨hs, _⟩ | ⟨hg, _⟩
      · obtain ⟨gid, _, _, hg, _⟩ := (Config.serves_iff config key).1 hs
        exact ⟨gid, hg⟩
      · exact hg
    have hl : pre.length ≤ cs.length + 1 := by
      rcases hlen with ⟨_, hl⟩ | ⟨_, hl⟩
      · simpa using hl
      · simp at hl; omega
    obtain ⟨gid, hg⟩ := hgid
    rw [Get.loop_step key args config (c :: cs) _ gid hg]
    cases hgr : config.group gid with
    | none =>
      have hl2 : pre.length ≤ cs.length := by
        rcases hlen with ⟨hs, _⟩ | ⟨_, hl⟩
        · obtain ⟨gid2, _, _, hg2, hgr2⟩ := (Config.serves_iff config key).1 hs
          rw [hg] at hg2; cases hg2; rw [hgr] at hgr2; cases hgr2
        · simp at hl; omega
      simpa using ih c pre hpre hcs2 (Or.inl ⟨hc, hl2⟩)
    | some servers =>
      cases servers with
      | nil =>
        have hl2 : pre.length ≤ cs.length := by
          rcases hlen with ⟨hs, _⟩ | ⟨_, hl⟩
          · obtain ⟨gid2, _, _, hg2, hgr2⟩ := (Config.serves_iff config key).1 hs
            rw [hg] at hg2; cases hg2; rw [hgr] at hgr2; cases hgr2
          · simp at hl; omega
        simpa [Get.tryServers] using ih c pre hpre hcs2 (Or.inl ⟨hc, hl2⟩)
      | cons srv servers =>
        simp only
        rcases Get.tryServers_progress args r post hr (srv :: servers) pre hpre with
          h | ⟨pre1, pre2, h1, h2, h3⟩
        · simp [h]
        · have hne : pre1 ≠ [] := h3 (by simp)
          have hl2 : pre2.length ≤ cs.length := by
            have : 0 < pre1.length := List.length_pos.2 hne
            rw [h1, List.length_append] at hl
            omega
          have hpre2 : ∀ x ∈ pre2, Get.accepts x.1 x.2 = false :=
            fun x hx => hpre x (by rw [h1]; exact List.mem_append_right _ hx)
          simp only [h2]
          exact ih c pre2 hpre2 hcs2 (Or.inl ⟨hc, hl2⟩)


theorem putAppend_tryServers_args (args : PutAppendArgs) :
    ∀ (servers : List String) (replies : List (Bool × PutAppendReply)),
      ∀ x ∈ (PutAppend.tryServers args servers replies).1, x.2 = args := by
  intro servers
  induction servers with
  | nil => intro replies x hx; simp [PutAppend.tryServers] at hx
  | cons srv servers ih =>
    intro replies x hx
    cases replies with
    | nil => simp [PutAppend.tryServers] at hx; rw [hx]
    | cons y replies =>
      obtain ⟨ok, reply⟩ := y
      simp only [PutAppend.tryServers] at hx
      split at hx
      · simp at hx; rw [hx]
      · split at hx
        · simp at hx; rw [hx]
        · rcases List.mem_cons.1 hx with hx | hx
          · rw [hx]
          · exact ih replies x hx

/-- One turn of the outer loop of `PutAppend`, with the array access resolved. -/
theorem putAppend_loop_step {NShards : Nat} (key : GoString) (args : PutAppendArgs)
    (config : Config NShards) (configs : List (Config NShards))
    (replies : List (Bool × PutAppendReply)) (gid : Int)
    (hg : config.shardAt (key2shard NShards key) = some gid) :
    PutAppend.loop key args config configs replies =
      (let r : List (String × PutAppendArgs) × Inner Unit PutAppendReply :=
        match config.group gid with
        | some servers => PutAppend.tryServers args servers replies
        | none => ([], Inner.over replies)
      match r.2 with
      | Inner.returned v => (r.1, config, Outcome.returned v)
      | Inner.pending => (r.1, config, Outcome.trying)
      | Inner.over rest =>
        match configs with
        | [] => (r.1, config, Outcome.trying)
        | c :: cs =>
          let q := PutAppend.loop key args c cs rest
          (r.1 ++ q.1, q.2)) := by
  cases configs
  · simp [PutAppend.loop, hg]
  · conv_lhs => rw [PutAppend.loop]
    simp only [hg]

theorem putAppend_loop_no_panic {NShards : Nat} (hN : 0 < NShards) (key : GoString)
    (args : PutAppendArgs) :
    ∀ (configs : List (Config NShards)) (config : Config NShards)
      (replies : List (Bool × PutAppendReply)),
      (PutAppend.loop key args config configs replies).2.2 ≠ Outcome.panicked := by
  intro configs
  induction configs with
  | nil =>
    intro config replies
    obtain ⟨gid, hg⟩ := shardAt_key2shard hN config key
    rw [putAppend_loop_step key args config [] replies gid hg]
    dsimp only
    split <;> simp
  | cons c cs ih =>
    intro config replies
    obtain ⟨gid, hg⟩ := shardAt_key2shard hN config key
    rw [putAppend_loop_step key args config (c :: cs) replies gid hg]
    dsimp only
    split
    · simp
    · simp
    · exact ih c _

theorem putAppend_loop_args {NShards : Nat} (key : GoString) (args : PutAppendArgs) :
    ∀ (configs : List (Config NShards)) (config : Config NShards)
      (replies : List (Bool × PutAppendReply)),
      ∀ x ∈ (PutAppend.loop key args config configs replies).1, x.2 = args := by
  intro configs
  induction configs with
  | nil =>
    intro config replies x hx
    cases hg : config.shardAt (key2shard NShards key) with
    | none => simp [PutAppend.loop, hg] at hx
    | some gid =>
      rw [putAppend_loop_step key args config [] replies gid hg] at hx
      cases hgr : config.group gid with
      | none => simp [hgr] at hx
      | some servers =>
        simp only [hgr] at hx
        have := putAppend_tryServers_args args servers replies x
        split at hx <;> exact this hx
  | cons c cs ih =>
    intro config replies x hx
    cases hg : config.shardAt (key2shard NShards key) with
    | none => rw [PutAppend.loop] at hx; simp [hg] at hx
    | some gid =>
      rw [putAppend_loop_step key args config (c :: cs) replies gid hg] at hx
      cases hgr : config.group gid with
      | none =>
        simp only [hgr] at hx
        exact ih c replies x (by simpa using hx)
      | some servers =>
        simp only [hgr] at hx
        have := putAppend_tryServers_args args servers replies x
        split at hx
        · exact this hx
        · exact this hx
        · rcases List.mem_append.1 hx with hx | hx
          · exact this hx
          · exact ih c _ x hx

theorem putAppend_accepts_ok {ok : Bool} {reply : PutAppendReply}
    (h : PutAppend.accepts ok reply = true) :
    ok = true ∧ reply.WrongLeader = false ∧
      (reply.Err = Err.OK ∨ reply.Err = Err.ErrOutdated) := by
  simpa [PutAppend.accepts, and_assoc] using h

theorem putAppend_tryServers_returned (args : PutAppendArgs) :
    ∀ (servers : List String) (replies : List (Bool × PutAppendReply))
      (sent : List (String × PutAppendArgs)) (v : Unit),
      PutAppend.tryServers args servers replies = (sent, Inner.returned v) →
      ∃ pre r post, replies = pre ++ (true, r) :: post ∧ PutAppend.accepts true r = true ∧
        (∀ x ∈ pre, PutAppend.accepts x.1 x.2 = false) ∧
        sent.length = pre.length + 1 := by
  intro servers
  induction servers with
  | nil => intro replies sent v h; simp [PutAppend.tryServers] at h
  | cons srv servers ih =>
    intro replies sent v h
    cases replies with
    | nil => simp [PutAppend.tryServers] at h
    | cons x replies =>
      obtain ⟨ok, reply⟩ := x
      simp only [PutAppend.tryServers] at h
      split at h
      · rename_i hacc
        have hok := (putAppend_accepts_ok hacc).1
        subst hok
        simp only [Prod.mk.injEq, Inner.returned.injEq] at h
        refine ⟨[], reply, replies, rfl, hacc, by simp, ?_⟩
        rw [← h.1]; rfl
      · rename_i hacc
        split at h
        · simp at h
        · simp only [Prod.mk.injEq] at h
          obtain ⟨pre, r, post, h1, h2, h4, h5⟩ :=
            ih replies (PutAppend.tryServers args servers replies).1 v (Prod.ext rfl h.2)
          refine ⟨(ok, reply) :: pre, r, post, by rw [h1]; rfl, h2, ?_, ?_⟩
          · intro x hx
            rcases List.mem_cons.1 hx with hx | hx
            · subst hx; simpa using hacc
            · exact h4 x hx
          · rw [← h.1]; simp [h5]

theorem putAppend_tryServers_over (args : PutAppendArgs) :
    ∀ (servers : List String) (replies : List (Bool × PutAppendReply))
      (sent : List (String × PutAppendArgs)) (rest : List (Bool × PutAppendReply)),
      PutAppend.tryServers args servers replies = (sent, Inner.over rest) →
      ∃ pre, replies = pre ++ rest ∧ (∀ x ∈ pre, PutAppend.accepts x.1 x.2 = false) ∧
        sent.length = pre.length := by
  intro servers
  induction servers with
  | nil =>
    intro replies sent rest h
    simp only [PutAppend.tryServers, Prod.mk.injEq, Inner.over.injEq] at h
    exact ⟨[], by simp [h.2], by simp, by rw [← h.1]; rfl⟩
  | cons srv servers ih =>
    intro replies sent rest h
    cases replies with
    | nil => simp [PutAppend.tryServers] at h
    | cons x replies =>
      obtain ⟨ok, reply⟩ := x
      simp only [PutAppend.tryServers] at h
      split at h
      · simp at h
      · rename_i hacc
        split at h
        · simp only [Prod.mk.injEq, Inner.over.injEq] at h
          refine ⟨[(ok, reply)], by simp [h.2], ?_, by rw [← h.1]; rfl⟩
          intro x hx
          rw [List.mem_singleton.1 hx]; simpa using hacc
        · simp only [Prod.mk.injEq] at h
          obtain ⟨pre, h1, h4, h5⟩ :=
            ih replies (PutAppend.tryServers args servers replies).1 rest (Prod.ext rfl h.2)
          refine ⟨(ok, reply) :: pre, by rw [h1]; rfl, ?_, ?_⟩
          · intro x hx
            rcases List.mem_cons.1 hx with hx | hx
            · subst hx; simpa using hacc
            · exact h4 x hx
          · rw [← h.1]; simp [h5]

theorem putAppend_loop_returned {NShards : Nat} (hN : 0 < NShards) (key : GoString)
    (args : PutAppendArgs) :
    ∀ (configs : List (Config NShards)) (config : Config NShards)
      (replies : List (Bool × PutAppendReply)) (v : Unit),
      (PutAppend.loop key args config configs replies).2.2 = Outcome.returned v →
      ∃ pre r post, replies = pre ++ (true, r) :: post ∧ PutAppend.accepts true r = true ∧
        (∀ x ∈ pre, PutAppend.accepts x.1 x.2 = false) ∧
        (PutAppend.loop key args config configs replies).1.length = pre.length + 1 := by
  intro configs
  induction configs with
  | nil =>
    intro config replies v h
    obtain ⟨gid, hg⟩ := shardAt_key2shard hN config key
    rw [putAppend_loop_step key args config [] replies gid hg] at h ⊢
    cases hgr : config.group gid with
    | none => simp [hgr] at h
    | some servers =>
      simp only [hgr] at h ⊢
      cases hi : (PutAppend.tryServers args servers replies).2 with
      | returned w =>
        simp only [hi] at h ⊢
        exact putAppend_tryServers_returned args servers replies _ w (Prod.ext rfl hi)
      | over rest => simp [hi] at h
      | pending => simp [hi] at h
  | cons c cs ih =>
    intro config replies v h
    obtain ⟨gid, hg⟩ := shardAt_key2shard hN config key
    rw [putAppend_loop_step key args config (c :: cs) replies gid hg] at h ⊢
    cases hgr : config.group gid with
    | none =>
      simp only [hgr] at h ⊢
      obtain ⟨pre, r, post, h1, h2, h4, h5⟩ := ih c replies v h
      exact ⟨pre, r, post, h1, h2, h4, by simpa using h5⟩
    | some servers =>
      simp only [hgr] at h ⊢
      cases hi : (PutAppend.tryServers args servers replies).2 with
      | returned w =>
        simp only [hi] at h ⊢
        exact putAppend_tryServers_returned args servers replies _ w (Prod.ext rfl hi)
      | pending => simp [hi] at h
      | over rest =>
        simp only [hi] at h ⊢
        obtain ⟨pre0, g1, g4, g5⟩ :=
          putAppend_tryServers_over args servers replies _ rest (Prod.ext rfl hi)
        obtain ⟨pre, r, post, h1, h2, h4, h5⟩ := ih c rest v h
        refine ⟨pre0 ++ pre, r, post, by rw [g1, h1]; simp, h2, ?_, ?_⟩
        · intro x hx
          rcases List.mem_append.1 hx with hx | hx
          · exact g4 x hx
          · exact h4 x hx
        · simp only [List.length_append, g5, h5]; omega

theorem putAppend_tryServers_progress (args : PutAppendArgs) (r : PutAppendReply)
    (post : List (Bool × PutAppendReply)) (hr : PutAppend.accepts true r = true) :
    ∀ (servers : List String) (pre : List (Bool × PutAppendReply)),
      (∀ x ∈ pre, PutAppend.accepts x.1 x.2 = false) →
      (PutAppend.tryServers args servers (pre ++ (true, r) :: post)).2 = Inner.returned () ∨
      ∃ pre1 pre2, pre = pre1 ++ pre2 ∧
        (PutAppend.tryServers args servers (pre ++ (true, r) :: post)).2
          = Inner.over (pre2 ++ (true, r) :: post) ∧
        (servers ≠ [] → pre1 ≠ []) := by
  intro servers
  induction servers with
  | nil =>
    intro pre _
    exact Or.inr ⟨[], pre, rfl, by simp [PutAppend.tryServers], by simp⟩
  | cons srv servers ih =>
    intro pre hpre
    cases pre with
    | nil => left; simp [PutAppend.tryServers, hr]
    | cons x pre =>
      obtain ⟨ok, reply⟩ := x
      have hrej : PutAppend.accepts ok reply = false :=
        hpre (ok, reply) (List.mem_cons_self _ _)
      have hpre2 : ∀ x ∈ pre, PutAppend.accepts x.1 x.2 = false :=
        fun x hx => hpre x (List.mem_cons_of_mem _ hx)
      by_cases hw : (ok && reply.Err == Err.ErrWrongGroup) = true
      · right
        exact ⟨[(ok, reply)], pre, rfl, by simp [PutAppend.tryServers, hrej, hw], by simp⟩
      · rcases ih pre hpre2 with h | ⟨pre1, pre2, h1, h2, _⟩
        · left
          simp only [List.cons_append, PutAppend.tryServers, hrej, hw]
          simpa using h
        · right
          refine ⟨(ok, reply) :: pre1, pre2, by rw [h1]; rfl, ?_, by simp⟩
          simp only [List.cons_append, PutAppend.tryServers, hrej, hw]
          simpa using h2

theorem putAppend_loop_live {NShards : Nat} (key : GoString) (args : PutAppendArgs)
    (r : PutAppendReply) (post : List (Bool × PutAppendReply))
    (hr : PutAppend.accepts true r = true) :
    ∀ (configs : List (Config NShards)) (config : Config NShards)
      (pre : List (Bool × PutAppendReply)),
      (∀ x ∈ pre, PutAppend.accepts x.1 x.2 = false) →
      (∀ c ∈ configs, c.serves key = true) →
      ((config.serves key = true ∧ pre.length ≤ configs.length) ∨
        (∃ gid, config.shardAt (key2shard NShards key) = some gid) ∧
          pre.length + 1 ≤ configs.length) →
      (PutAppend.loop key args config configs (pre ++ (true, r) :: post)).2.2
        = Outcome.returned () := by
  intro configs
  induction configs with
  | nil =>
    intro config pre hpre _ hlen
    rcases hlen with ⟨hs, hl⟩ | ⟨_, hl⟩
    · obtain ⟨gid, srv, servers, hg, hgr⟩ := (Config.serves_iff config key).1 hs
      have hp : pre = [] := List.length_eq_zero.1 (Nat.le_zero.1 hl)
      subst hp
      rw [putAppend_loop_step key args config [] _ gid hg]
      simp [hgr, PutAppend.tryServers, hr]
    · simp at hl
  | cons c cs ih =>
    intro config pre hpre hcs hlen
    have hc : c.serves key = true := hcs c (List.mem_cons_self _ _)
    have hcs2 : ∀ c ∈ cs, c.serves key = true := fun x hx => hcs x (List.mem_cons_of_mem _ hx)
    have hgid : ∃ gid, config.shardAt (key2shard NShards key) = some gid := by
      rcases hlen with ⟨hs, _⟩ | ⟨hg, _⟩
      · obtain ⟨gid, _, _, hg, _⟩ := (Config.serves_iff config key).1 hs
        exact ⟨gid, hg⟩
      · exact hg
    have hl : pre.length ≤ cs.length + 1 := by
      rcases hlen with ⟨_, hl⟩ | ⟨_, hl⟩
      · simpa using hl
      · simp at hl; omega
    obtain ⟨gid, hg⟩ := hgid
    rw [putAppend_loop_step key args config (c :: cs) _ gid hg]
    cases hgr : config.group gid with
    | none =>
      have hl2 : pre.length ≤ cs.length := by
        rcases hlen with ⟨hs, _⟩ | ⟨_, hl⟩
        · obtain ⟨gid2, _, _, hg2, hgr2⟩ := (Config.serves_iff config key).1 hs
          rw [hg] at hg2; cases hg2; rw [hgr] at hgr2; cases hgr2
        · simp at hl; omega
      simpa using ih c pre hpre hcs2 (Or.inl ⟨hc, hl2⟩)
    | some servers =>
      cases servers with
      | nil =>
        have hl2 : pre.length ≤ cs.length := by
          rcases hlen with ⟨hs, _⟩ | ⟨_, hl⟩
          · obtain ⟨gid2, _, _, hg2, hgr2⟩ := (Config.serves_iff config key).1 hs
            rw [hg] at hg2; cases hg2; rw [hgr] at hgr2; cases hgr2
          · simp at hl; omega
        simpa [PutAppend.tryServers] using ih c pre hpre hcs2 (Or.inl ⟨hc, hl2⟩)
      | cons srv servers =>
        simp only
        rcases putAppend_tryServers_progress args r post hr (srv :: servers) pre hpre with
          h | ⟨pre1, pre2, h1, h2, h3⟩
        · simp [h]
        · have hne : pre1 ≠ [] := h3 (by simp)
          have hl2 : pre2.length ≤ cs.length := by
            have : 0 < pre1.length := List.length_pos.2 hne
            rw [h1, List.length_append] at hl
            omega
          have hpre2 : ∀ x ∈ pre2, PutAppend.accepts x.1 x.2 = false :=
            fun x hx => hpre x (by rw [h1]; exact List.mem_append_right _ hx)
          simp only [h2]
          exact ih c pre2 hpre2 hcs2 (Or.inl ⟨hc, hl2⟩)

/-! ### The operation counter -/

theorem wrapInt_succ (IntSize : Nat) (x : Int) :
    wrapInt IntSize (wrapInt IntSize x + 1) = wrapInt IntSize (x + 1) := by
  unfold wrapInt
  have h : (x + 2 ^ (IntSize - 1)) % 2 ^ IntSize - 2 ^ (IntSize - 1) + 1 + 2 ^ (IntSize - 1)
      = (x + 2 ^ (IntSize - 1)) % 2 ^ IntSize + 1 := by ring
  rw [h, Int.emod_add_emod]
  congr 2
  ring

theorem wrapInt_of_lt {IntSize : Nat} (hI : 0 < IntSize) {x : Int} (h0 : 0 ≤ x)
    (h1 : x < 2 ^ (IntSize - 1)) : wrapInt IntSize x = x := by
  unfold wrapInt
  have hp : (2 : Int) ^ IntSize = 2 * 2 ^ (IntSize - 1) := by
    obtain ⟨n, rfl⟩ : ∃ n, IntSize = n + 1 := ⟨IntSize - 1, by omega⟩
    simp [pow_succ, mul_comm]
  rw [Int.emod_eq_of_lt (by omega) (by omega)]
  ring

theorem wrapInt_zero {IntSize : Nat} (hI : 0 < IntSize) : wrapInt IntSize 0 = 0 :=
  wrapInt_of_lt hI (le_refl _) (by positivity)

/-! ### Operations and their environment -/

theorem any_take_split {α : Type} (p : α → Bool) :
    ∀ (l : List α) (n : Nat), (l.take n).any p = true →
      ∃ pre r post, l = pre ++ r :: post ∧ p r = true ∧ (∀ x ∈ pre, p x = false) ∧
        pre.length + 1 ≤ n := by
  intro l
  induction l with
  | nil => intro n h; simp at h
  | cons a l ih =>
    intro n h
    cases n with
    | zero => simp at h
    | succ n =>
      by_cases ha : p a = true
      · exact ⟨[], a, l, rfl, ha, by simp, by simp⟩
      · have h2 : (l.take n).any p = true := by
          simp only [List.take_succ_cons, List.any_cons, Bool.or_eq_true] at h
          rcases h with h | h
          · exact absurd h ha
          · exact h
        obtain ⟨pre, r, post, h1, h3, h4, h5⟩ := ih n h2
        refine ⟨a :: pre, r, post, by rw [h1]; rfl, h3, ?_, by simp; omega⟩
        intro x hx
        rcases List.mem_cons.1 hx with hx | hx
        · subst hx; simpa using ha
        · exact h4 x hx

theorem takeWhile_rejected {α : Type} (p : α → Bool) (r : α) (post : List α) (hr : p r = true) :
    ∀ (pre : List α), (∀ x ∈ pre, p x = false) →
      ((pre ++ r :: post).takeWhile (fun x => !p x)).length = pre.length := by
  intro pre
  induction pre with
  | nil => intro _; simp [List.takeWhile, hr]
  | cons a pre ih =>
    intro h
    have ha : p a = false := h a (List.mem_cons_self _ _)
    have hi := ih (fun x hx => h x (List.mem_cons_of_mem _ hx))
    simp only [List.cons_append, List.takeWhile_cons, ha, Bool.not_false, if_true,
      List.length_cons, hi]

theorem eq_replicate_of_all {α : Type} (a : α) (n : Nat) (l : List α) (hl : l.length = n)
    (h : ∀ x ∈ l, x = a) : l = List.replicate n a :=
  List.eq_replicate_iff.2 ⟨hl, h⟩

/-- A `Get` whose environment lets it finish returns, after one request for
every reply it rejects and one more. -/
theorem Get.loop_answered {NShards : Nat} (hN : 0 < NShards) (key : GoString) (args : GetArgs)
    (config : Config NShards) (configs : List (Config NShards))
    (replies : List (Bool × GetReply))
    (h : (Operation.get key configs replies).answered = true) :
    (Get.loop key args config configs replies).2.2.isReturned = true ∧
      (Get.loop key args config configs replies).1.length
        = (Operation.get key configs replies).rejected + 1 := by
  simp only [Operation.answered, Bool.and_eq_true, List.all_eq_true] at h
  obtain ⟨pre, x, post, h1, h2, h3, h4⟩ := any_take_split _ replies configs.length h.2
  obtain ⟨ok, r⟩ := x
  have hok : ok = true := (Get.accepts_ok h2).1
  subst hok
  have hret := Get.loop_live key args r post h2 configs config pre h3 h.1
    (Or.inr ⟨shardAt_key2shard hN config key, h4⟩)
  rw [← h1] at hret
  obtain ⟨pre2, r2, post2, g1, g2, _, g4, g5⟩ :=
    Get.loop_returned hN key args configs config replies _ hret
  refine ⟨by rw [hret]; rfl, ?_⟩
  rw [g5]
  simp only [Operation.rejected]
  rw [g1, takeWhile_rejected (fun x => Get.accepts x.1 x.2) (true, r2) post2 g2 pre2 g4]

/-- A `PutAppend` whose environment lets it finish returns, after one request
for every reply it rejects and one more. -/
theorem putAppend_loop_answered {NShards : Nat} (hN : 0 < NShards) (key : GoString)
    (args : PutAppendArgs) (config : Config NShards) (configs : List (Config NShards))
    (replies : List (Bool × PutAppendReply))
    (h : configs.all (fun c => c.serves key) = true ∧
      (replies.take configs.length).any (fun x => PutAppend.accepts x.1 x.2) = true) :
    (PutAppend.loop key args config configs replies).2.2.isReturned = true ∧
      (PutAppend.loop key args config configs replies).1.length
        = (replies.takeWhile (fun x => !PutAppend.accepts x.1 x.2)).length + 1 := by
  simp only [List.all_eq_true] at h
  obtain ⟨pre, x, post, h1, h2, h3, h4⟩ := any_take_split _ replies configs.length h.2
  obtain ⟨ok, r⟩ := x
  have hok : ok = true := (putAppend_accepts_ok h2).1
  subst hok
  have hret := putAppend_loop_live key args r post h2 configs config pre h3 h.1
    (Or.inr ⟨shardAt_key2shard hN config key, h4⟩)
  rw [← h1] at hret
  obtain ⟨pre2, r2, post2, g1, g2, g4, g5⟩ :=
    putAppend_loop_returned hN key args configs config replies _ hret
  refine ⟨by rw [hret]; rfl, ?_⟩
  rw [g5, g1, takeWhile_rejected (fun x => PutAppend.accepts x.1 x.2) (true, r2) post2 g2 pre2 g4]

/-- An operation that returned has sent a request. -/
theorem Get.loop_returned_sent {NShards : Nat} (hN : 0 < NShards) (key : GoString)
    (args : GetArgs) (config : Config NShards) (configs : List (Config NShards))
    (replies : List (Bool × GetReply))
    (h : (Get.loop key args config configs replies).2.2.isReturned = true) :
    (Get.loop key args config configs replies).1 ≠ [] := by
  cases ho : (Get.loop key args config configs replies).2.2 with
  | returned v =>
    obtain ⟨pre, _, _, _, _, _, _, h5⟩ :=
      Get.loop_returned hN key args configs config replies v ho
    intro hnil
    rw [hnil] at h5
    simp at h5
  | trying => rw [ho] at h; simp [Outcome.isReturned] at h
  | panicked => rw [ho] at h; simp [Outcome.isReturned] at h

theorem putAppend_loop_returned_sent {NShards : Nat} (hN : 0 < NShards) (key : GoString)
    (args : PutAppendArgs) (config : Config NShards) (configs : List (Config NShards))
    (replies : List (Bool × PutAppendReply))
    (h : (PutAppend.loop key args config configs replies).2.2.isReturned = true) :
    (PutAppend.loop key args config configs replies).1 ≠ [] := by
  cases ho : (PutAppend.loop key args config configs replies).2.2 with
  | returned v =>
    obtain ⟨pre, _, _, _, _, _, h5⟩ :=
      putAppend_loop_returned hN key args configs config replies v ho
    intro hnil
    rw [hnil] at h5
    simp at h5
  | trying => rw [ho] at h; simp [Outcome.isReturned] at h
  | panicked => rw [ho] at h; simp [Outcome.isReturned] at h

theorem Operation.observe_spec (IntSize : Nat) {NShards : Nat} (ck : Clerk NShards)
    (op : Operation NShards) :
    (op.observe IntSize ck).1.id = ck.id ∧
      (op.observe IntSize ck).1.count = wrapInt IntSize (ck.count + 1) ∧
      (∀ p ∈ (op.observe IntSize ck).2.1, p = (ck.id, ck.count)) ∧
      (0 < NShards → (op.observe IntSize ck).2.2 = true → (op.observe IntSize ck).2.1 ≠ []) ∧
      (0 < NShards → op.answered = true →
        (op.observe IntSize ck).2 = (List.replicate (op.rejected + 1) (ck.id, ck.count), true)) := by
  cases op with
  | get key configs replies =>
    have hall : ∀ p ∈ ((Operation.get key configs replies).observe IntSize ck).2.1,
        p = (ck.id, ck.count) := by
      intro p hp
      simp only [Operation.observe, Clerk.Get, List.mem_map] at hp
      obtain ⟨x, hx, rfl⟩ := hp
      rw [Get.loop_args key _ configs ck.config replies x hx]
    refine ⟨rfl, rfl, hall, ?_, ?_⟩
    · intro hN h
      have := Get.loop_returned_sent hN key _ ck.config configs replies h
      simpa [Operation.observe, Clerk.Get] using this
    · intro hN h
      obtain ⟨h1, h2⟩ := Get.loop_answered hN key
        { Key := key, ClientId := ck.id, Id := ck.count } ck.config configs replies h
      refine Prod.ext (eq_replicate_of_all _ _ _ ?_ hall) h1
      simp only [Operation.observe, Clerk.Get, List.length_map]
      exact h2
  | put key value configs replies =>
    have hall : ∀ p ∈ ((Operation.put key value configs replies).observe IntSize ck).2.1,
        p = (ck.id, ck.count) := by
      intro p hp
      simp only [Operation.observe, Clerk.Put, Clerk.PutAppend, List.mem_map] at hp
      obtain ⟨x, hx, rfl⟩ := hp
      rw [putAppend_loop_args key _ configs ck.config replies x hx]
    refine ⟨rfl, rfl, hall, ?_, ?_⟩
    · intro hN h
      have := putAppend_loop_returned_sent hN key _ ck.config configs replies h
      simpa [Operation.observe, Clerk.Put, Clerk.PutAppend] using this
    · intro hN h
      simp only [Operation.answered, Bool.and_eq_true] at h
      obtain ⟨h1, h2⟩ := putAppend_loop_answered hN key
        { Key := key, Value := value, Op := "Put", ClientId := ck.id, Id := ck.count }
        ck.config configs replies h
      refine Prod.ext (eq_replicate_of_all _ _ _ ?_ hall) h1
      simp only [Operation.observe, Clerk.Put, Clerk.PutAppend, List.length_map]
      exact h2
  | append key value configs replies =>
    have hall : ∀ p ∈ ((Operation.append key value configs replies).observe IntSize ck).2.1,
        p = (ck.id, ck.count) := by
      intro p hp
      simp only [Operation.observe, Clerk.Append, Clerk.PutAppend, List.mem_map] at hp
      obtain ⟨x, hx, rfl⟩ := hp
      rw [putAppend_loop_args key _ configs ck.config replies x hx]
    refine ⟨rfl, rfl, hall, ?_, ?_⟩
    · intro hN h
      have := putAppend_loop_returned_sent hN key _ ck.config configs replies h
      simpa [Operation.observe, Clerk.Append, Clerk.PutAppend] using this
    · intro hN h
      simp only [Operation.answered, Bool.and_eq_true] at h
      obtain ⟨h1, h2⟩ := putAppend_loop_answered hN key
        { Key := key, Value := value, Op := "Append", ClientId := ck.id, Id := ck.count }
        ck.config configs replies h
      refine Prod.ext (eq_replicate_of_all _ _ _ ?_ hall) h1
      simp only [Operation.observe, Clerk.Append, Clerk.PutAppend, List.length_map]
      exact h2

/-- The operations issued on a clerk whose counter is the wrapped value of
`c`: operation `k` sends its requests with the wrapped value of `c + k`. -/
theorem issue_spec (IntSize : Nat) {NShards : Nat} :
    ∀ (ops : List (Operation NShards)) (ck : Clerk NShards) (c : Int),
      ck.count = wrapInt IntSize c →
      (issue IntSize ck ops).1.id = ck.id ∧
      (issue IntSize ck ops).1.count = wrapInt IntSize (c + ops.length) ∧
      (issue IntSize ck ops).2.length = ops.length ∧
      (∀ (k : Nat) (obs : List (Int × Int) × Bool), (issue IntSize ck ops).2[k]? = some obs →
        (∀ p ∈ obs.1, p = (ck.id, wrapInt IntSize (c + k))) ∧
        (0 < NShards → obs.2 = true → obs.1 ≠ [])) ∧
      (0 < NShards → ∀ (k : Nat) (op : Operation NShards), ops[k]? = some op →
        op.answered = true →
        (issue IntSize ck ops).2[k]? =
          some (List.replicate (op.rejected + 1) (ck.id, wrapInt IntSize (c + k)), true)) := by
  intro ops
  induction ops with
  | nil => intro ck c hc; simp [issue, hc]
  | cons op ops ih =>
    intro ck c hc
    obtain ⟨h1, h2, h3, h4, h5⟩ := Operation.observe_spec IntSize ck op
    have hc2 : (op.observe IntSize ck).1.count = wrapInt IntSize (c + 1) := by
      rw [h2, hc, wrapInt_succ]
    obtain ⟨i1, i2, i3, i4, i5⟩ := ih (op.observe IntSize ck).1 (c + 1) hc2
    refine ⟨?_, ?_, ?_, ?_, ?_⟩
    · simp only [issue]; rw [i1, h1]
    · simp only [issue, List.length_cons]; rw [i2]; push_cast; congr 1; ring
    · simp only [issue, List.length_cons, i3]
    · intro k obs hk
      cases k with
      | zero =>
        simp only [issue, List.getElem?_cons_zero, Option.some.injEq] at hk
        subst hk
        refine ⟨fun p hp => ?_, h4⟩
        rw [h3 p hp, hc]
        simp
      | succ k =>
        simp only [issue, List.getElem?_cons_succ] at hk
        refine ⟨fun p hp => ?_, (i4 k obs hk).2⟩
        rw [(i4 k obs hk).1 p hp, h1]
        push_cast
        congr 2
        ring
    · intro hN k op2 hk ha
      cases k with
      | zero =>
        simp only [List.getElem?_cons_zero, Option.some.injEq] at hk
        subst hk
        simp only [issue, List.getElem?_cons_zero, Option.some.injEq]
        rw [h5 hN ha, hc]
        simp
      | succ k =>
        simp only [List.getElem?_cons_succ] at hk
        simp only [issue, List.getElem?_cons_succ]
        rw [i5 hN k op2 hk ha, h1]
        push_cast
        congr 5
        ring

theorem wrapInt_half {IntSize : Nat} (hI : 0 < IntSize) :
    wrapInt IntSize (2 ^ (IntSize - 1)) = -2 ^ (IntSize - 1) := by
  unfold wrapInt
  have hp : (2 : Int) ^ IntSize = 2 * 2 ^ (IntSize - 1) := by
    obtain ⟨n, rfl⟩ : ∃ n, IntSize = n + 1 := ⟨IntSize - 1, by omega⟩
    simp [pow_succ, mul_comm]
  have h2 : (2 : Int) ^ (IntSize - 1) + 2 ^ (IntSize - 1) = 2 ^ IntSize := by rw [hp]; ring
  rw [h2, Int.emod_self]
  ring

theorem sampleGet_at (n k : Nat) (h : k < n) :
    (List.replicate n sampleGet)[k]? = some sampleGet := by
  rw [List.getElem?_replicate, if_pos h]

/-- C10: for a positive `NShards`, `key2shard` returns 0 on the empty key and
otherwise the first byte of the key modulo `NShards`; the result lies in
`[0, NShards)`, so the access `config.Shards[shard]` of `Get` and `PutAppend`
is in bounds (neither operation panics), and the result depends on the first
byte of the key only. -/
theorem key2shard_first_byte_in_bounds (NShards : Nat) (hN : 0 < NShards) (key : GoString) :
    key2shard NShards [] = 0 ∧
    (∀ (b : Fin 256) (rest : GoString),
      key2shard NShards (b :: rest) = ((b.val % NShards : Nat) : Int)) ∧
    (0 ≤ key2shard NShards key ∧ key2shard NShards key < (NShards : Int)) ∧
    (∀ c : Config NShards, ∃ gid, c.shardAt (key2shard NShards key) = some gid) ∧
    (∀ (IntSize : Nat) (ck : Clerk NShards) (configs : List (Config NShards))
      (replies : List (Bool × GetReply)),
      (ck.Get IntSize key configs replies).2.2 ≠ Outcome.panicked) ∧
    (∀ (IntSize : Nat) (ck : Clerk NShards) (value : GoString) (op : String)
      (configs : List (Config NShards)) (replies : List (Bool × PutAppendReply)),
      (ck.PutAppend IntSize key value op configs replies).2.2 ≠ Outcome.panicked) ∧
    (∀ (b : Fin 256) (r1 r2 : GoString),
      key2shard NShards (b :: r1) = key2shard NShards (b :: r2)) :=
  ⟨key2shard_nil NShards, key2shard_cons NShards, key2shard_range NShards hN key,
    fun c => shardAt_key2shard hN c key,
    fun _ ck configs replies => Get.loop_no_panic hN key _ configs ck.config replies,
    fun _ ck _ _ configs replies => putAppend_loop_no_panic hN key _ configs ck.config replies,
    fun b r1 r2 => by rw [key2shard_cons, key2shard_cons]⟩

/-- Witness of C10 at `NShards = 10` and the key `"a"`. -/
theorem key2shard_first_byte_in_bounds_witness :
    0 < 10 ∧ key2shard 10 [97] = 7 ∧
      (0 ≤ key2shard 10 [97] ∧ key2shard 10 [97] < ((10 : Nat) : Int)) :=
  ⟨by decide, by decide, (key2shard_first_byte_in_bounds 10 (by decide) [97]).2.2.1⟩

/-- C8: the documentation of `Get` says that it returns `""` if the key does
not exist, and so does the claim; the code returns `reply.Value` without
looking at it. On `Get("a")`, when the first reply delivered has
`WrongLeader = false`, `Err = ErrNoKey` and `Value = "x"`, `Get` returns
`"x"`, which is not the empty string. -/
theorem Get_ErrNoKey_returns_reply_value :
    (Clerk.Get 64 (MakeClerk 10 7) [97] [sampleConfig]
        [(true, { WrongLeader := false, Err := Err.ErrNoKey, Value := [120] })]).2.2
      = Outcome.returned [120] ∧ ([120] : GoString) ≠ [] := by
  decide

/-- What `Get` does with the replies: it never panics and returns only on a
delivered reply with `WrongLeader = false` and `Err = OK` or `Err = ErrNoKey`,
namely the first such reply, with the `Value` of that reply; every reply
before it was answered by a further attempt. If no reply is of that kind
`Get` is still trying; and when the configurations queried keep naming a
server for the shard of the key, `Get` does return at the first such reply. -/
theorem Get_returns_value_of_first_accepted_reply {NShards : Nat} (hN : 0 < NShards)
    (IntSize : Nat) (ck : Clerk NShards) (key : GoString) (configs : List (Config NShards))
    (replies : List (Bool × GetReply)) :
    (∀ v, (ck.Get IntSize key configs replies).2.2 = Outcome.returned v →
      ∃ pre r post, replies = pre ++ (true, r) :: post ∧
        r.WrongLeader = false ∧ (r.Err = Err.OK ∨ r.Err = Err.ErrNoKey) ∧ v = r.Value ∧
        (∀ x ∈ pre, Get.accepts x.1 x.2 = false) ∧
        (ck.Get IntSize key configs replies).2.1.length = pre.length + 1) ∧
    (ck.Get IntSize key configs replies).2.2 ≠ Outcome.panicked ∧
    ((∀ x ∈ replies, Get.accepts x.1 x.2 = false) →
      (ck.Get IntSize key configs replies).2.2 = Outcome.trying) ∧
    (∀ pre r post, replies = pre ++ (true, r) :: post →
      r.WrongLeader = false → (r.Err = Err.OK ∨ r.Err = Err.ErrNoKey) →
      (∀ x ∈ pre, Get.accepts x.1 x.2 = false) →
      (∀ c ∈ configs, c.serves key = true) → pre.length + 1 ≤ configs.length →
      (ck.Get IntSize key configs replies).2.2 = Outcome.returned r.Value) := by
  have hret : ∀ v, (ck.Get IntSize key configs replies).2.2 = Outcome.returned v →
      ∃ pre r post, replies = pre ++ (true, r) :: post ∧
        r.WrongLeader = false ∧ (r.Err = Err.OK ∨ r.Err = Err.ErrNoKey) ∧ v = r.Value ∧
        (∀ x ∈ pre, Get.accepts x.1 x.2 = false) ∧
        (ck.Get IntSize key configs replies).2.1.length = pre.length + 1 := by
    intro v h
    obtain ⟨pre, r, post, h1, h2, h3, h4, h5⟩ :=
      Get.loop_returned hN key _ configs ck.config replies v h
    exact ⟨pre, r, post, h1, (Get.accepts_ok h2).2.1, (Get.accepts_ok h2).2.2, h3, h4, h5⟩
  have hpanic : (ck.Get IntSize key configs replies).2.2 ≠ Outcome.panicked :=
    Get.loop_no_panic hN key _ configs ck.config replies
  refine ⟨hret, hpanic, ?_, ?_⟩
  · intro hall
    cases ho : (ck.Get IntSize key configs replies).2.2 with
    | trying => rfl
    | panicked => exact absurd ho hpanic
    | returned v =>
      obtain ⟨pre, r, post, h1, h2, h3, _, _, _⟩ := hret v ho
      have := hall (true, r) (by rw [h1]; simp)
      rcases h3 with h3 | h3 <;> simp [Get.accepts, h2, h3] at this
  · intro pre r post h1 h2 h3 h4 h5 h6
    subst h1
    have hr : Get.accepts true r = true := by
      rcases h3 with h3 | h3 <;> simp [Get.accepts, h2, h3]
    exact Get.loop_live key _ r post hr configs ck.config pre h4 h5
      (Or.inr ⟨shardAt_key2shard hN ck.config key, h6⟩)

/-- An instance: a call that fails and a reply from a wrong leader are
followed by further attempts, and `Get` returns the value of the third
reply. -/
theorem Get_returns_value_of_first_accepted_reply_witness :
    0 < 10 ∧
    (Clerk.Get 64 (MakeClerk 10 7) [97] [sampleConfig, sampleConfig, sampleConfig]
        [(false, { WrongLeader := false, Err := Err.other [], Value := [] }),
         (true, { WrongLeader := true, Err := Err.OK, Value := [120] }),
         (true, { WrongLeader := false, Err := Err.OK, Value := [121] })]).2.2
      = Outcome.returned [121] :=
  ⟨by decide,
    (Get_returns_value_of_first_accepted_reply (by decide) 64 (MakeClerk 10 7) [97]
      [sampleConfig, sampleConfig, sampleConfig]
      [(false, { WrongLeader := false, Err := Err.other [], Value := [] }),
       (true, { WrongLeader := true, Err := Err.OK, Value := [120] }),
       (true, { WrongLeader := false, Err := Err.OK, Value := [121] })]).2.2.2
      [(false, { WrongLeader := false, Err := Err.other [], Value := [] }),
       (true, { WrongLeader := true, Err := Err.OK, Value := [120] })]
      { WrongLeader := false, Err := Err.OK, Value := [121] } [] rfl rfl (Or.inl rfl)
      (by decide) (by decide) (by decide)⟩

/-- C9, as stated, fails: the counter is a Go `int` and wraps around. With an
`int` of 64 bits, of `2^63 + 1` operations `Get("a")` issued on one clerk,
each answered at once, operation number `2^63 - 1` sends its request with
`Id = 2^63 - 1` and operation number `2^63`, issued later, sends its request
with `Id = -2^63`, which is neither `2^63` nor greater than the `Id` before;
likewise with an `int` of 32 bits at operation number `2^31`. -/
theorem request_id_wraps_around :
    ((issue 64 (MakeClerk 10 7) (List.replicate (2 ^ 63 + 1) sampleGet)).2[2 ^ 63 - 1]?
        = some ([(7, 2 ^ 63 - 1)], true) ∧
      (issue 64 (MakeClerk 10 7) (List.replicate (2 ^ 63 + 1) sampleGet)).2[2 ^ 63]?
        = some ([(7, -2 ^ 63)], true)) ∧
    ((issue 32 (MakeClerk 10 7) (List.replicate (2 ^ 31 + 1) sampleGet)).2[2 ^ 31 - 1]?
        = some ([(7, 2 ^ 31 - 1)], true) ∧
      (issue 32 (MakeClerk 10 7) (List.replicate (2 ^ 31 + 1) sampleGet)).2[2 ^ 31]?
        = some ([(7, -2 ^ 31)], true)) := by
  have h64 := (issue_spec 64 (List.replicate (2 ^ 63 + 1) sampleGet) (MakeClerk 10 7) 0
    (by decide)).2.2.2.2 (by decide)
  have h32 := (issue_spec 32 (List.replicate (2 ^ 31 + 1) sampleGet) (MakeClerk 10 7) 0
    (by decide)).2.2.2.2 (by decide)
  refine ⟨⟨?_, ?_⟩, ?_, ?_⟩
  · rw [h64 (2 ^ 63 - 1) sampleGet (sampleGet_at _ _ (by norm_num)) (by decide)]
    decide
  · rw [h64 (2 ^ 63) sampleGet (sampleGet_at _ _ (by norm_num)) (by decide)]
    decide
  · rw [h32 (2 ^ 31 - 1) sampleGet (sampleGet_at _ _ (by norm_num)) (by decide)]
    decide
  · rw [h32 (2 ^ 31) sampleGet (sampleGet_at _ _ (by norm_num)) (by decide)]
    decide

/-- C9, amended: on a clerk returned by `MakeClerk`, as long as no more than
`2^(IntSize-1)` operations are issued (`IntSize` the size of an `int` in
bits), every request sent by the `k`-th operation (`Get`, `Put` or `Append`,
counted from 0), retries included, carries the clerk's id as `ClientId` and
`k` as `Id`, so the ids of a later operation are strictly greater than those
of an earlier one; an operation that returned has sent at least one request;
an operation whose environment lets it finish returns, having sent one such
request for every reply it rejected and one more. Afterwards the counter is
the number of operations issued, or `-2^(IntSize-1)` after exactly
`2^(IntSize-1)` of them. -/
theorem request_ids_increase_until_wrap (IntSize NShards : Nat) (rand : Int)
    (ops : List (Operation NShards)) (hI : 0 < IntSize) (hN : 0 < NShards)
    (hlen : ops.length ≤ 2 ^ (IntSize - 1)) :
    (issue IntSize (MakeClerk NShards rand) ops).2.length = ops.length ∧
    (issue IntSize (MakeClerk NShards rand) ops).1.id = rand ∧
    (issue IntSize (MakeClerk NShards rand) ops).1.count =
      (if ops.length < 2 ^ (IntSize - 1) then (ops.length : Int) else -2 ^ (IntSize - 1)) ∧
    (∀ (k : Nat) (obs : List (Int × Int) × Bool),
      (issue IntSize (MakeClerk NShards rand) ops).2[k]? = some obs →
      (∀ p ∈ obs.1, p.1 = rand ∧ p.2 = (k : Int)) ∧ (obs.2 = true → obs.1 ≠ [])) ∧
    (∀ (j k : Nat) (o1 o2 : List (Int × Int) × Bool), j < k →
      (issue IntSize (MakeClerk NShards rand) ops).2[j]? = some o1 →
      (issue IntSize (MakeClerk NShards rand) ops).2[k]? = some o2 →
      ∀ p ∈ o1.1, ∀ q ∈ o2.1, p.1 = q.1 ∧ p.2 < q.2) ∧
    (∀ (k : Nat) (op : Operation NShards), ops[k]? = some op → op.answered = true →
      (issue IntSize (MakeClerk NShards rand) ops).2[k]? =
        some (List.replicate (op.rejected + 1) (rand, (k : Int)), true)) := by
  have hc : (MakeClerk NShards rand).count = wrapInt IntSize 0 := (wrapInt_zero hI).symm
  obtain ⟨h1, h2, h3, h4, h5⟩ := issue_spec IntSize ops (MakeClerk NShards rand) 0 hc
  have hw : ∀ k : Nat, k < ops.length → wrapInt IntSize (0 + (k : Int)) = (k : Int) := by
    intro k hk
    rw [zero_add]
    refine wrapInt_of_lt hI (Int.ofNat_nonneg _) ?_
    have : k < 2 ^ (IntSize - 1) := by omega
    exact_mod_cast this
  have hk4 : ∀ (k : Nat) (obs : List (Int × Int) × Bool),
      (issue IntSize (MakeClerk NShards rand) ops).2[k]? = some obs → k < ops.length := by
    intro k obs hk
    have := (List.getElem?_eq_some_iff.1 hk).1
    rwa [h3] at this
  have h6 : ∀ (k : Nat) (obs : List (Int × Int) × Bool),
      (issue IntSize (MakeClerk NShards rand) ops).2[k]? = some obs →
      (∀ p ∈ obs.1, p.1 = rand ∧ p.2 = (k : Int)) ∧ (obs.2 = true → obs.1 ≠ []) := by
    intro k obs hk
    refine ⟨fun p hp => ?_, (h4 k obs hk).2 hN⟩
    rw [(h4 k obs hk).1 p hp, hw k (hk4 k obs hk)]
    exact ⟨rfl, rfl⟩
  refine ⟨h3, h1, ?_, h6, ?_, ?_⟩
  · rw [h2, zero_add]
    split
    · rename_i hlt
      exact wrapInt_of_lt hI (Int.ofNat_nonneg _) (by exact_mod_cast hlt)
    · rename_i hlt
      have he : ops.length = 2 ^ (IntSize - 1) := by omega
      rw [he]
      push_cast
      exact wrapInt_half hI
  · intro j k o1 o2 hjk hj hk p hp q hq
    rw [((h6 j o1 hj).1 p hp).1, ((h6 j o1 hj).1 p hp).2, ((h6 k o2 hk).1 q hq).1,
      ((h6 k o2 hk).1 q hq).2]
    exact ⟨rfl, by exact_mod_cast hjk⟩
  · intro k op hk ha
    rw [h5 hN k op hk ha, hw k (List.getElem?_eq_some_iff.1 hk).1]
    rfl

/-- Witness of the amended C9, with an `int` of 64 bits: of the three
operations of `sampleOps` the second, a `Put` answered after a reply from a
wrong leader, sends two requests, both with the clerk's id and `Id = 1`, and
returns. -/
theorem request_ids_increase_until_wrap_witness :
    0 < 64 ∧ 0 < 10 ∧ sampleOps.length ≤ 2 ^ (64 - 1) ∧
      (issue 64 (MakeClerk 10 7) sampleOps).2[1]? = some ([(7, 1), (7, 1)], true) :=
  ⟨by decide, by decide, by decide,
    (request_ids_increase_until_wrap 64 10 7 sampleOps (by decide) (by decide)
      (by decide)).2.2.2.2.2 1
      (Operation.put [97] [120] [sampleConfig, sampleConfig]
        [(true, { WrongLeader := true, Err := Err.OK }),
         (true, { WrongLeader := false, Err := Err.OK })]) rfl rfl⟩

end shardkv

/-! ## Theorems on `mapreduce/schedule.go` -/

namespace mapreduce

theorem step_sound {inp : Input} {s s1 : State} {a : Action} (h : step inp s a = some s1) :
    Step inp s a s1 := by
  unfold step at h
  split at h
  · simp at h
  · rename_i hp
    have hp : s.panicked = false := by simpa using hp
    split at h
    · split at h
      · rename_i i hm
        split at h
        · rename_i hlt
          split at h
          · rename_i args hargs
            cases h
            exact Step.enter i args hp hm hlt hargs
          · rename_i hargs
            cases h
            exact Step.indexPanic i hp hm hlt hargs
        · rename_i hlt
          cases h
          exact Step.wait i hp hm hlt
      · rename_i i args hm
        cases h
        exact Step.go i args hp hm
      · rename_i hm
        split at h
        · rename_i hwg
          cases h
          exact Step.ret hp hm hwg
        · simp at h
      · simp at h
    · cases h
      exact Step.register _ hp
    · split at h
      · rename_i hc
        cases h
        exact Step.extSend _ hp hc.1 hc.2
      · simp at h
    · split at h
      · rename_i args ht
        split at h
        · rename_i hc
          cases h
          exact Step.extHand _ _ args hp ht hc.1 hc.2
        · simp at h
      · simp at h
    · split at h
      · rename_i args w rest ht hc
        cases h
        exact Step.recv _ args w rest hp ht hc
      · simp at h
    · split at h
      · rename_i args w ht
        cases h
        exact Step.callRet _ _ args w hp ht
      · simp at h
    · split at h
      · rename_i args w ht
        split at h
        · rename_i hwg
          cases h
          exact Step.donePanic _ args w hp ht hwg
        · rename_i hwg
          cases h
          exact Step.done _ args w hp ht hwg
      · simp at h
    · split at h
      · rename_i args w ht
        split at h
        · rename_i hc
          cases h
          exact Step.send _ args w hp ht hc
        · simp at h
      · simp at h
    · split at h
      · rename_i args w args2 ht hu
        split at h
        · rename_i hc
          cases h
          exact Step.hand _ _ args args2 w hp ht hu hc
        · simp at h
      · simp at h

theorem step_complete {inp : Input} {s s1 : State} {a : Action} (h : Step inp s a s1) :
    step inp s a = some s1 := by
  cases h <;> simp_all [step]

/-- A property of states kept by every step holds along every execution. -/
theorem run_induction {inp : Input} (P : State → Prop)
    (hstep : ∀ s a s1, P s → Step inp s a s1 → P s1) :
    ∀ (as : List Action) (s s1 : State), P s → run inp s as = some s1 → P s1 := by
  intro as
  induction as with
  | nil => intro s s1 hP h; simp only [run, Option.some.injEq] at h; exact h ▸ hP
  | cons a as ih =>
    intro s s1 hP h
    simp only [run] at h
    cases hs : step inp s a with
    | none => simp [hs] at h
    | some s2 =>
      simp only [hs] at h
      exact ih s2 s1 (hstep s a s2 hP (step_sound hs)) h

theorem run_append {inp : Input} :
    ∀ (as bs : List Action) (s : State),
      run inp s (as ++ bs) = (run inp s as).bind fun s1 => run inp s1 bs := by
  intro as
  induction as with
  | nil => intro bs s; rfl
  | cons a as ih =>
    intro bs s
    simp only [List.cons_append, run]
    cases step inp s a with
    | none => rfl
    | some s2 => exact ih bs s2

theorem countP_set_of_getElem? {α : Type} (p : α → Bool) :
    ∀ (l : List α) (i : Nat) (g a : α), l[i]? = some g →
      (l.set i a).countP p + (if p g then 1 else 0) = l.countP p + (if p a then 1 else 0) := by
  intro l
  induction l with
  | nil => intro i g a h; simp at h
  | cons x l ih =>
    intro i g a h
    cases i with
    | zero =>
      simp only [List.getElem?_cons_zero, Option.some.injEq] at h
      subst h
      simp only [List.set_cons_zero, List.countP_cons]
      omega
    | succ i =>
      simp only [List.getElem?_cons_succ] at h
      have := ih i g a h
      simp only [List.set_cons_succ, List.countP_cons]
      omega

theorem countP_lt_length_of_getElem? {α : Type} (p : α → Bool) :
    ∀ (l : List α) (i : Nat) (g : α), l[i]? = some g → p g = false →
      l.countP p < l.length := by
  intro l
  induction l with
  | nil => intro i g h; simp at h
  | cons x l ih =>
    intro i g h hp
    cases i with
    | zero =>
      simp only [List.getElem?_cons_zero, Option.some.injEq] at h
      subst h
      simp only [List.countP_cons, hp, List.length_cons]
      have := List.countP_le_length p (l := l)
      simp; omega
    | succ i =>
      simp only [List.getElem?_cons_succ] at h
      have := ih i g h hp
      simp only [List.countP_cons, List.length_cons]
      split <;> omega

theorem exists_of_countP_lt_length {α : Type} (p : α → Bool) :
    ∀ (l : List α), l.countP p < l.length → ∃ (i : Nat) (g : α), l[i]? = some g ∧ p g = false := by
  intro l
  induction l with
  | nil => intro h; simp at h
  | cons x l ih =>
    intro h
    by_cases hx : p x = true
    · simp only [List.countP_cons, hx, if_true, List.length_cons] at h
      obtain ⟨i, g, hi, hg⟩ := ih (by omega)
      exact ⟨i + 1, g, by simpa using hi, hg⟩
    · exact ⟨0, x, by simp, by simpa using hx⟩

theorem lt_taskCount_iff (inp : Input) (i : Nat) : i < taskCount inp ↔ (i : Int) < ntasks inp := by
  unfold taskCount; omega

theorem mkArgs_of_lt (inp : Input) (i : Nat) (h : (i : Int) < ntasks inp) :
    mkArgs inp i = some
      { JobName := inp.jobName,
        File := if inp.phase = jobPhase.mapPhase then inp.mapFiles.getD i "" else "",
        Phase := inp.phase, TaskNumber := (i : Int), NumOtherPhase := n_other inp } := by
  unfold mkArgs
  by_cases hp : inp.phase = jobPhase.mapPhase
  · have hlt : i < inp.mapFiles.length := by
      simp only [ntasks, hp] at h
      exact_mod_cast h
    simp [hp, List.getElem?_eq_getElem hlt, List.getD_eq_getElem?_getD]
  · simp [hp]

end mapreduce

namespace mapreduce

theorem getElem?_set_cases {α : Type} {l : List α} {t u : Nat} {g x : α}
    (h : (l.set t g)[u]? = some x) : (u = t ∧ x = g) ∨ (u ≠ t ∧ l[u]? = some x) := by
  rw [List.getElem?_set] at h
  by_cases htu : t = u
  · subst htu
    simp only [if_true] at h
    split at h
    · simp only [Option.some.injEq] at h; exact Or.inl ⟨rfl, h.symm⟩
    · simp at h
  · simp only [htu, if_false] at h
    exact Or.inr ⟨fun e => htu e.symm, h⟩

theorem getElem?_append_singleton_cases {α : Type} {l : List α} {u : Nat} {g x : α}
    (h : (l ++ [g])[u]? = some x) : l[u]? = some x ∨ (u = l.length ∧ x = g) := by
  by_cases hu : u < l.length
  · rw [List.getElem?_append_left hu] at h; exact Or.inl h
  · rw [List.getElem?_append_right (by omega)] at h
    have : u - l.length = 0 := by
      by_contra hne
      have : ([g] : List α)[u - l.length]? = none := by
        apply List.getElem?_eq_none; simp; omega
      rw [this] at h; simp at h
    rw [this] at h
    simp only [List.getElem?_cons_zero, Option.some.injEq] at h
    exact Or.inr ⟨by omega, h.symm⟩

theorem doneCount_set {s : State} {t : Nat} {g a : Goroutine} (h : s.tasks[t]? = some g) :
    ((s.tasks.set t a).countP fun g => g.pc.isDone) + (if g.pc.isDone then 1 else 0)
      = doneCount s + (if a.pc.isDone then 1 else 0) :=
  countP_set_of_getElem? (fun g => g.pc.isDone) s.tasks t g a h

theorem inv_init (inp : Input) : Inv inp init := by
  refine ⟨rfl, ?_, ?_, ?_, ?_, ?_⟩
  · intro i h
    simp only [init, MainPc.loop.injEq] at h
    subst h
    simp [init, doneCount]
  · intro i args h; simp [init] at h
  · intro h; simp [init] at h
  · intro h; simp [init] at h
  · intro t g h; simp [init] at h

theorem inv_args_set {inp : Input} {s : State} (hI : Inv inp s) {t : Nat} {args : DoTaskArgs}
    {pc pc2 : Pc} (ht : s.tasks[t]? = some { args := args, pc := pc }) :
    ∀ (u : Nat) (g : Goroutine), (s.tasks.set t { args := args, pc := pc2 })[u]? = some g →
      mkArgs inp u = some g.args := by
  intro u g h
  rcases getElem?_set_cases h with ⟨rfl, rfl⟩ | ⟨_, h2⟩
  · exact hI.args u { args := args, pc := pc } ht
  · exact hI.args u g h2


/-- What a step that rewrites the goroutine `t` alone does to the control
invariant: it is kept when the WaitGroup counter moves with the number of
goroutines that are done. -/
theorem inv_set {inp : Input} {s s1 : State} (hI : Inv inp s) {t : Nat} {args : DoTaskArgs}
    {pc pc2 : Pc} (ht : s.tasks[t]? = some { args := args, pc := pc })
    (hp : s1.panicked = false) (hm : s1.main = s.main)
    (htasks : s1.tasks = s.tasks.set t { args := args, pc := pc2 })
    (hwg : s1.wg + (if pc2.isDone then 1 else 0) = s.wg + (if pc.isDone then 1 else 0))
    (hret : s.main = MainPc.returned → pc2.isDone = pc.isDone) :
    Inv inp s1 := by
  have hd : (doneCount s1 : Int) + (if pc.isDone then 1 else 0)
      = doneCount s + (if pc2.isDone then 1 else 0) := by
    have := doneCount_set (a := { args := args, pc := pc2 }) ht
    simp only [doneCount, htasks]
    simp only [doneCount] at this
    split at this <;> split at this <;> simp_all
    all_goals omega
  have hlen : s1.tasks.length = s.tasks.length := by rw [htasks, List.length_set]
  refine ⟨hp, ?_, ?_, ?_, ?_, ?_⟩
  · intro i h
    obtain ⟨h1, h2, h3⟩ := hI.atLoop i (hm ▸ h)
    refine ⟨by omega, h2, ?_⟩
    split at hd <;> split at hd <;> simp_all <;> omega
  · intro i a h
    obtain ⟨h1, h2, h3, h4⟩ := hI.atAdded i a (hm ▸ h)
    refine ⟨by omega, h2, h3, ?_⟩
    split at hd <;> split at hd <;> simp_all <;> omega
  · intro h
    obtain ⟨h1, h2⟩ := hI.atWait (hm ▸ h)
    refine ⟨by omega, ?_⟩
    split at hd <;> split at hd <;> simp_all <;> omega
  · intro h
    obtain ⟨h1, h2, h3⟩ := hI.atRet (hm ▸ h)
    have he := hret (hm ▸ h)
    rw [he] at hd hwg
    refine ⟨by omega, ?_, ?_⟩
    · split at hwg <;> omega
    · split at hd <;> omega
  · rw [htasks]; exact inv_args_set hI ht


theorem inv_frame {inp : Input} {s s1 : State} (hI : Inv inp s)
    (hp : s1.panicked = s.panicked) (hm : s1.main = s.main) (hw : s1.wg = s.wg)
    (ht : s1.tasks = s.tasks) : Inv inp s1 := by
  have hd : doneCount s1 = doneCount s := by simp [doneCount, ht]
  refine ⟨hp ▸ hI.noPanic, ?_, ?_, ?_, ?_, ?_⟩
  · intro i h; rw [ht, hw, hd]; exact hI.atLoop i (hm ▸ h)
  · intro i a h; rw [ht, hw, hd]; exact hI.atAdded i a (hm ▸ h)
  · intro h; rw [ht, hw, hd]; exact hI.atWait (hm ▸ h)
  · intro h; rw [ht, hw, hd]; exact hI.atRet (hm ▸ h)
  · rw [ht]; exact hI.args

/-- While a goroutine has not executed `wg.Done()`, the counter is positive
and `schedule` has not returned. -/
theorem inv_pending {inp : Input} {s : State} (hI : Inv inp s) {t : Nat} {g : Goroutine}
    (ht : s.tasks[t]? = some g) (hg : g.pc.isDone = false) :
    0 < s.wg ∧ s.main ≠ MainPc.returned := by
  have hlt : doneCount s < s.tasks.length := by
    unfold doneCount
    exact countP_lt_length_of_getElem? (fun g => g.pc.isDone) s.tasks t g ht hg
  cases hm : s.main with
  | loop i => obtain ⟨h1, _, h3⟩ := hI.atLoop i hm; exact ⟨by omega, by simp⟩
  | added i a => obtain ⟨h1, _, _, h3⟩ := hI.atAdded i a hm; exact ⟨by omega, by simp⟩
  | waiting => obtain ⟨h1, h3⟩ := hI.atWait hm; exact ⟨by omega, by simp⟩
  | returned => obtain ⟨h1, _, h3⟩ := hI.atRet hm; omega

theorem inv_step {inp : Input} {s s1 : State} {a : Action} (hI : Inv inp s)
    (h : Step inp s a s1) : Inv inp s1 := by
  cases h with
  | enter i args hp hm hlt hargs =>
    obtain ⟨h1, h2, h3⟩ := hI.atLoop i hm
    refine ⟨hp, ?_, ?_, ?_, ?_, hI.args⟩
    · intro j h; simp at h
    · intro j a h
      simp only [MainPc.added.injEq] at h
      obtain ⟨hj, ha⟩ := h
      subst hj ha
      refine ⟨h1, (lt_taskCount_iff inp _).2 hlt, hargs, ?_⟩
      simp only [doneCount] at h3 ⊢
      omega
    · intro h; simp at h
    · intro h; simp at h
  | indexPanic i hp hm hlt hargs =>
    rw [mkArgs_of_lt inp i hlt] at hargs; simp at hargs
  | wait i hp hm hlt =>
    obtain ⟨h1, h2, h3⟩ := hI.atLoop i hm
    have hi : i = taskCount inp := by
      have := (lt_taskCount_iff inp i).not.2 hlt
      omega
    refine ⟨hp, ?_, ?_, ?_, ?_, hI.args⟩
    · intro j h; simp at h
    · intro j a h; simp at h
    · intro _
      exact ⟨by simpa [hi] using h1, by simp only [doneCount] at h3 ⊢; omega⟩
    · intro h; simp at h
  | go i args hp hm =>
    obtain ⟨h1, h2, h3, h4⟩ := hI.atAdded i args hm
    refine ⟨hp, ?_, ?_, ?_, ?_, ?_⟩
    · intro j h
      simp only [MainPc.loop.injEq] at h
      subst h
      refine ⟨by simp [h1], by omega, ?_⟩
      simp only [doneCount, List.countP_append] at h4 ⊢
      have h0 : List.countP (fun g : Goroutine => g.pc.isDone)
          [{ args := args, pc := Pc.awaiting }] = 0 := rfl
      rw [h0]
      push_cast
      omega
    · intro j a h; simp at h
    · intro h; simp at h
    · intro h; simp at h
    · intro u g hu
      rcases getElem?_append_singleton_cases hu with hu | ⟨rfl, rfl⟩
      · exact hI.args u g hu
      · rw [h1]; exact h3
  | ret hp hm hwg =>
    obtain ⟨h1, h2⟩ := hI.atWait hm
    refine ⟨hp, ?_, ?_, ?_, ?_, hI.args⟩
    · intro j h; simp at h
    · intro j a h; simp at h
    · intro h; simp at h
    · intro _
      refine ⟨h1, hwg, ?_⟩
      simp only [doneCount] at h2 ⊢
      omega
  | register w hp => exact inv_frame hI rfl rfl rfl rfl
  | extSend w hp hw hc => exact inv_frame hI rfl rfl rfl rfl
  | extHand w t args hp ht hw hc =>
    exact inv_set hI ht hp rfl rfl (by simp [Pc.isDone]) (fun _ => rfl)
  | recv t args w rest hp ht hc =>
    exact inv_set hI ht hp rfl rfl (by simp [Pc.isDone]) (fun _ => rfl)
  | callRet t ok args w hp ht =>
    refine inv_set hI ht hp rfl rfl ?_ ?_
    · cases ok <;> simp [Pc.isDone]
    · intro _; cases ok <;> simp [Pc.isDone]
  | done t args w hp ht hwg =>
    have hpend := inv_pending hI ht (by simp [Pc.isDone])
    refine inv_set hI ht hp rfl rfl ?_ ?_
    · simp [Pc.isDone]
    · intro h; exact absurd h hpend.2
  | donePanic t args w hp ht hwg =>
    have hpend := inv_pending hI ht (by simp [Pc.isDone])
    omega
  | send t args w hp ht hc =>
    exact inv_set hI ht hp rfl rfl (by simp [Pc.isDone]) (fun _ => rfl)
  | hand t u args args2 w hp ht hu hc =>
    have hne : t ≠ u := by
      intro e; subst e; rw [ht] at hu; simp at hu
    have h1 : Inv inp { s with tasks := s.tasks.set t { args := args, pc := Pc.finished } } :=
      inv_set hI ht hp rfl rfl (by simp [Pc.isDone]) (fun _ => rfl)
    have hu2 : (s.tasks.set t { args := args, pc := Pc.finished })[u]?
        = some { args := args2, pc := Pc.awaiting } := by
      rw [List.getElem?_set_ne hne]; exact hu
    exact inv_set (s := { s with tasks := s.tasks.set t { args := args, pc := Pc.finished } })
      h1 hu2 hp rfl rfl (by simp [Pc.isDone]) (fun _ => rfl)

/-- The control invariant holds in every state an execution of `schedule`
reaches. -/
theorem inv_run {inp : Input} {as : List Action} {s : State}
    (h : run inp init as = some s) : Inv inp s :=
  run_induction (Inv inp) (fun _ _ _ hI hs => inv_step hI hs) as init s (inv_init inp) h

end mapreduce

namespace mapreduce

theorem pcAt_set {s s1 : State} {t : Nat} {g g2 : Goroutine} (ht : s.tasks[t]? = some g)
    (h1 : s1.tasks = s.tasks.set t g2) (u : Nat) :
    s1.pcAt u = if u = t then some g2.pc else s.pcAt u := by
  have hlt : t < s.tasks.length := by
    by_contra hge
    rw [List.getElem?_eq_none (by omega)] at ht
    simp at ht
  unfold State.pcAt
  rw [h1, List.getElem?_set]
  by_cases hut : u = t
  · subst hut; simp [hlt]
  · have : ¬ t = u := fun e => hut e.symm
    simp [hut, this]

theorem pcAt_of_getElem? {s : State} {t : Nat} {g : Goroutine} (ht : s.tasks[t]? = some g) :
    s.pcAt t = some g.pc := by
  simp [State.pcAt, ht]

theorem getElem?_of_pcAt {s : State} {t : Nat} {pc : Pc} (ht : s.pcAt t = some pc) :
    ∃ a, s.tasks[t]? = some { args := a, pc := pc } := by
  unfold State.pcAt at ht
  cases h : s.tasks[t]? with
  | none => simp [h] at ht
  | some g =>
    simp only [h, Option.map_some', Option.some.injEq] at ht
    exact ⟨g.args, by rw [← ht]⟩

theorem eachAfter_iff (Q : Event → List Event → Prop) (log : List Event) :
    EachAfter Q log ↔ ∀ l1 e l2, log = l1 ++ e :: l2 → Q e l2 := by
  induction log with
  | nil => simp [EachAfter]
  | cons x log ih =>
    simp only [EachAfter, ih]
    constructor
    · rintro ⟨hx, hrest⟩ l1 e l2 h
      cases l1 with
      | nil =>
        simp only [List.nil_append, List.cons.injEq] at h
        obtain ⟨rfl, rfl⟩ := h
        exact hx
      | cons y l1 =>
        simp only [List.cons_append, List.cons.injEq] at h
        exact hrest l1 e l2 h.2
    · intro h
      exact ⟨h [] x log rfl, fun l1 e l2 h2 => h (x :: l1) e l2 (by rw [h2]; rfl)⟩

theorem hist_init : Hist init := by
  refine ⟨?_, ?_, ?_, ?_, ?_, ?_, ?_, ?_⟩ <;>
    simp [init, State.pcAt, indicator, EachAfter, successes]

/-- The history invariant is kept when the goroutines stay as they are and
the history grows by an event of no task goroutine, or not at all. -/
theorem hist_frame {s s1 : State} (hH : Hist s) (ht : s1.tasks = s.tasks)
    (hl : s1.log = s.log ∨ s1.log = Event.ret :: s.log ∨
      ∃ w, s1.log = Event.register w :: s.log) : Hist s1 := by
  have hpc : ∀ t, s1.pcAt t = s.pcAt t := fun t => by simp [State.pcAt, ht]
  rcases hl with hl | hl | ⟨w, hl⟩
  · refine ⟨?_, ?_, ?_, ?_, ?_, ?_, ?_, ?_⟩
    · intro t; rw [hl, hpc]; exact hH.succ t
    · intro t; rw [hl, hpc]; exact hH.dones t
    · intro t; rw [hl, hpc]; exact hH.pushes t
    · intro t w a ok h; rw [ht]; exact hH.callArgs t w a ok (hl ▸ h)
    · intro t w h; rw [hl]; exact hH.pulled t w (hpc t ▸ h)
    · intro t w h; rw [hl]; exact hH.won t w (hpc t ▸ h)
    · rw [hl]; exact hH.order
    · rw [hl, ht]; exact hH.total
  · refine ⟨?_, ?_, ?_, ?_, ?_, ?_, ?_, ?_⟩
    · intro t; rw [hl, hpc]; simpa [Event.isSuccessOf] using hH.succ t
    · intro t; rw [hl, hpc]; simpa [Event.isDoneOf] using hH.dones t
    · intro t; rw [hl, hpc]; simpa [Event.isPushOf] using hH.pushes t
    · intro t w a ok h
      rw [hl] at h
      rw [ht]; exact hH.callArgs t w a ok (by simpa using h)
    · intro t w h; rw [hl]; exact List.mem_cons_of_mem _ (hH.pulled t w (hpc t ▸ h))
    · intro t w h
      obtain ⟨a, ha⟩ := hH.won t w (hpc t ▸ h)
      exact ⟨a, by rw [hl]; exact List.mem_cons_of_mem _ ha⟩
    · rw [hl]; exact ⟨trivial, hH.order⟩
    · rw [hl, ht]; simpa [successes] using hH.total
  · refine ⟨?_, ?_, ?_, ?_, ?_, ?_, ?_, ?_⟩
    · intro t; rw [hl, hpc]; simpa [Event.isSuccessOf] using hH.succ t
    · intro t; rw [hl, hpc]; simpa [Event.isDoneOf] using hH.dones t
    · intro t; rw [hl, hpc]; simpa [Event.isPushOf] using hH.pushes t
    · intro t w2 a ok h
      rw [hl] at h
      rw [ht]; exact hH.callArgs t w2 a ok (by simpa using h)
    · intro t w2 h; rw [hl]; exact List.mem_cons_of_mem _ (hH.pulled t w2 (hpc t ▸ h))
    · intro t w2 h
      obtain ⟨a, ha⟩ := hH.won t w2 (hpc t ▸ h)
      exact ⟨a, by rw [hl]; exact List.mem_cons_of_mem _ ha⟩
    · rw [hl]; exact ⟨trivial, hH.order⟩
    · rw [hl, ht]; simpa [successes] using hH.total

end mapreduce

namespace mapreduce

theorem pcAt_spawn {s s1 : State} {args : DoTaskArgs}
    (h1 : s1.tasks = s.tasks ++ [{ args := args, pc := Pc.awaiting }]) (t : Nat) :
    s1.pcAt t = s.pcAt t ∨ (s1.pcAt t = some Pc.awaiting ∧ s.pcAt t = none) := by
  unfold State.pcAt
  rw [h1]
  by_cases hlt : t < s.tasks.length
  · left; rw [List.getElem?_append_left hlt]
  · have hn : s.tasks[t]? = none := List.getElem?_eq_none (by omega)
    by_cases he : t = s.tasks.length
    · right
      subst he
      simp [hn]
    · left
      rw [hn, List.getElem?_eq_none (by simp; omega)]

theorem hist_spawn {s s1 : State} {args : DoTaskArgs} (hH : Hist s)
    (h1 : s1.tasks = s.tasks ++ [{ args := args, pc := Pc.awaiting }])
    (hl : s1.log = s.log) : Hist s1 := by
  have hind : ∀ (p : Pc → Bool), p Pc.awaiting = false →
      ∀ t, indicator p (s1.pcAt t) = indicator p (s.pcAt t) := by
    intro p hp t
    rcases pcAt_spawn h1 t with h | ⟨h, h2⟩
    · rw [h]
    · rw [h, h2]; simp [indicator, hp]
  have hpc : ∀ t pc, pc ≠ Pc.awaiting → s1.pcAt t = some pc → s.pcAt t = some pc := by
    intro t pc hne h
    rcases pcAt_spawn h1 t with h2 | ⟨h2, _⟩
    · rw [← h2]; exact h
    · rw [h2] at h; simp only [Option.some.injEq] at h; exact absurd h.symm hne
  refine ⟨?_, ?_, ?_, ?_, ?_, ?_, ?_, ?_⟩
  · intro t; rw [hl, hind _ rfl]; exact hH.succ t
  · intro t; rw [hl, hind _ rfl]; exact hH.dones t
  · intro t; rw [hl, hind _ rfl]; exact hH.pushes t
  · intro t w a ok h
    obtain ⟨pc, hpc⟩ := hH.callArgs t w a ok (hl ▸ h)
    refine ⟨pc, ?_⟩
    have hlt : t < s.tasks.length := by
      by_contra hge
      rw [List.getElem?_eq_none (by omega)] at hpc
      simp at hpc
    rw [h1, List.getElem?_append_left hlt]; exact hpc
  · intro t w h; rw [hl]; exact hH.pulled t w (hpc t _ (by simp) h)
  · intro t w h
    rw [hl]
    refine hH.won t w ?_
    rcases h with h | h
    · exact Or.inl (hpc t _ (by simp) h)
    · exact Or.inr (hpc t _ (by simp) h)
  · rw [hl]; exact hH.order
  · rw [hl, h1, List.countP_append]
    have h0 : List.countP (fun g : Goroutine => g.pc.hasSucceeded)
        [{ args := args, pc := Pc.awaiting }] = 0 := rfl
    rw [h0]; exact hH.total

theorem mem_of_countP_pos {p : Event → Bool} {log : List Event} (h : 0 < log.countP p) :
    ∃ e ∈ log, p e = true := by
  rcases List.countP_pos_iff.1 h with ⟨e, he, hp⟩
  exact ⟨e, he, hp⟩

theorem isDoneOf_eq {t : Nat} {e : Event} (h : e.isDoneOf t = true) : e = Event.done t := by
  cases e <;> simp_all [Event.isDoneOf]

theorem succCount_set {s : State} {t : Nat} {args : DoTaskArgs} {pc : Pc} (pc2 : Pc)
    (ht : s.tasks[t]? = some { args := args, pc := pc }) :
    ((s.tasks.set t { args := args, pc := pc2 }).countP fun g => g.pc.hasSucceeded)
        + (if pc.hasSucceeded = true then 1 else 0)
      = (s.tasks.countP fun g => g.pc.hasSucceeded)
        + (if pc2.hasSucceeded = true then 1 else 0) :=
  countP_set_of_getElem? (fun g : Goroutine => g.pc.hasSucceeded) s.tasks t _ _ ht

/-- The history invariant is kept by a statement of the goroutine `t`. -/
theorem hist_move {s s1 : State} {t : Nat} {args : DoTaskArgs} {pc pc2 : Pc} {e : Event}
    (hH : Hist s) (ht : s.tasks[t]? = some { args := args, pc := pc })
    (hmove : TaskMove t args pc e pc2)
    (h1 : s1.tasks = s.tasks.set t { args := args, pc := pc2 })
    (hl : s1.log = e :: s.log) : Hist s1 := by
  have hpcAt := pcAt_set ht h1
  have hpt : s.pcAt t = some pc := pcAt_of_getElem? ht
  have hsucc := hH.succ t
  have hdones := hH.dones t
  have hpushes := hH.pushes t
  rw [hpt] at hsucc hdones hpushes
  have htot := succCount_set pc2 ht
  have htotal := hH.total
  have e1 : (if Pc.hasSucceeded Pc.awaiting = true then 1 else 0) = 0 := rfl
  have e2 : ∀ w, (if Pc.hasSucceeded (Pc.invoking w) = true then 1 else 0) = 0 := fun _ => rfl
  have e3 : ∀ w, (if Pc.hasSucceeded (Pc.succeeded w) = true then 1 else 0) = 1 := fun _ => rfl
  have e4 : ∀ w, (if Pc.hasSucceeded (Pc.pushing w) = true then 1 else 0) = 1 := fun _ => rfl
  have e5 : (if Pc.hasSucceeded Pc.finished = true then 1 else 0) = 1 := rfl
  have hcallArgs : ∀ u w a ok, Event.call u w a ok ∈ s.log →
      ∃ pc, s1.tasks[u]? = some ⟨a, pc⟩ := by
    intro u w a ok h
    obtain ⟨q, hq⟩ := hH.callArgs u w a ok h
    by_cases hut : u = t
    · subst hut
      rw [ht] at hq
      simp only [Option.some.injEq, Goroutine.mk.injEq] at hq
      refine ⟨pc2, ?_⟩
      rw [h1, List.getElem?_set]
      have hlt : u < s.tasks.length := by
        by_contra hge
        rw [List.getElem?_eq_none (by omega)] at ht
        simp at ht
      simp [hlt, hq.1]
    · refine ⟨q, ?_⟩
      rw [h1, List.getElem?_set_ne (fun e => hut e.symm)]; exact hq
  cases hmove with
  | pull w =>
    refine ⟨?_, ?_, ?_, ?_, ?_, ?_, ?_, ?_⟩
    · intro u; rw [hl, hpcAt]
      by_cases hut : u = t
      · subst hut; simpa [Event.isSuccessOf, indicator, Pc.hasSucceeded] using hsucc
      · simpa [hut, Event.isSuccessOf] using hH.succ u
    · intro u; rw [hl, hpcAt]
      by_cases hut : u = t
      · subst hut; simpa [Event.isDoneOf, indicator, Pc.isDone] using hdones
      · simpa [hut, Event.isDoneOf] using hH.dones u
    · intro u; rw [hl, hpcAt]
      by_cases hut : u = t
      · subst hut; simpa [Event.isPushOf, indicator] using hpushes
      · simpa [hut, Event.isPushOf] using hH.pushes u
    · intro u w2 a ok h
      rw [hl] at h
      exact hcallArgs u w2 a ok (by simpa using h)
    · intro u w2 h
      rw [hpcAt] at h
      rw [hl]
      by_cases hut : u = t
      · subst hut
        simp only [if_true, Option.some.injEq, Pc.invoking.injEq] at h
        subst h; exact List.mem_cons_self _ _
      · simp only [hut, if_false] at h
        exact List.mem_cons_of_mem _ (hH.pulled u w2 h)
    · intro u w2 h
      rw [hpcAt] at h
      by_cases hut : u = t
      · subst hut; simp at h
      · simp only [hut, if_false] at h
        obtain ⟨a, ha⟩ := hH.won u w2 h
        exact ⟨a, by rw [hl]; exact List.mem_cons_of_mem _ ha⟩
    · rw [hl]
      refine ⟨?_, hH.order⟩
      simpa [Event.inOrder, indicator, Pc.hasSucceeded] using hsucc
    · rw [hl, h1]
      simp only [successes]
      simp only [e1, e2, e3, e4, e5] at htot
      omega
  | call w ok =>
    have hpulled : Event.pull t w ∈ s.log := hH.pulled t w hpt
    refine ⟨?_, ?_, ?_, ?_, ?_, ?_, ?_, ?_⟩
    · intro u; rw [hl, hpcAt]
      by_cases hut : u = t
      · subst hut
        cases ok <;>
          simpa [Event.isSuccessOf, indicator, Pc.hasSucceeded] using hsucc
      · have hne : ¬ t = u := fun e => hut e.symm
        cases ok <;> simpa [hut, hne, Event.isSuccessOf] using hH.succ u
    · intro u; rw [hl, hpcAt]
      by_cases hut : u = t
      · subst hut; cases ok <;> simpa [Event.isDoneOf, indicator, Pc.isDone] using hdones
      · simpa [hut, Event.isDoneOf] using hH.dones u
    · intro u; rw [hl, hpcAt]
      by_cases hut : u = t
      · subst hut; cases ok <;> simpa [Event.isPushOf, indicator] using hpushes
      · simpa [hut, Event.isPushOf] using hH.pushes u
    · intro u w2 a ok2 h
      rw [hl] at h
      rcases List.mem_cons.1 h with h | h
      · simp only [Event.call.injEq] at h
        obtain ⟨hu, -, ha, -⟩ := h
        have hlt : t < s.tasks.length := by
          by_contra hge
          rw [List.getElem?_eq_none (by omega)] at ht
          simp at ht
        rw [hu, ha, h1, List.getElem?_set]
        simp [hlt]
      · exact hcallArgs u w2 a ok2 h
    · intro u w2 h
      rw [hpcAt] at h
      rw [hl]
      by_cases hut : u = t
      · subst hut; cases ok <;> simp at h
      · simp only [hut, if_false] at h
        exact List.mem_cons_of_mem _ (hH.pulled u w2 h)
    · intro u w2 h
      rw [hpcAt] at h
      by_cases hut : u = t
      · subst hut
        cases ok with
        | false => simp at h
        | true =>
          simp at h
          subst h
          exact ⟨args, by rw [hl]; exact List.mem_cons_self _ _⟩
      · simp only [hut, if_false] at h
        obtain ⟨a, ha⟩ := hH.won u w2 h
        exact ⟨a, by rw [hl]; exact List.mem_cons_of_mem _ ha⟩
    · rw [hl]
      refine ⟨⟨hpulled, ?_⟩, hH.order⟩
      simpa [indicator, Pc.hasSucceeded] using hsucc
    · rw [hl, h1]
      cases ok with
      | false =>
        simp only [successes]
        simp only [Bool.false_eq_true, if_false, e1, e2] at htot ⊢
        omega
      | true =>
        simp only [successes, List.length_cons]
        simp only [if_true, e2, e3] at htot ⊢
        omega
  | done w =>
    obtain ⟨a, ha⟩ := hH.won t w (Or.inl hpt)
    refine ⟨?_, ?_, ?_, ?_, ?_, ?_, ?_, ?_⟩
    · intro u; rw [hl, hpcAt]
      by_cases hut : u = t
      · subst hut; simpa [Event.isSuccessOf, indicator, Pc.hasSucceeded] using hsucc
      · simpa [hut, Event.isSuccessOf] using hH.succ u
    · intro u; rw [hl, hpcAt]
      by_cases hut : u = t
      · subst hut; simpa [Event.isDoneOf, indicator, Pc.isDone] using hdones
      · have hne : ¬ t = u := fun e => hut e.symm
        simpa [hut, hne, Event.isDoneOf] using hH.dones u
    · intro u; rw [hl, hpcAt]
      by_cases hut : u = t
      · subst hut; simpa [Event.isPushOf, indicator] using hpushes
      · simpa [hut, Event.isPushOf] using hH.pushes u
    · intro u w2 a2 ok h
      rw [hl] at h
      exact hcallArgs u w2 a2 ok (by simpa using h)
    · intro u w2 h
      rw [hpcAt] at h
      rw [hl]
      by_cases hut : u = t
      · subst hut; simp at h
      · simp only [hut, if_false] at h
        exact List.mem_cons_of_mem _ (hH.pulled u w2 h)
    · intro u w2 h
      rw [hpcAt] at h
      by_cases hut : u = t
      · subst hut
        simp at h
        subst h
        exact ⟨a, by rw [hl]; exact List.mem_cons_of_mem _ ha⟩
      · simp only [hut, if_false] at h
        obtain ⟨a2, ha2⟩ := hH.won u w2 h
        exact ⟨a2, by rw [hl]; exact List.mem_cons_of_mem _ ha2⟩
    · rw [hl]
      refine ⟨⟨⟨w, a, ha⟩, ?_⟩, hH.order⟩
      simpa [indicator, Pc.isDone] using hdones
    · rw [hl, h1]
      simp only [successes]
      simp only [e1, e2, e3, e4, e5] at htot
      omega
  | push w =>
    obtain ⟨a, ha⟩ := hH.won t w (Or.inr hpt)
    have hdone : Event.done t ∈ s.log := by
      have : 0 < s.log.countP (Event.isDoneOf t) := by
        rw [hdones]; simp [indicator, Pc.isDone]
      obtain ⟨e, he, hp⟩ := mem_of_countP_pos this
      rw [← isDoneOf_eq hp]; exact he
    refine ⟨?_, ?_, ?_, ?_, ?_, ?_, ?_, ?_⟩
    · intro u; rw [hl, hpcAt]
      by_cases hut : u = t
      · subst hut; simpa [Event.isSuccessOf, indicator, Pc.hasSucceeded] using hsucc
      · simpa [hut, Event.isSuccessOf] using hH.succ u
    · intro u; rw [hl, hpcAt]
      by_cases hut : u = t
      · subst hut; simpa [Event.isDoneOf, indicator, Pc.isDone] using hdones
      · simpa [hut, Event.isDoneOf] using hH.dones u
    · intro u; rw [hl, hpcAt]
      by_cases hut : u = t
      · subst hut; simpa [Event.isPushOf, indicator] using hpushes
      · have hne : ¬ t = u := fun e => hut e.symm
        simpa [hut, hne, Event.isPushOf] using hH.pushes u
    · intro u w2 a2 ok h
      rw [hl] at h
      exact hcallArgs u w2 a2 ok (by simpa using h)
    · intro u w2 h
      rw [hpcAt] at h
      rw [hl]
      by_cases hut : u = t
      · subst hut; simp at h
      · simp only [hut, if_false] at h
        exact List.mem_cons_of_mem _ (hH.pulled u w2 h)
    · intro u w2 h
      rw [hpcAt] at h
      by_cases hut : u = t
      · subst hut; simp at h
      · simp only [hut, if_false] at h
        obtain ⟨a2, ha2⟩ := hH.won u w2 h
        exact ⟨a2, by rw [hl]; exact List.mem_cons_of_mem _ ha2⟩
    · rw [hl]
      refine ⟨⟨⟨a, ha⟩, hdone, ?_⟩, hH.order⟩
      simpa [indicator] using hpushes
    · rw [hl, h1]
      simp only [successes]
      simp only [e1, e2, e3, e4, e5] at htot
      omega

end mapreduce

namespace mapreduce

theorem hist_step {inp : Input} {s s1 : State} {a : Action} (hH : Hist s)
    (h : Step inp s a s1) : Hist s1 := by
  cases h with
  | enter i args hp hm hlt hargs => exact hist_frame hH rfl (Or.inl rfl)
  | indexPanic i hp hm hlt hargs => exact hist_frame hH rfl (Or.inl rfl)
  | wait i hp hm hlt => exact hist_frame hH rfl (Or.inl rfl)
  | go i args hp hm => exact hist_spawn hH rfl rfl
  | ret hp hm hwg => exact hist_frame hH rfl (Or.inr (Or.inl rfl))
  | register w hp => exact hist_frame hH rfl (Or.inr (Or.inr ⟨w, rfl⟩))
  | extSend w hp hw hc => exact hist_frame hH rfl (Or.inl rfl)
  | extHand w t args hp ht hw hc => exact hist_move hH ht (TaskMove.pull w) rfl rfl
  | recv t args w rest hp ht hc => exact hist_move hH ht (TaskMove.pull w) rfl rfl
  | callRet t ok args w hp ht => exact hist_move hH ht (TaskMove.call w ok) rfl rfl
  | done t args w hp ht hwg => exact hist_move hH ht (TaskMove.done w) rfl rfl
  | donePanic t args w hp ht hwg => exact hist_frame hH rfl (Or.inl rfl)
  | send t args w hp ht hc => exact hist_move hH ht (TaskMove.push w) rfl rfl
  | hand t u args args2 w hp ht hu hc =>
    have hne : t ≠ u := by
      intro e; subst e; rw [ht] at hu; simp at hu
    have h1 : Hist { s with tasks := s.tasks.set t { args := args, pc := Pc.finished },
                            log := Event.push t w :: s.log } :=
      hist_move hH ht (TaskMove.push w) rfl rfl
    have hu2 : (s.tasks.set t { args := args, pc := Pc.finished })[u]?
        = some { args := args2, pc := Pc.awaiting } := by
      rw [List.getElem?_set_ne hne]; exact hu
    exact hist_move
      (s := { s with tasks := s.tasks.set t { args := args, pc := Pc.finished },
                     log := Event.push t w :: s.log })
      h1 hu2 (TaskMove.pull w) rfl rfl

/-- The history invariant holds in every state an execution of `schedule`
reaches. -/
theorem hist_run {inp : Input} {as : List Action} {s : State}
    (h : run inp init as = some s) : Hist s :=
  run_induction Hist (fun _ _ _ hH hs => hist_step hH hs) as init s hist_init h

end mapreduce

namespace mapreduce

theorem mkArgs_taskNumber {inp : Input} {t : Nat} {a : DoTaskArgs} (h : mkArgs inp t = some a) :
    a.TaskNumber = (t : Int) := by
  unfold mkArgs at h
  split at h
  · split at h
    · simp only [Option.some.injEq] at h; rw [← h]
    · simp at h
  · simp only [Option.some.injEq] at h; rw [← h]

/-- Every invocation of the history was made by the goroutine whose number is
the `TaskNumber` of its descriptor. -/
theorem call_taskNumber {inp : Input} {s : State} (hI : Inv inp s) (hH : Hist s)
    {t : Nat} {w : String} {a : DoTaskArgs} {ok : Bool} (h : Event.call t w a ok ∈ s.log) :
    mkArgs inp t = some a ∧ a.TaskNumber = (t : Int) ∧ t < s.tasks.length := by
  obtain ⟨pc, hpc⟩ := hH.callArgs t w a ok h
  have hm := hI.args t _ hpc
  refine ⟨hm, mkArgs_taskNumber hm, ?_⟩
  by_contra hge
  rw [List.getElem?_eq_none (by omega)] at hpc
  simp at hpc

theorem successes_countP (i : Nat) :
    ∀ (log : List Event),
      (∀ t w a ok, Event.call t w a ok ∈ log → a.TaskNumber = (t : Int)) →
      (successes log).countP (fun a => a.TaskNumber = (i : Int))
        = log.countP (Event.isSuccessOf i) := by
  intro log
  induction log with
  | nil => intro _; rfl
  | cons e log ih =>
    intro h
    have ih2 := ih (fun t w a ok hm => h t w a ok (List.mem_cons_of_mem _ hm))
    cases e with
    | call t w a ok =>
      have ht := h t w a ok (List.mem_cons_self _ _)
      cases ok with
      | false => simpa [successes, Event.isSuccessOf] using ih2
      | true =>
        simp only [successes, List.countP_cons, ih2, Event.isSuccessOf, ht]
        congr 1
        by_cases hti : t = i
        · simp [hti]
        · have : ¬ ((t : Int) = (i : Int)) := by exact_mod_cast hti
          simp [hti, this]
    | register w => simpa [successes, Event.isSuccessOf] using ih2
    | pull t w => simpa [successes, Event.isSuccessOf] using ih2
    | done t => simpa [successes, Event.isSuccessOf] using ih2
    | push t w => simpa [successes, Event.isSuccessOf] using ih2
    | ret => simpa [successes, Event.isSuccessOf] using ih2

theorem mem_successes {log : List Event} {a : DoTaskArgs} :
    a ∈ successes log ↔ ∃ t w, Event.call t w a true ∈ log := by
  induction log with
  | nil => simp [successes]
  | cons e log ih =>
    cases e with
    | call t w b ok =>
      cases ok with
      | false => simp [successes, ih]
      | true =>
        simp only [successes, List.mem_cons, ih, Event.call.injEq, and_true]
        constructor
        · rintro (h | ⟨t2, w2, h⟩)
          · exact ⟨t, w, Or.inl ⟨rfl, rfl, h⟩⟩
          · exact ⟨t2, w2, Or.inr h⟩
        · rintro ⟨t2, w2, h | h⟩
          · exact Or.inl h.2.2
          · exact Or.inr ⟨t2, w2, h⟩
    | register w => simp [successes, ih]
    | pull t w => simp [successes, ih]
    | done t => simp [successes, ih]
    | push t w => simp [successes, ih]
    | ret => simp [successes, ih]

/-- When `schedule` has returned, every goroutine has executed `wg.Done()`. -/
theorem all_done_of_returned {inp : Input} {s : State} (hI : Inv inp s)
    (hret : s.main = MainPc.returned) (t : Nat) (ht : t < taskCount inp) :
    ∃ g, s.tasks[t]? = some g ∧ g.pc.isDone = true := by
  obtain ⟨h1, _, h3⟩ := hI.atRet hret
  have hlt : t < s.tasks.length := by omega
  refine ⟨s.tasks[t], List.getElem?_eq_getElem hlt, ?_⟩
  have hall : ∀ g ∈ s.tasks, g.pc.isDone = true := by
    have : s.tasks.countP (fun g => g.pc.isDone) = s.tasks.length := by
      simp only [doneCount] at h3; omega
    exact List.countP_eq_length.1 this
  exact hall _ (List.getElem_mem _)

theorem isDone_hasSucceeded {pc : Pc} (h : pc.isDone = true) : pc.hasSucceeded = true := by
  cases pc <;> simp_all [Pc.isDone, Pc.hasSucceeded]

theorem countP_hasSucceeded_of_returned {inp : Input} {s : State} (hI : Inv inp s)
    (hret : s.main = MainPc.returned) :
    (s.tasks.countP fun g => g.pc.hasSucceeded) = taskCount inp := by
  obtain ⟨h1, _, h3⟩ := hI.atRet hret
  rw [← h1]
  apply List.countP_eq_length.2
  have hall : ∀ g ∈ s.tasks, g.pc.isDone = true := by
    have : s.tasks.countP (fun g => g.pc.isDone) = s.tasks.length := by
      simp only [doneCount] at h3; omega
    exact List.countP_eq_length.1 this
  intro g hg
  exact isDone_hasSucceeded (hall g hg)

/-- The safety half of the completion property, on the invariants. -/
theorem successes_of_returned {inp : Input} {s : State} (hI : Inv inp s) (hH : Hist s)
    (hret : s.main = MainPc.returned) :
    (successes s.log).length = taskCount inp ∧
    (∀ i, i < taskCount inp →
      (successes s.log).countP (fun a => a.TaskNumber = (i : Int)) = 1) ∧
    (∀ a ∈ successes s.log, ∃ i, i < taskCount inp ∧ mkArgs inp i = some a) := by
  obtain ⟨h1, _, _⟩ := hI.atRet hret
  refine ⟨?_, ?_, ?_⟩
  · rw [hH.total, countP_hasSucceeded_of_returned hI hret]
  · intro i hi
    rw [successes_countP i s.log (fun t w a ok h => (call_taskNumber hI hH h).2.1), hH.succ i]
    obtain ⟨g, hg, hd⟩ := all_done_of_returned hI hret i hi
    rw [pcAt_of_getElem? hg]
    simp [indicator, isDone_hasSucceeded hd]
  · intro a ha
    obtain ⟨t, w, h⟩ := mem_successes.1 ha
    obtain ⟨hm, _, hlt⟩ := call_taskNumber hI hH h
    exact ⟨t, by omega, hm⟩

end mapreduce

namespace mapreduce

theorem run_cons_of_step {inp : Input} {s s1 s2 : State} {a : Action} {as : List Action}
    (h1 : Step inp s a s1) (h2 : run inp s1 as = some s2) : run inp s (a :: as) = some s2 := by
  simp only [run, step_complete h1]; exact h2

/-- The goroutines that stand before `wg.Done()` can all execute it. -/
theorem flush_dones {inp : Input} :
    ∀ (n : Nat) (s : State), Inv inp s → Hist s →
      (s.tasks.countP fun g => g.pc.beforeDone) = n →
      (∀ g ∈ s.tasks, g.pc.hasSucceeded = true) →
      ∃ as2 s2, run inp s as2 = some s2 ∧ (∀ a ∈ as2, ∃ t, a = Action.done t) ∧
        Inv inp s2 ∧ Hist s2 ∧ s2.main = s.main ∧ s2.tasks.length = s.tasks.length ∧
        (∀ g ∈ s2.tasks, g.pc.isDone = true) := by
  intro n
  induction n with
  | zero =>
    intro s hI hH hn hall
    refine ⟨[], s, rfl, by simp, hI, hH, rfl, rfl, ?_⟩
    intro g hg
    have h1 := hall g hg
    have h2 : g.pc.beforeDone = false := by
      by_contra hc
      have : 0 < s.tasks.countP fun g => g.pc.beforeDone :=
        List.countP_pos_iff.2 ⟨g, hg, by simpa using hc⟩
      omega
    cases hpc : g.pc <;> simp_all [Pc.isDone, Pc.hasSucceeded, Pc.beforeDone]
  | succ n ih =>
    intro s hI hH hn hall
    have hpos : 0 < s.tasks.countP fun g => g.pc.beforeDone := by omega
    obtain ⟨g, hg, hb⟩ := List.countP_pos_iff.1 hpos
    obtain ⟨t, ht⟩ := List.getElem?_of_mem hg
    obtain ⟨args, pc⟩ := g
    cases pc with
    | succeeded w =>
      have hpend := inv_pending hI ht (by simp [Pc.isDone])
      have hstep : Step inp s (Action.done t)
          { s with wg := s.wg - 1,
                   tasks := s.tasks.set t { args := args, pc := Pc.pushing w },
                   log := Event.done t :: s.log } :=
        Step.done t args w hI.noPanic ht (by omega)
      have hcount := countP_set_of_getElem? (fun g : Goroutine => g.pc.beforeDone) s.tasks t _
        { args := args, pc := Pc.pushing w } ht
      have e1 : (if Pc.beforeDone (Pc.succeeded w) = true then 1 else 0) = 1 := rfl
      have e2 : (if Pc.beforeDone (Pc.pushing w) = true then 1 else 0) = 0 := rfl
      simp only [e1, e2] at hcount
      obtain ⟨as2, s2, hrun, has, hI2, hH2, hm2, hl2, hd2⟩ :=
        ih _ (inv_step hI hstep) (hist_step hH hstep) (by simp only; omega) (by
          intro g hg
          rcases List.mem_or_eq_of_mem_set hg with h | h
          · exact hall g h
          · rw [h]; rfl)
      refine ⟨Action.done t :: as2, s2, run_cons_of_step hstep hrun, ?_, hI2, hH2, hm2, ?_, hd2⟩
      · intro a ha
        rcases List.mem_cons.1 ha with h | h
        · exact ⟨t, h⟩
        · exact has a h
      · simpa using hl2
    | awaiting => simp [Pc.beforeDone] at hb
    | invoking w => simp [Pc.beforeDone] at hb
    | pushing w => simp [Pc.beforeDone] at hb
    | finished => simp [Pc.beforeDone] at hb

theorem length_le_taskCount {inp : Input} {s : State} (hI : Inv inp s) :
    s.tasks.length ≤ taskCount inp := by
  cases hm : s.main with
  | loop i => obtain ⟨h1, h2, _⟩ := hI.atLoop i hm; omega
  | added i a => obtain ⟨h1, h2, _⟩ := hI.atAdded i a hm; omega
  | waiting => exact le_of_eq (hI.atWait hm).1
  | returned => exact le_of_eq (hI.atRet hm).1

theorem doneCount_eq_length {s : State} (h : ∀ g ∈ s.tasks, g.pc.isDone = true) :
    doneCount s = s.tasks.length :=
  List.countP_eq_length.2 h

/-- Once every goroutine has executed `wg.Done()` and all tasks were started,
`schedule` returns within two steps of its own. -/
theorem main_returns {inp : Input} {s : State} (hI : Inv inp s)
    (hlen : s.tasks.length = taskCount inp) (hd : ∀ g ∈ s.tasks, g.pc.isDone = true) :
    ∃ as2 s2, run inp s as2 = some s2 ∧ (∀ a ∈ as2, a = Action.main) ∧
      s2.main = MainPc.returned := by
  have hD := doneCount_eq_length hd
  cases hm : s.main with
  | returned => exact ⟨[], s, rfl, by simp, hm⟩
  | added i a => obtain ⟨h1, h2, _⟩ := hI.atAdded i a hm; omega
  | waiting =>
    obtain ⟨_, h2⟩ := hI.atWait hm
    have hwg : s.wg = 0 := by omega
    exact ⟨[Action.main], _, run_cons_of_step (Step.ret hI.noPanic hm hwg) rfl, by simp, rfl⟩
  | loop i =>
    obtain ⟨h1, _, h3⟩ := hI.atLoop i hm
    have hnlt : ¬ (i : Int) < ntasks inp := by
      rw [← lt_taskCount_iff]; omega
    have hwg : s.wg = 0 := by omega
    have hs1 : Step inp s Action.main { s with main := MainPc.waiting } :=
      Step.wait i hI.noPanic hm hnlt
    have hs2 : Step inp { s with main := MainPc.waiting } Action.main
        { s with main := MainPc.returned, log := Event.ret :: s.log } :=
      Step.ret hI.noPanic rfl hwg
    exact ⟨[Action.main, Action.main], _,
      run_cons_of_step hs1 (run_cons_of_step hs2 rfl), by simp, rfl⟩

/-- The liveness half of the completion property, on the invariants. -/
theorem returns_of_all_succeeded {inp : Input} {s : State} (hI : Inv inp s) (hH : Hist s)
    (hall : ∀ i, i < taskCount inp → ∃ a ∈ successes s.log, a.TaskNumber = (i : Int)) :
    ∃ as2 s2, run inp s as2 = some s2 ∧
      (∀ a ∈ as2, a = Action.main ∨ ∃ t, a = Action.done t) ∧
      s2.main = MainPc.returned := by
  have hsucc : ∀ i, i < taskCount inp →
      ∃ g, s.tasks[i]? = some g ∧ g.pc.hasSucceeded = true := by
    intro i hi
    obtain ⟨a, ha, hai⟩ := hall i hi
    have hpos : 0 < (successes s.log).countP (fun a => a.TaskNumber = (i : Int)) :=
      List.countP_pos_iff.2 ⟨a, ha, by simpa using hai⟩
    rw [successes_countP i s.log (fun t w a ok h => (call_taskNumber hI hH h).2.1),
      hH.succ i] at hpos
    unfold State.pcAt at hpos
    cases hg : s.tasks[i]? with
    | none => simp [hg, indicator] at hpos
    | some g =>
      refine ⟨g, rfl, ?_⟩
      by_contra hc
      simp [hg, indicator, hc] at hpos
  have hlen : s.tasks.length = taskCount inp := by
    have hle := length_le_taskCount hI
    by_contra hne
    have hlt : s.tasks.length < taskCount inp := by omega
    obtain ⟨g, hg, _⟩ := hsucc s.tasks.length hlt
    rw [List.getElem?_eq_none (le_refl _)] at hg
    simp at hg
  have hallS : ∀ g ∈ s.tasks, g.pc.hasSucceeded = true := by
    intro g hg
    obtain ⟨t, ht⟩ := List.getElem?_of_mem hg
    have hlt : t < s.tasks.length := by
      by_contra hge
      rw [List.getElem?_eq_none (by omega)] at ht
      simp at ht
    obtain ⟨g2, hg2, hs⟩ := hsucc t (by omega)
    rw [ht] at hg2
    simp only [Option.some.injEq] at hg2
    rw [hg2]; exact hs
  obtain ⟨as1, s1, hrun1, has1, hI1, _, _, hl1, hd1⟩ := flush_dones _ s hI hH rfl hallS
  obtain ⟨as2, s2, hrun2, has2, hret⟩ := main_returns hI1 (by omega) hd1
  refine ⟨as1 ++ as2, s2, ?_, ?_, hret⟩
  · rw [run_append, hrun1]; exact hrun2
  · intro a ha
    rcases List.mem_append.1 ha with h | h
    · exact Or.inr (has1 a h)
    · exact Or.inl (has2 a h)

end mapreduce

namespace mapreduce

theorem sampleRun_final : run sampleInput init sampleRun = some sampleFinal := by
  decide

/-- C1: in every execution of `schedule`, at the point where it has returned
exactly `N` successful invocations have been observed, one for each task
index in `[0, N)` (none twice, none missing), each with the descriptor built
for that index; and from every reachable state in which every task index has
had a successful invocation, `schedule` does return, by steps of its own
(the pending `wg.Done()` and the return of `wg.Wait()`), one of which is
enabled as long as it has not returned. `N` is `ntasks`, or 0 when `ntasks`
is negative. -/
theorem schedule_returns_iff_every_task_succeeded (inp : Input) (as : List Action) (s : State)
    (hrun : run inp init as = some s) :
    (s.main = MainPc.returned →
      (successes s.log).length = taskCount inp ∧
      (∀ i, i < taskCount inp →
        (successes s.log).countP (fun a => a.TaskNumber = (i : Int)) = 1) ∧
      (∀ a ∈ successes s.log, ∃ i, i < taskCount inp ∧ mkArgs inp i = some a)) ∧
    ((∀ i, i < taskCount inp → ∃ a ∈ successes s.log, a.TaskNumber = (i : Int)) →
      (∃ as2 s2, run inp s as2 = some s2 ∧
        (∀ a ∈ as2, a = Action.main ∨ ∃ t, a = Action.done t) ∧
        s2.main = MainPc.returned) ∧
      (s.main ≠ MainPc.returned →
        ∃ a s1, (a = Action.main ∨ ∃ t, a = Action.done t) ∧ step inp s a = some s1)) := by
  refine ⟨fun hret => successes_of_returned (inv_run hrun) (hist_run hrun) hret,
    fun hall => ?_⟩
  have hex := returns_of_all_succeeded (inv_run hrun) (hist_run hrun) hall
  refine ⟨hex, fun hne => ?_⟩
  obtain ⟨as2, s2, h1, h2, h3⟩ := hex
  cases as2 with
  | nil =>
    simp only [run, Option.some.injEq] at h1
    subst h1
    exact absurd h3 hne
  | cons a rest =>
    simp only [run] at h1
    cases hs : step inp s a with
    | none => simp [hs] at h1
    | some s1 => exact ⟨a, s1, h2 a (List.mem_cons_self _ _), hs⟩

/-- Witness of C1: the sample execution returns with two successes. -/
theorem schedule_returns_iff_every_task_succeeded_witness :
    run sampleInput init sampleRun = some sampleFinal ∧
      sampleFinal.main = MainPc.returned ∧ (successes sampleFinal.log).length = 2 :=
  ⟨sampleRun_final, rfl,
    ((schedule_returns_iff_every_task_succeeded sampleInput sampleRun sampleFinal
      sampleRun_final).1 rfl).1⟩

end mapreduce

namespace mapreduce

/-- From the head of the loop, the goroutine of `schedule` runs the loop to
its end and reaches `wg.Wait()`, by steps of its own. -/
theorem loop_runs_to_wait (inp : Input) :
    ∀ (n : Nat) (s : State) (i : Nat), Inv inp s → s.main = MainPc.loop i →
      taskCount inp - i = n →
      ∃ as0 s0, run inp s as0 = some s0 ∧ (∀ a ∈ as0, a = Action.main) ∧
        s0.main = MainPc.waiting := by
  intro n
  induction n with
  | zero =>
    intro s i hI hm hn
    have hnlt : ¬ (i : Int) < ntasks inp := by
      rw [← lt_taskCount_iff]; omega
    exact ⟨[Action.main], _, run_cons_of_step (Step.wait i hI.noPanic hm hnlt) rfl,
      by simp, rfl⟩
  | succ n ih =>
    intro s i hI hm hn
    have hlt : (i : Int) < ntasks inp := by
      rw [← lt_taskCount_iff]; omega
    have hs1 := Step.enter (s := s) i _ hI.noPanic hm hlt (mkArgs_of_lt inp i hlt)
    have hI1 := inv_step hI hs1
    have hs2 : Step inp _ Action.main _ := Step.go i _ hI1.noPanic (rfl : _ = MainPc.added i _)
    have hI2 := inv_step hI1 hs2
    obtain ⟨as0, s0, hrun, has, hw⟩ := ih _ (i + 1) hI2 rfl (by omega)
    refine ⟨Action.main :: Action.main :: as0, s0,
      run_cons_of_step hs1 (run_cons_of_step hs2 hrun), ?_, hw⟩
    intro a ha
    simp only [List.mem_cons] at ha
    rcases ha with h | h | h
    · exact h
    · exact h
    · exact has a h

theorem referenceBatch_getElem? (inp : Input) (i : Nat) :
    (referenceBatch inp.jobName inp.mapFiles inp.nReduce inp.phase)[i]?
      = if i < taskCount inp then mkArgs inp i else none := by
  by_cases hlt : i < taskCount inp
  · have hlt2 := (lt_taskCount_iff inp i).1 hlt
    rw [if_pos hlt, mkArgs_of_lt inp i hlt2]
    cases hp : inp.phase with
    | mapPhase =>
      have : i < inp.mapFiles.length := by
        simp only [ntasks, hp] at hlt2; exact_mod_cast hlt2
      simp only [referenceBatch, List.getElem?_map, List.getElem?_range this, Option.map_some',
        n_other, hp, if_true]
    | reducePhase =>
      have : i < inp.nReduce.toNat := by
        simp only [ntasks, hp] at hlt2; omega
      simp only [referenceBatch, List.getElem?_map, List.getElem?_range this, Option.map_some',
        n_other, hp]
      simp
    | other name =>
      simp only [ntasks, hp] at hlt2; omega
  · rw [if_neg hlt]
    apply List.getElem?_eq_none
    cases hp : inp.phase with
    | mapPhase =>
      simp only [taskCount, ntasks, hp] at hlt
      simp only [referenceBatch, List.length_map, List.length_range]; omega
    | reducePhase =>
      simp only [taskCount, ntasks, hp] at hlt
      simp only [referenceBatch, List.length_map, List.length_range]; omega
    | other name => simp [referenceBatch]

/-- Past the loop, the descriptors of the goroutines are the reference batch. -/
theorem tasks_eq_referenceBatch {inp : Input} {s : State} (hI : Inv inp s)
    (hlen : s.tasks.length = taskCount inp) :
    s.tasks.map Goroutine.args
      = referenceBatch inp.jobName inp.mapFiles inp.nReduce inp.phase := by
  apply List.ext_getElem?
  intro i
  rw [referenceBatch_getElem?, List.getElem?_map]
  by_cases hlt : i < taskCount inp
  · rw [if_pos hlt]
    have hl : i < s.tasks.length := by omega
    rw [List.getElem?_eq_getElem hl]
    simp only [Option.map_some']
    exact (hI.args i _ (List.getElem?_eq_getElem hl)).symm
  · rw [if_neg hlt, List.getElem?_eq_none (by omega)]
    rfl

/-- C2: once the loop of `schedule` is over, the descriptors built are the
reference batch: `len(mapFiles)` entries in the map phase and `nReduce`
entries in the reduce phase (for `nReduce >= 0`); entry `i` has
`TaskNumber = i`, the given phase and job name, `NumOtherPhase` the
complementary count, and `File = mapFiles[i]` in the map phase (the index is
in bounds: no execution panics) and the empty string in the reduce phase.
The loop does run to its end. -/
theorem schedule_builds_reference_batch (inp : Input) (hn : 0 ≤ inp.nReduce)
    (as : List Action) (s : State) (hrun : run inp init as = some s)
    (hm : s.main = MainPc.waiting ∨ s.main = MainPc.returned) :
    s.panicked = false ∧
    s.tasks.map Goroutine.args
      = referenceBatch inp.jobName inp.mapFiles inp.nReduce inp.phase ∧
    (inp.phase = jobPhase.mapPhase → s.tasks.length = inp.mapFiles.length) ∧
    (inp.phase = jobPhase.reducePhase → (s.tasks.length : Int) = inp.nReduce) ∧
    (∀ (i : Nat) (g : Goroutine), s.tasks[i]? = some g →
      g.args.TaskNumber = (i : Int) ∧ g.args.Phase = inp.phase ∧
      g.args.JobName = inp.jobName ∧
      (inp.phase = jobPhase.mapPhase →
        g.args.NumOtherPhase = inp.nReduce ∧ inp.mapFiles[i]? = some g.args.File) ∧
      (inp.phase = jobPhase.reducePhase →
        g.args.NumOtherPhase = (inp.mapFiles.length : Int) ∧ g.args.File = "")) ∧
    (∃ as0 s0, run inp init as0 = some s0 ∧ s0.main = MainPc.waiting) := by
  have hI := inv_run hrun
  have hlen : s.tasks.length = taskCount inp := by
    rcases hm with hm | hm
    · exact (hI.atWait hm).1
    · exact (hI.atRet hm).1
  refine ⟨hI.noPanic, tasks_eq_referenceBatch hI hlen, ?_, ?_, ?_, ?_⟩
  · intro hp
    rw [hlen]; simp [taskCount, ntasks, hp]
  · intro hp
    rw [hlen]; simp only [taskCount, ntasks, hp]; omega
  · intro i g hg
    have hlt : i < s.tasks.length := by
      by_contra hge
      rw [List.getElem?_eq_none (by omega)] at hg
      simp at hg
    have hlt2 : (i : Int) < ntasks inp := (lt_taskCount_iff inp i).1 (by omega)
    have ha := hI.args i g hg
    rw [mkArgs_of_lt inp i hlt2] at ha
    simp only [Option.some.injEq] at ha
    rw [← ha]
    refine ⟨rfl, rfl, rfl, ?_, ?_⟩
    · intro hp
      have hl : i < inp.mapFiles.length := by
        simp only [ntasks, hp] at hlt2; exact_mod_cast hlt2
      simp [n_other, hp, List.getElem?_eq_getElem hl, List.getD_eq_getElem?_getD]
    · intro hp
      simp [n_other, hp]
  · obtain ⟨as0, s0, h1, _, h3⟩ :=
      loop_runs_to_wait inp _ init 0 (inv_init inp) rfl rfl
    exact ⟨as0, s0, h1, h3⟩

/-- Witness of C2: the two descriptors of the sample execution. -/
theorem schedule_builds_reference_batch_witness :
    (0 : Int) ≤ sampleInput.nReduce ∧
      run sampleInput init sampleRun = some sampleFinal ∧
      sampleFinal.tasks.map Goroutine.args
        = [sampleArgs 0 "a.txt", sampleArgs 1 "b.txt"] :=
  ⟨by decide, sampleRun_final,
    (schedule_builds_reference_batch sampleInput (by decide) sampleRun sampleFinal
      sampleRun_final (Or.inr rfl)).2.1.trans (by decide)⟩

end mapreduce

namespace mapreduce

theorem sampleEarlyRun_final : run sampleInput init sampleEarlyRun = some sampleEarly := by
  decide

theorem indicator_le_one (p : Pc → Bool) (o : Option Pc) : indicator p o ≤ 1 := by
  cases o with
  | none => simp [indicator]
  | some pc => simp only [indicator]; split <;> omega

theorem indicator_isDone_le (o : Option Pc) :
    indicator Pc.isDone o ≤ indicator Pc.hasSucceeded o := by
  cases o with
  | none => simp [indicator]
  | some pc =>
    simp only [indicator]
    by_cases h : pc.isDone = true
    · simp [h, isDone_hasSucceeded h]
    · simp [h]

/-- C5, as stated, fails: the counter is not initialised to the number of
tasks, and it is zero in reachable states in which not every task was marked
done. On `sampleInput`, with two tasks, it is zero initially, and zero again
once task 0 has executed `wg.Done()` while task 1 was not even started. -/
theorem waitgroup_zero_before_all_done :
    taskCount sampleInput = 2 ∧ init.wg = 0 ∧
      run sampleInput init sampleEarlyRun = some sampleEarly ∧ sampleEarly.wg = 0 ∧
      sampleEarly.log.countP (Event.isDoneOf 1) = 0 := by
  decide

/-- C5, amended: the counter starts at zero and `schedule` adds one to it
right before it starts each task goroutine, so that it always is the number
of `wg.Add(1)` executed minus the number of goroutines that have executed
`wg.Done()`, and never negative; each goroutine executes `wg.Done()` at most
once, and only after its successful invocation; and in every reachable state
in which the loop of `schedule` is over, the counter is zero only when every
one of the tasks was marked done exactly once. -/
theorem waitgroup_counts_tasks_not_done (inp : Input) (as : List Action) (s : State)
    (hrun : run inp init as = some s) :
    init.wg = 0 ∧ 0 ≤ s.wg ∧
    (∀ i, s.main = MainPc.loop i → s.wg = (i : Int) - (doneCount s : Int)) ∧
    (∀ i args, s.main = MainPc.added i args → s.wg = (i : Int) + 1 - (doneCount s : Int)) ∧
    (s.main = MainPc.waiting ∨ s.main = MainPc.returned →
      s.wg = (taskCount inp : Int) - (doneCount s : Int)) ∧
    (∀ t, s.log.countP (Event.isDoneOf t) = indicator Pc.isDone (s.pcAt t)) ∧
    (∀ t, s.log.countP (Event.isDoneOf t) ≤ 1 ∧
      s.log.countP (Event.isDoneOf t) ≤ s.log.countP (Event.isSuccessOf t)) ∧
    (∀ l1 t l2, s.log = l1 ++ Event.done t :: l2 →
      (∃ w a, Event.call t w a true ∈ l2) ∧ l2.countP (Event.isDoneOf t) = 0) ∧
    (s.main = MainPc.waiting ∨ s.main = MainPc.returned → s.wg = 0 →
      ∀ t, t < taskCount inp → s.log.countP (Event.isDoneOf t) = 1) := by
  have hI := inv_run hrun
  have hH := hist_run hrun
  have hle : doneCount s ≤ s.tasks.length := List.countP_le_length _
  refine ⟨rfl, ?_, fun i h => (hI.atLoop i h).2.2, fun i a h => (hI.atAdded i a h).2.2.2,
    ?_, hH.dones, ?_, ?_, ?_⟩
  · cases hm : s.main with
    | loop i => obtain ⟨h1, _, h3⟩ := hI.atLoop i hm; omega
    | added i a => obtain ⟨h1, _, _, h3⟩ := hI.atAdded i a hm; omega
    | waiting => obtain ⟨h1, h3⟩ := hI.atWait hm; omega
    | returned => exact le_of_eq (hI.atRet hm).2.1.symm
  · rintro (hm | hm)
    · exact (hI.atWait hm).2
    · obtain ⟨_, h2, h3⟩ := hI.atRet hm; omega
  · intro t
    rw [hH.dones t, hH.succ t]
    exact ⟨indicator_le_one _ _, indicator_isDone_le _⟩
  · intro l1 t l2 h
    exact (eachAfter_iff Event.inOrder s.log).1 hH.order l1 (Event.done t) l2 h
  · intro hm hwg t ht
    have hlen : s.tasks.length = taskCount inp := by
      rcases hm with hm | hm
      · exact (hI.atWait hm).1
      · exact (hI.atRet hm).1
    have hD : doneCount s = s.tasks.length := by
      rcases hm with hm | hm
      · have := (hI.atWait hm).2; omega
      · have := (hI.atRet hm).2.2; omega
    have hall : ∀ g ∈ s.tasks, g.pc.isDone = true := List.countP_eq_length.1 hD
    have hlt : t < s.tasks.length := by omega
    rw [hH.dones t, pcAt_of_getElem? (List.getElem?_eq_getElem hlt)]
    simp [indicator, hall _ (List.getElem_mem hlt)]

/-- Witness of the amended C5: at the end of the sample execution the counter
is zero and both tasks were marked done once. -/
theorem waitgroup_counts_tasks_not_done_witness :
    run sampleInput init sampleRun = some sampleFinal ∧ sampleFinal.wg = 0 ∧
      sampleFinal.log.countP (Event.isDoneOf 1) = 1 :=
  ⟨sampleRun_final, rfl,
    (waitgroup_counts_tasks_not_done sampleInput sampleRun sampleFinal sampleRun_final).2.2.2.2.2.2.2.2
      (Or.inr rfl) rfl 1 (by decide)⟩

theorem calls_successes_of_all_ok :
    ∀ (log : List Event), (∀ c ∈ calls log, c.2.2.2 = true) →
      (calls log).map (fun c => c.2.2.1) = successes log := by
  intro log
  induction log with
  | nil => intro _; rfl
  | cons e log ih =>
    intro h
    cases e with
    | call t w a ok =>
      have hok : ok = true := h (t, w, a, ok) (by simp [calls])
      subst hok
      have ih2 := ih (fun c hc => h c (by simp [calls, hc]))
      simp [calls, successes, ih2]
    | register w => exact ih (fun c hc => h c (by simpa [calls] using hc))
    | pull t w => exact ih (fun c hc => h c (by simpa [calls] using hc))
    | done t => exact ih (fun c hc => h c (by simpa [calls] using hc))
    | push t w => exact ih (fun c hc => h c (by simpa [calls] using hc))
    | ret => exact ih (fun c hc => h c (by simpa [calls] using hc))

/-- C6: if every invocation returns `true`, then once `schedule` has returned
exactly `N` invocations were made in all, exactly one for each task index (no
retries), and each of them on a handle that its goroutine had received from
the worker stream before. -/
theorem all_succeed_one_call_per_task (inp : Input) (as : List Action) (s : State)
    (hrun : run inp init as = some s) (hret : s.main = MainPc.returned)
    (hok : ∀ c ∈ calls s.log, c.2.2.2 = true) :
    (calls s.log).length = taskCount inp ∧
    (∀ i, i < taskCount inp →
      (calls s.log).countP (fun c => c.2.2.1.TaskNumber = (i : Int)) = 1) ∧
    (∀ l1 t w a ok l2, s.log = l1 ++ Event.call t w a ok :: l2 → Event.pull t w ∈ l2) := by
  have hI := inv_run hrun
  have hH := hist_run hrun
  obtain ⟨h1, h2, _⟩ := successes_of_returned hI hH hret
  have hmap := calls_successes_of_all_ok s.log hok
  refine ⟨?_, ?_, ?_⟩
  · rw [← h1, ← hmap, List.length_map]
  · intro i hi
    have := h2 i hi
    rw [← hmap, List.countP_map] at this
    exact this
  · intro l1 t w a ok l2 h
    exact ((eachAfter_iff Event.inOrder s.log).1 hH.order l1 (Event.call t w a ok) l2 h).1

/-- Witness of C6: the sample execution makes two invocations. -/
theorem all_succeed_one_call_per_task_witness :
    run sampleInput init sampleRun = some sampleFinal ∧
      sampleFinal.main = MainPc.returned ∧ (calls sampleFinal.log).length = 2 :=
  ⟨sampleRun_final, rfl,
    (all_succeed_one_call_per_task sampleInput sampleRun sampleFinal sampleRun_final rfl
      (by decide)).1⟩

end mapreduce

namespace mapreduce

theorem count_cons_ite (w u : String) (l : List String) :
    (u :: l).count w = l.count w + (if u = w then 1 else 0) := by
  rw [List.count_cons]; simp

theorem count_append_single (w u : String) (l : List String) :
    (l ++ [u]).count w = l.count w + (if u = w then 1 else 0) := by
  rw [List.count_append, count_cons_ite]; simp

theorem count_erase_ite (w u : String) (l : List String) (h : u ∈ l) :
    (l.erase u).count w + (if u = w then 1 else 0) = l.count w := by
  by_cases huw : u = w
  · subst huw
    have := List.count_pos_iff.2 h
    rw [List.count_erase_self]; simp; omega
  · rw [List.count_erase_of_ne (fun e => huw e.symm)]; simp [huw]

theorem holds_set (w : String) {s : State} {t : Nat} {args : DoTaskArgs} {pc : Pc} (pc2 : Pc)
    (ht : s.tasks[t]? = some { args := args, pc := pc }) :
    ((s.tasks.set t { args := args, pc := pc2 }).countP fun g => g.pc.holds w)
        + (if pc.holds w = true then 1 else 0)
      = (s.tasks.countP fun g => g.pc.holds w) + (if pc2.holds w = true then 1 else 0) :=
  countP_set_of_getElem? (fun g : Goroutine => g.pc.holds w) s.tasks t _ _ ht

theorem holding_set {s : State} {t : Nat} {args : DoTaskArgs} {pc : Pc} (pc2 : Pc)
    (ht : s.tasks[t]? = some { args := args, pc := pc }) :
    ((s.tasks.set t { args := args, pc := pc2 }).countP fun g => g.pc.holding)
        + (if pc.holding = true then 1 else 0)
      = (s.tasks.countP fun g => g.pc.holding) + (if pc2.holding = true then 1 else 0) :=
  countP_set_of_getElem? (fun g : Goroutine => g.pc.holding) s.tasks t _ _ ht

theorem holds_awaiting (w : String) :
    (if Pc.holds w Pc.awaiting = true then 1 else 0) = 0 := rfl

theorem holds_finished (w : String) :
    (if Pc.holds w Pc.finished = true then 1 else 0) = 0 := rfl

theorem holds_invoking (w u : String) :
    (if Pc.holds w (Pc.invoking u) = true then 1 else 0) = if u = w then 1 else 0 := by
  simp [Pc.holds]

theorem holds_succeeded (w u : String) :
    (if Pc.holds w (Pc.succeeded u) = true then 1 else 0) = if u = w then 1 else 0 := by
  simp [Pc.holds]

theorem holds_pushing (w u : String) :
    (if Pc.holds w (Pc.pushing u) = true then 1 else 0) = if u = w then 1 else 0 := by
  simp [Pc.holds]

theorem holding_awaiting : (if Pc.holding Pc.awaiting = true then 1 else 0) = 0 := rfl

theorem holding_finished : (if Pc.holding Pc.finished = true then 1 else 0) = 0 := rfl

theorem holding_invoking (u : String) :
    (if Pc.holding (Pc.invoking u) = true then 1 else 0) = 1 := rfl

theorem holding_succeeded (u : String) :
    (if Pc.holding (Pc.succeeded u) = true then 1 else 0) = 1 := rfl

theorem holding_pushing (u : String) :
    (if Pc.holding (Pc.pushing u) = true then 1 else 0) = 1 := rfl

theorem tokens_init : Tokens init := by
  refine ⟨?_, ?_, ?_⟩ <;> simp [init, occurrences, tokens, registered, EachAfter]

theorem count_pos_of_mem {w : String} {l : List String} (h : w ∈ l) : 0 < l.count w :=
  List.count_pos_iff.2 h

theorem holds_pos_of_getElem? (w : String) {s : State} {t : Nat} {g : Goroutine}
    (ht : s.tasks[t]? = some g) (hg : g.pc.holds w = true) :
    0 < s.tasks.countP fun g => g.pc.holds w :=
  List.countP_pos_iff.2 ⟨g, List.getElem?_mem ht, hg⟩

end mapreduce

namespace mapreduce

theorem tokens_step {inp : Input} {s s1 : State} {a : Action} (hT : Tokens s)
    (h : Step inp s a s1) : Tokens s1 := by
  have heach := hT.each
  have htotal := hT.total
  simp only [occurrences] at heach
  simp only [tokens] at htotal
  cases h with
  | enter i args hp hm hlt hargs => exact ⟨hT.each, hT.total, hT.live⟩
  | indexPanic i hp hm hlt hargs => exact ⟨hT.each, hT.total, hT.live⟩
  | wait i hp hm hlt => exact ⟨hT.each, hT.total, hT.live⟩
  | donePanic t args w hp ht hwg => exact ⟨hT.each, hT.total, hT.live⟩
  | ret hp hm hwg =>
    refine ⟨fun w => ?_, ?_, ⟨trivial, hT.live⟩⟩
    · simpa [occurrences, registered, Event.isFailureOn, registered] using hT.each w
    · simpa [tokens, registered, Event.isFailure, registered] using hT.total
  | go i args hp hm =>
    refine ⟨fun w => ?_, ?_, hT.live⟩
    · have h0 : List.countP (fun g : Goroutine => g.pc.holds w)
          [{ args := args, pc := Pc.awaiting }] = 0 := rfl
      simp only [occurrences, List.countP_append, h0]
      exact heach w
    · have h0 : List.countP (fun g : Goroutine => g.pc.holding)
          [{ args := args, pc := Pc.awaiting }] = 0 := rfl
      simp only [tokens, List.countP_append, h0]
      exact htotal
  | register u hp =>
    refine ⟨fun w => ?_, ?_, ⟨trivial, hT.live⟩⟩
    · have := heach w
      simp only [occurrences, registered, count_cons_ite, List.countP_cons, Event.isFailureOn, registered]
      simp only [Bool.false_eq_true, if_false]
      omega
    · simp only [tokens, registered, List.length_cons, List.countP_cons, Event.isFailure, registered]
      simp only [Bool.false_eq_true, if_false]
      omega
  | extSend u hp hu hc =>
    refine ⟨fun w => ?_, ?_, hT.live⟩
    · have := heach w
      have he := count_erase_ite w u s.offers hu
      simp only [occurrences, count_append_single]
      omega
    · have hl := List.length_erase_of_mem hu
      have hpos := List.length_pos_of_mem hu
      simp only [tokens, List.length_append, List.length_singleton, hl]
      omega
  | extHand u t args hp ht hu hc =>
    have hh := fun w => holds_set w (Pc.invoking u) ht
    have hg := holding_set (Pc.invoking u) ht
    simp only [holds_awaiting, holds_invoking] at hh
    simp only [holding_awaiting, holding_invoking] at hg
    refine ⟨fun w => ?_, ?_, ⟨?_, hT.live⟩⟩
    · have := heach w
      have he := count_erase_ite w u s.offers hu
      have := hh w
      simp only [occurrences, List.countP_cons, Event.isFailureOn, registered]
      simp only [Bool.false_eq_true, if_false]
      omega
    · have hl := List.length_erase_of_mem hu
      have hpos := List.length_pos_of_mem hu
      simp only [tokens, hl, List.countP_cons, Event.isFailure, registered]
      simp only [Bool.false_eq_true, if_false]
      omega
    · have := heach u
      have := count_pos_of_mem hu
      show s.log.countP (Event.isFailureOn u) < (registered s.log).count u
      omega
  | recv t args u rest hp ht hc =>
    have hh := fun w => holds_set w (Pc.invoking u) ht
    have hg := holding_set (Pc.invoking u) ht
    simp only [holds_awaiting, holds_invoking] at hh
    simp only [holding_awaiting, holding_invoking] at hg
    rw [hc] at heach htotal
    simp only [count_cons_ite, List.length_cons] at heach htotal
    refine ⟨fun w => ?_, ?_, ⟨?_, hT.live⟩⟩
    · have := heach w
      have := hh w
      simp only [occurrences, List.countP_cons, Event.isFailureOn, registered]
      simp only [Bool.false_eq_true, if_false]
      omega
    · simp only [tokens, List.countP_cons, Event.isFailure, registered]
      simp only [Bool.false_eq_true, if_false]
      omega
    · have := heach u
      show s.log.countP (Event.isFailureOn u) < (registered s.log).count u
      simp only [if_true] at this
      omega
  | callRet t ok args u hp ht =>
    cases ok with
    | true =>
      have hh := fun w => holds_set w (Pc.succeeded u) ht
      have hg := holding_set (Pc.succeeded u) ht
      simp only [holds_succeeded, holds_invoking] at hh
      simp only [holding_succeeded, holding_invoking] at hg
      refine ⟨fun w => ?_, ?_, ⟨trivial, hT.live⟩⟩
      · have := heach w
        have := hh w
        simp only [occurrences, List.countP_cons, Event.isFailureOn, if_true, registered]
        simp only [Bool.false_eq_true, if_false]
        omega
      · simp only [tokens, List.countP_cons, Event.isFailure, if_true, registered]
        simp only [Bool.false_eq_true, if_false]
        omega
    | false =>
      have hh := fun w => holds_set w Pc.awaiting ht
      have hg := holding_set Pc.awaiting ht
      simp only [holds_awaiting, holds_invoking] at hh
      simp only [holding_awaiting, holding_invoking] at hg
      refine ⟨fun w => ?_, ?_, ⟨trivial, hT.live⟩⟩
      · have := heach w
        have := hh w
        simp only [occurrences, List.countP_cons, Event.isFailureOn, Bool.false_eq_true,
          if_false, registered, beq_iff_eq]
        omega
      · simp only [tokens, List.countP_cons, Event.isFailure, Bool.false_eq_true, if_false,
          if_true, registered]
        omega
  | done t args u hp ht hwg =>
    have hh := fun w => holds_set w (Pc.pushing u) ht
    have hg := holding_set (Pc.pushing u) ht
    simp only [holds_succeeded, holds_pushing] at hh
    simp only [holding_succeeded, holding_pushing] at hg
    refine ⟨fun w => ?_, ?_, ⟨trivial, hT.live⟩⟩
    · have := heach w
      have := hh w
      simp only [occurrences, List.countP_cons, Event.isFailureOn, registered]
      simp only [Bool.false_eq_true, if_false]
      omega
    · simp only [tokens, List.countP_cons, Event.isFailure, registered]
      simp only [Bool.false_eq_true, if_false]
      omega
  | send t args u hp ht hc =>
    have hh := fun w => holds_set w Pc.finished ht
    have hg := holding_set Pc.finished ht
    simp only [holds_finished, holds_pushing] at hh
    simp only [holding_finished, holding_pushing] at hg
    refine ⟨fun w => ?_, ?_, ⟨trivial, hT.live⟩⟩
    · have := heach w
      have := hh w
      simp only [occurrences, List.countP_cons, Event.isFailureOn, count_append_single, registered]
      simp only [Bool.false_eq_true, if_false]
      omega
    · simp only [tokens, List.countP_cons, Event.isFailure, List.length_append,
        List.length_singleton, registered]
      simp only [Bool.false_eq_true, if_false]
      omega
  | hand t u args args2 w0 hp ht hu hc =>
    have hne : t ≠ u := by
      intro e; subst e; rw [ht] at hu; simp at hu
    have hu2 : (s.tasks.set t { args := args, pc := Pc.finished })[u]?
        = some { args := args2, pc := Pc.awaiting } := by
      rw [List.getElem?_set_ne hne]; exact hu
    have hh := fun w => holds_set w Pc.finished ht
    have hg := holding_set Pc.finished ht
    have hh2 := fun w => holds_set
      (s := { s with tasks := s.tasks.set t { args := args, pc := Pc.finished } })
      w (Pc.invoking w0) hu2
    have hg2 := holding_set
      (s := { s with tasks := s.tasks.set t { args := args, pc := Pc.finished } })
      (Pc.invoking w0) hu2
    simp only [holds_finished, holds_pushing] at hh
    simp only [holding_finished, holding_pushing] at hg
    simp only [holds_awaiting, holds_invoking] at hh2
    simp only [holding_awaiting, holding_invoking] at hg2
    refine ⟨fun w => ?_, ?_, ⟨?_, trivial, hT.live⟩⟩
    · have := heach w
      have := hh w
      have := hh2 w
      simp only [occurrences, List.countP_cons, Event.isFailureOn, registered]
      simp only [Bool.false_eq_true, if_false]
      omega
    · simp only [tokens, List.countP_cons, Event.isFailure, registered]
      simp only [Bool.false_eq_true, if_false]
      omega
    · have := heach w0
      have hpos := holds_pos_of_getElem? w0 ht (by simp [Pc.holds])
      show (Event.push t w0 :: s.log).countP (Event.isFailureOn w0)
        < (registered (Event.push t w0 :: s.log)).count w0
      simp only [List.countP_cons, Event.isFailureOn, registered]
      simp only [Bool.false_eq_true, if_false]
      omega

/-- The conservation of handles holds in every state an execution reaches. -/
theorem tokens_run {inp : Input} {as : List Action} {s : State}
    (h : run inp init as = some s) : Tokens s :=
  run_induction Tokens (fun _ _ _ hT hs => tokens_step hT hs) as init s tokens_init h

end mapreduce

namespace mapreduce

theorem getElem?_set_same {α : Type} {l : List α} {t : Nat} {g g2 : α} (h : l[t]? = some g) :
    (l.set t g2)[t]? = some g2 := by
  have hlt : t < l.length := by
    by_contra hge
    rw [List.getElem?_eq_none (by omega)] at h
    simp at h
  rw [List.getElem?_set]; simp [hlt]

theorem getElem?_append_of_some {α : Type} {l : List α} {t : Nat} {g x : α}
    (h : l[t]? = some g) : (l ++ [x])[t]? = some g := by
  have hlt : t < l.length := by
    by_contra hge
    rw [List.getElem?_eq_none (by omega)] at h
    simp at h
  rw [List.getElem?_append_left hlt]; exact h

/-- A goroutine that is over takes part in no step. -/
theorem finished_stays {inp : Input} {s s2 : State} {a : Action} {t : Nat} {args : DoTaskArgs}
    (h : Step inp s a s2) (ht : s.tasks[t]? = some { args := args, pc := Pc.finished }) :
    s2.tasks[t]? = some { args := args, pc := Pc.finished } := by
  have hne : ∀ (u : Nat) (a2 : DoTaskArgs) (pc : Pc), pc ≠ Pc.finished →
      s.tasks[u]? = some { args := a2, pc := pc } → u ≠ t := by
    intro u a2 pc hpc hu e
    subst e
    rw [ht] at hu
    simp only [Option.some.injEq, Goroutine.mk.injEq] at hu
    exact hpc hu.2.symm
  cases h with
  | enter i args hp hm hlt hargs => exact ht
  | indexPanic i hp hm hlt hargs => exact ht
  | wait i hp hm hlt => exact ht
  | donePanic u a2 w hp hu hwg => exact ht
  | ret hp hm hwg => exact ht
  | go i a2 hp hm => exact getElem?_append_of_some ht
  | register u hp => exact ht
  | extSend u hp hu hc => exact ht
  | extHand w u a2 hp hu hw hc =>
    show (s.tasks.set u _)[t]? = _
    rw [List.getElem?_set_ne (hne u a2 _ (by simp) hu)]; exact ht
  | recv u a2 w rest hp hu hc =>
    show (s.tasks.set u _)[t]? = _
    rw [List.getElem?_set_ne (hne u a2 _ (by simp) hu)]; exact ht
  | callRet u ok a2 w hp hu =>
    show (s.tasks.set u _)[t]? = _
    rw [List.getElem?_set_ne (hne u a2 _ (by simp) hu)]; exact ht
  | done u a2 w hp hu hwg =>
    show (s.tasks.set u _)[t]? = _
    rw [List.getElem?_set_ne (hne u a2 _ (by simp) hu)]; exact ht
  | send u a2 w hp hu hc =>
    show (s.tasks.set u _)[t]? = _
    rw [List.getElem?_set_ne (hne u a2 _ (by simp) hu)]; exact ht
  | hand u v a2 a3 w hp hu hv hc =>
    show ((s.tasks.set u _).set v _)[t]? = _
    rw [List.getElem?_set_ne (hne v a3 _ (by simp) hv),
      List.getElem?_set_ne (hne u a2 _ (by simp) hu)]
    exact ht

/-- The steps of a goroutine whose invocation has returned `true` and that
has not executed `wg.Done()` yet: it takes part in `wg.Done()` only, which
takes one off the counter and leads to the send. -/
theorem succeeded_next {inp : Input} {s s2 : State} {a : Action} {t : Nat} {args : DoTaskArgs}
    {w : String}
    (h : Step inp s a s2) (ht : s.tasks[t]? = some { args := args, pc := Pc.succeeded w }) :
    s2.tasks[t]? = some { args := args, pc := Pc.succeeded w } ∨
    (a = Action.done t ∧ s2.tasks[t]? = some { args := args, pc := Pc.pushing w } ∧
      s2.wg = s.wg - 1 ∧ s2.chan = s.chan ∧ s2.offers = s.offers ∧ s2.panicked = false) := by
  have hne : ∀ (u : Nat) (a2 : DoTaskArgs) (pc : Pc), (∀ x, pc ≠ Pc.succeeded x) →
      s.tasks[u]? = some { args := a2, pc := pc } → u ≠ t := by
    intro u a2 pc hpc hu e
    subst e
    rw [ht] at hu
    simp only [Option.some.injEq, Goroutine.mk.injEq] at hu
    exact hpc w hu.2.symm
  cases h with
  | enter i args hp hm hlt hargs => exact Or.inl ht
  | indexPanic i hp hm hlt hargs => exact Or.inl ht
  | wait i hp hm hlt => exact Or.inl ht
  | donePanic u a2 w hp hu hwg => exact Or.inl ht
  | ret hp hm hwg => exact Or.inl ht
  | go i a2 hp hm => exact Or.inl (getElem?_append_of_some ht)
  | register u hp => exact Or.inl ht
  | extSend u hp hu hc => exact Or.inl ht
  | extHand w u a2 hp hu hw hc =>
    left
    show (s.tasks.set u _)[t]? = _
    rw [List.getElem?_set_ne (hne u a2 _ (by simp) hu)]; exact ht
  | recv u a2 w rest hp hu hc =>
    left
    show (s.tasks.set u _)[t]? = _
    rw [List.getElem?_set_ne (hne u a2 _ (by simp) hu)]; exact ht
  | callRet u ok a2 w hp hu =>
    left
    show (s.tasks.set u _)[t]? = _
    rw [List.getElem?_set_ne (hne u a2 _ (by simp) hu)]; exact ht
  | done u a2 w2 hp hu hwg =>
    by_cases hut : u = t
    · subst hut
      rw [ht] at hu
      simp only [Option.some.injEq, Goroutine.mk.injEq, Pc.succeeded.injEq] at hu
      obtain ⟨ha, hw⟩ := hu
      subst ha hw
      right
      exact ⟨rfl, getElem?_set_same ht, rfl, rfl, rfl, hp⟩
    · left
      show (s.tasks.set u _)[t]? = _
      rw [List.getElem?_set_ne hut]; exact ht
  | send u a2 w hp hu hc =>
    left
    show (s.tasks.set u _)[t]? = _
    rw [List.getElem?_set_ne (hne u a2 _ (by simp) hu)]; exact ht
  | hand u v a2 a3 w hp hu hv hc =>
    left
    show ((s.tasks.set u _).set v _)[t]? = _
    rw [List.getElem?_set_ne (hne v a3 _ (by simp) hv),
      List.getElem?_set_ne (hne u a2 _ (by simp) hu)]
    exact ht


/-- The steps of a goroutine that stands at its send: it takes part in the
completion of the send only, which puts its handle at the end of the buffer
or hands it to the receive of another goroutine, and then it is over. -/
theorem pushing_next {inp : Input} {s s2 : State} {a : Action} {t : Nat} {args : DoTaskArgs}
    {w : String}
    (h : Step inp s a s2) (ht : s.tasks[t]? = some { args := args, pc := Pc.pushing w }) :
    s2.tasks[t]? = some { args := args, pc := Pc.pushing w } ∨
    (s2.tasks[t]? = some { args := args, pc := Pc.finished } ∧ s2.wg = s.wg ∧
      s2.offers = s.offers ∧
      ((a = Action.send t ∧ s2.chan = s.chan ++ [w]) ∨
        ∃ u args2, a = Action.hand t u ∧ u ≠ t ∧
          s.tasks[u]? = some { args := args2, pc := Pc.awaiting } ∧
          s2.tasks[u]? = some { args := args2, pc := Pc.invoking w } ∧ s2.chan = s.chan)) := by
  have hne : ∀ (u : Nat) (a2 : DoTaskArgs) (pc : Pc), (∀ x, pc ≠ Pc.pushing x) →
      s.tasks[u]? = some { args := a2, pc := pc } → u ≠ t := by
    intro u a2 pc hpc hu e
    subst e
    rw [ht] at hu
    simp only [Option.some.injEq, Goroutine.mk.injEq] at hu
    exact hpc w hu.2.symm
  cases h with
  | enter i args hp hm hlt hargs => exact Or.inl ht
  | indexPanic i hp hm hlt hargs => exact Or.inl ht
  | wait i hp hm hlt => exact Or.inl ht
  | donePanic u a2 w hp hu hwg => exact Or.inl ht
  | ret hp hm hwg => exact Or.inl ht
  | go i a2 hp hm => exact Or.inl (getElem?_append_of_some ht)
  | register u hp => exact Or.inl ht
  | extSend u hp hu hc => exact Or.inl ht
  | extHand w u a2 hp hu hw hc =>
    left
    show (s.tasks.set u _)[t]? = _
    rw [List.getElem?_set_ne (hne u a2 _ (by simp) hu)]; exact ht
  | recv u a2 w rest hp hu hc =>
    left
    show (s.tasks.set u _)[t]? = _
    rw [List.getElem?_set_ne (hne u a2 _ (by simp) hu)]; exact ht
  | callRet u ok a2 w hp hu =>
    left
    show (s.tasks.set u _)[t]? = _
    rw [List.getElem?_set_ne (hne u a2 _ (by simp) hu)]; exact ht
  | done u a2 w2 hp hu hwg =>
    left
    show (s.tasks.set u _)[t]? = _
    rw [List.getElem?_set_ne (hne u a2 _ (by simp) hu)]; exact ht
  | send u a2 w2 hp hu hc =>
    by_cases hut : u = t
    · subst hut
      rw [ht] at hu
      simp only [Option.some.injEq, Goroutine.mk.injEq, Pc.pushing.injEq] at hu
      obtain ⟨ha, hw⟩ := hu
      subst ha hw
      right
      exact ⟨getElem?_set_same ht, rfl, rfl, Or.inl ⟨rfl, rfl⟩⟩
    · left
      show (s.tasks.set u _)[t]? = _
      rw [List.getElem?_set_ne hut]; exact ht
  | hand u v a2 a3 w2 hp hu hv hc =>
    have hvt : v ≠ t := hne v a3 _ (by simp) hv
    by_cases hut : u = t
    · subst hut
      rw [ht] at hu
      simp only [Option.some.injEq, Goroutine.mk.injEq, Pc.pushing.injEq] at hu
      obtain ⟨ha, hw⟩ := hu
      subst ha hw
      right
      have huv : u ≠ v := fun e => hvt e.symm
      have hv2 : (s.tasks.set u { args := args, pc := Pc.finished })[v]?
          = some { args := a3, pc := Pc.awaiting } := by
        rw [List.getElem?_set_ne huv]; exact hv
      refine ⟨?_, rfl, rfl, Or.inr ⟨v, a3, rfl, hvt, hv, getElem?_set_same hv2, rfl⟩⟩
      show ((s.tasks.set u _).set v _)[u]? = _
      rw [List.getElem?_set_ne hvt]
      exact getElem?_set_same ht
    · left
      show ((s.tasks.set u _).set v _)[t]? = _
      rw [List.getElem?_set_ne hvt, List.getElem?_set_ne hut]
      exact ht

/-- The steps of a goroutine whose invocation is in flight: it takes part in
the return of the invocation only. -/
theorem invoking_next {inp : Input} {s s2 : State} {a : Action} {t : Nat} {args : DoTaskArgs}
    {w : String}
    (h : Step inp s a s2) (ht : s.tasks[t]? = some { args := args, pc := Pc.invoking w }) :
    s2.tasks[t]? = some { args := args, pc := Pc.invoking w } ∨
    ∃ ok, a = Action.callRet t ok ∧
      s2 = { s with tasks := s.tasks.set t
                      { args := args, pc := if ok then Pc.succeeded w else Pc.awaiting },
                    log := Event.call t w args ok :: s.log } := by
  have hne : ∀ (u : Nat) (a2 : DoTaskArgs) (pc : Pc), (∀ x, pc ≠ Pc.invoking x) →
      s.tasks[u]? = some { args := a2, pc := pc } → u ≠ t := by
    intro u a2 pc hpc hu e
    subst e
    rw [ht] at hu
    simp only [Option.some.injEq, Goroutine.mk.injEq] at hu
    exact hpc w hu.2.symm
  cases h with
  | enter i args hp hm hlt hargs => exact Or.inl ht
  | indexPanic i hp hm hlt hargs => exact Or.inl ht
  | wait i hp hm hlt => exact Or.inl ht
  | donePanic u a2 w hp hu hwg => exact Or.inl ht
  | ret hp hm hwg => exact Or.inl ht
  | go i a2 hp hm => exact Or.inl (getElem?_append_of_some ht)
  | register u hp => exact Or.inl ht
  | extSend u hp hu hc => exact Or.inl ht
  | extHand w u a2 hp hu hw hc =>
    left
    show (s.tasks.set u _)[t]? = _
    rw [List.getElem?_set_ne (hne u a2 _ (by simp) hu)]; exact ht
  | recv u a2 w rest hp hu hc =>
    left
    show (s.tasks.set u _)[t]? = _
    rw [List.getElem?_set_ne (hne u a2 _ (by simp) hu)]; exact ht
  | callRet u ok a2 w2 hp hu =>
    by_cases hut : u = t
    · subst hut
      rw [ht] at hu
      simp only [Option.some.injEq, Goroutine.mk.injEq, Pc.invoking.injEq] at hu
      obtain ⟨ha, hw⟩ := hu
      subst ha hw
      exact Or.inr ⟨ok, rfl, rfl⟩
    · left
      show (s.tasks.set u _)[t]? = _
      rw [List.getElem?_set_ne hut]; exact ht
  | done u a2 w2 hp hu hwg =>
    left
    show (s.tasks.set u _)[t]? = _
    rw [List.getElem?_set_ne (hne u a2 _ (by simp) hu)]; exact ht
  | send u a2 w2 hp hu hc =>
    left
    show (s.tasks.set u _)[t]? = _
    rw [List.getElem?_set_ne (hne u a2 _ (by simp) hu)]; exact ht
  | hand u v a2 a3 w2 hp hu hv hc =>
    left
    show ((s.tasks.set u _).set v _)[t]? = _
    rw [List.getElem?_set_ne (hne v a3 _ (by simp) hv),
      List.getElem?_set_ne (hne u a2 _ (by simp) hu)]
    exact ht

/-- The steps of a goroutine that stands at its receive: it takes part in a
receive only, of a handle from the buffer, from a sender outside or from the
send of another goroutine, and then invokes its own task on that handle. -/
theorem awaiting_next {inp : Input} {s s2 : State} {a : Action} {t : Nat} {args : DoTaskArgs}
    (h : Step inp s a s2) (ht : s.tasks[t]? = some { args := args, pc := Pc.awaiting }) :
    s2.tasks[t]? = some { args := args, pc := Pc.awaiting } ∨
    ∃ w, s2.tasks[t]? = some { args := args, pc := Pc.invoking w } ∧ s2.wg = s.wg ∧
      (a = Action.recv t ∨ a = Action.extHand w t ∨ ∃ u, a = Action.hand u t) := by
  have hne : ∀ (u : Nat) (a2 : DoTaskArgs) (pc : Pc), pc ≠ Pc.awaiting →
      s.tasks[u]? = some { args := a2, pc := pc } → u ≠ t := by
    intro u a2 pc hpc hu e
    subst e
    rw [ht] at hu
    simp only [Option.some.injEq, Goroutine.mk.injEq] at hu
    exact hpc hu.2.symm
  have hargs : ∀ (a2 : DoTaskArgs) (pc : Pc),
      s.tasks[t]? = some { args := a2, pc := pc } → a2 = args := by
    intro a2 pc hu
    rw [ht] at hu
    simp only [Option.some.injEq, Goroutine.mk.injEq] at hu
    exact hu.1.symm
  cases h with
  | enter i args hp hm hlt hargs => exact Or.inl ht
  | indexPanic i hp hm hlt hargs => exact Or.inl ht
  | wait i hp hm hlt => exact Or.inl ht
  | donePanic u a2 w hp hu hwg => exact Or.inl ht
  | ret hp hm hwg => exact Or.inl ht
  | go i a2 hp hm => exact Or.inl (getElem?_append_of_some ht)
  | register u hp => exact Or.inl ht
  | extSend u hp hu hc => exact Or.inl ht
  | extHand w u a2 hp hu hw hc =>
    by_cases hut : u = t
    · subst hut
      have := hargs a2 _ hu
      subst this
      exact Or.inr ⟨w, getElem?_set_same hu, rfl, Or.inr (Or.inl rfl)⟩
    · left
      show (s.tasks.set u _)[t]? = _
      rw [List.getElem?_set_ne hut]; exact ht
  | recv u a2 w rest hp hu hc =>
    by_cases hut : u = t
    · subst hut
      have := hargs a2 _ hu
      subst this
      exact Or.inr ⟨w, getElem?_set_same hu, rfl, Or.inl rfl⟩
    · left
      show (s.tasks.set u _)[t]? = _
      rw [List.getElem?_set_ne hut]; exact ht
  | callRet u ok a2 w2 hp hu =>
    left
    show (s.tasks.set u _)[t]? = _
    rw [List.getElem?_set_ne (hne u a2 _ (by simp) hu)]; exact ht
  | done u a2 w2 hp hu hwg =>
    left
    show (s.tasks.set u _)[t]? = _
    rw [List.getElem?_set_ne (hne u a2 _ (by simp) hu)]; exact ht
  | send u a2 w2 hp hu hc =>
    left
    show (s.tasks.set u _)[t]? = _
    rw [List.getElem?_set_ne (hne u a2 _ (by simp) hu)]; exact ht
  | hand u v a2 a3 w2 hp hu hv hc =>
    have hut : u ≠ t := hne u a2 _ (by simp) hu
    by_cases hvt : v = t
    · subst hvt
      have := hargs a3 _ hv
      subst this
      have hv2 : (s.tasks.set u { args := a2, pc := Pc.finished })[v]?
          = some { args := a3, pc := Pc.awaiting } := by
        rw [List.getElem?_set_ne hut]; exact hv
      exact Or.inr ⟨w2, getElem?_set_same hv2, rfl, Or.inr (Or.inr ⟨u, rfl⟩)⟩
    · left
      show ((s.tasks.set u _).set v _)[t]? = _
      rw [List.getElem?_set_ne hvt, List.getElem?_set_ne hut]
      exact ht

end mapreduce

namespace mapreduce

theorem countP_split (p : Event → Bool) (l1 l2 : List Event) (e : Event) :
    (l1 ++ e :: l2).countP p = l1.countP p + (if p e = true then 1 else 0) + l2.countP p := by
  rw [List.countP_append, List.countP_cons]; omega

theorem countP_pos_of_mem {p : Event → Bool} {l : List Event} {e : Event} (he : e ∈ l)
    (hp : p e = true) : 0 < l.countP p :=
  List.countP_pos_iff.2 ⟨e, he, hp⟩

/-- What the history of a reachable state holds after and before a
successful invocation by goroutine `t`. -/
theorem after_success {s : State} (hH : Hist s) {t : Nat} {l1 l2 : List Event}
    {w : String} {a : DoTaskArgs} (hlog : s.log = l1 ++ Event.call t w a true :: l2) :
    (∀ e ∈ l1, e.isPullOf t = false ∧ e.isCallOf t = false) ∧
    l1.countP (Event.isDoneOf t) ≤ 1 ∧ l1.countP (Event.isPushOf t) ≤ 1 ∧
    (∀ w3, Event.push t w3 ∈ l1 → w3 = w) ∧
    l2.countP (Event.isDoneOf t) = 0 ∧ l2.countP (Event.isPushOf t) = 0 ∧
    l2.countP (Event.isSuccessOf t) = 0 := by
  have hord := (eachAfter_iff Event.inOrder s.log).1 hH.order
  have hsucc : s.log.countP (Event.isSuccessOf t) ≤ 1 := by
    rw [hH.succ t]; exact indicator_le_one _ _
  have hdone : s.log.countP (Event.isDoneOf t) ≤ 1 := by
    rw [hH.dones t]; exact indicator_le_one _ _
  have hpush : s.log.countP (Event.isPushOf t) ≤ 1 := by
    rw [hH.pushes t]; exact indicator_le_one _ _
  have hself : Event.isSuccessOf t (Event.call t w a true) = true := by
    simp [Event.isSuccessOf]
  rw [hlog, countP_split, hself] at hsucc
  rw [hlog, countP_split] at hdone hpush
  simp only [if_true] at hsucc
  have hl1 : l1.countP (Event.isSuccessOf t) = 0 := by omega
  have hl2 : l2.countP (Event.isSuccessOf t) = 0 := by omega
  -- an event of `l1`, with what came before it
  have hsplit : ∀ e ∈ l1, ∃ la lb, s.log = la ++ e :: (lb ++ Event.call t w a true :: l2) ∧
      0 < (lb ++ Event.call t w a true :: l2).countP (Event.isSuccessOf t) := by
    intro e he
    obtain ⟨la, lb, hab⟩ := List.append_of_mem he
    refine ⟨la, lb, by rw [hlog, hab]; simp, ?_⟩
    rw [countP_split, hself]; simp
  -- an event of `l2`, with what came before it
  have hsplit2 : ∀ e ∈ l2, ∃ la lb, s.log = la ++ e :: lb ∧
      lb.countP (Event.isSuccessOf t) = 0 := by
    intro e he
    obtain ⟨la, lb, hab⟩ := List.append_of_mem he
    refine ⟨l1 ++ Event.call t w a true :: la, lb, by rw [hlog, hab]; simp, ?_⟩
    rw [hab, countP_split] at hl2; omega
  refine ⟨?_, by omega, by omega, ?_, ?_, ?_, hl2⟩
  · intro e he
    obtain ⟨la, lb, h1, h2⟩ := hsplit e he
    have ho := hord la e _ h1
    cases e with
    | pull u w2 =>
      refine ⟨?_, rfl⟩
      by_cases hut : u = t
      · subst hut
        simp only [Event.inOrder] at ho
        omega
      · simp [Event.isPullOf, hut]
    | call u w2 a2 ok =>
      refine ⟨rfl, ?_⟩
      by_cases hut : u = t
      · subst hut
        simp only [Event.inOrder] at ho
        omega
      · simp [Event.isCallOf, hut]
    | register w2 => exact ⟨rfl, rfl⟩
    | done u => exact ⟨rfl, rfl⟩
    | push u w2 => exact ⟨rfl, rfl⟩
    | ret => exact ⟨rfl, rfl⟩
  · intro w3 he
    obtain ⟨la, lb, h1, _⟩ := hsplit _ he
    obtain ⟨⟨a3, hmem⟩, _, _⟩ := hord la _ _ h1
    rcases List.mem_append.1 hmem with hm | hm
    · have hlb : 0 < lb.countP (Event.isSuccessOf t) :=
        countP_pos_of_mem hm (by simp [Event.isSuccessOf])
      obtain ⟨lc, ld, hcd⟩ := List.append_of_mem he
      have : 0 < l1.countP (Event.isSuccessOf t) := by
        have hl1eq : l1 = la ++ Event.push t w3 :: lb := by
          have := h1
          rw [hlog] at this
          have hlen : l1.length = (la ++ Event.push t w3 :: lb).length := by
            have h3 := congrArg List.length this
            simp only [List.length_append, List.length_cons] at h3 ⊢
            omega
          have h4 : l1 ++ Event.call t w a true :: l2
              = (la ++ Event.push t w3 :: lb) ++ Event.call t w a true :: l2 := by
            rw [this]; simp
          exact List.append_inj_left h4 hlen
        rw [hl1eq, countP_split]; omega
      omega
    · rcases List.mem_cons.1 hm with hm | hm
      · simp only [Event.call.injEq] at hm
        exact hm.2.1
      · have : 0 < l2.countP (Event.isSuccessOf t) :=
          countP_pos_of_mem hm (by simp [Event.isSuccessOf])
        omega
  · by_contra hne
    have hpos : 0 < l2.countP (Event.isDoneOf t) := Nat.pos_of_ne_zero hne
    obtain ⟨e, he, hp⟩ := List.countP_pos_iff.1 hpos
    have hed := isDoneOf_eq hp
    subst hed
    obtain ⟨la, lb, h1, h3⟩ := hsplit2 _ he
    obtain ⟨⟨w3, a3, hmem⟩, _⟩ := hord la _ _ h1
    have : 0 < lb.countP (Event.isSuccessOf t) :=
      countP_pos_of_mem hmem (by simp [Event.isSuccessOf])
    omega
  · by_contra hne
    have hpos : 0 < l2.countP (Event.isPushOf t) := Nat.pos_of_ne_zero hne
    obtain ⟨e, he, hp⟩ := List.countP_pos_iff.1 hpos
    obtain ⟨la, lb, h1, h3⟩ := hsplit2 _ he
    cases e with
    | push u w3 =>
      have hut : u = t := by simpa [Event.isPushOf] using hp
      subst hut
      obtain ⟨⟨a3, hmem⟩, _, _⟩ := hord la _ _ h1
      have : 0 < lb.countP (Event.isSuccessOf u) :=
        countP_pos_of_mem hmem (by simp [Event.isSuccessOf])
      omega
    | pull u w3 => simp [Event.isPushOf] at hp
    | call u w3 a3 ok => simp [Event.isPushOf] at hp
    | register w3 => simp [Event.isPushOf] at hp
    | done u => simp [Event.isPushOf] at hp
    | ret => simp [Event.isPushOf] at hp

end mapreduce

namespace mapreduce

/-- On an unbuffered channel, once `schedule` has returned, a goroutine
that stands at its send stays there: no goroutine receives any more. -/
theorem pushing_blocked_step {inp : Input} {s s2 : State} {a : Action} {t : Nat}
    {args : DoTaskArgs} {w : String} (hI : Inv inp s) (hcap : inp.cap = 0)
    (hret : s.main = MainPc.returned)
    (ht : s.tasks[t]? = some { args := args, pc := Pc.pushing w }) (h : Step inp s a s2) :
    s2.main = MainPc.returned ∧ s2.tasks[t]? = some { args := args, pc := Pc.pushing w } := by
  cases h with
  | enter i a2 hp hm hlt hargs => rw [hm] at hret; simp at hret
  | indexPanic i hp hm hlt hargs => rw [hm] at hret; simp at hret
  | wait i hp hm hlt => rw [hm] at hret; simp at hret
  | go i a2 hp hm => rw [hm] at hret; simp at hret
  | ret hp hm hwg => rw [hm] at hret; simp at hret
  | register u hp => exact ⟨hret, ht⟩
  | extSend u hp hu hc => exact ⟨hret, ht⟩
  | extHand u v a2 hp hv hu hc =>
    exact absurd hret (inv_pending hI hv (by simp [Pc.isDone])).2
  | recv v a2 u rest hp hv hc =>
    exact absurd hret (inv_pending hI hv (by simp [Pc.isDone])).2
  | callRet v ok a2 u hp hv =>
    exact absurd hret (inv_pending hI hv (by simp [Pc.isDone])).2
  | done v a2 u hp hv hwg =>
    exact absurd hret (inv_pending hI hv (by simp [Pc.isDone])).2
  | donePanic v a2 u hp hv hwg =>
    exact absurd hret (inv_pending hI hv (by simp [Pc.isDone])).2
  | send v a2 u hp hv hc => omega
  | hand v u a2 a3 w2 hp hv hu hc =>
    exact absurd hret (inv_pending hI hu (by simp [Pc.isDone])).2

theorem pushing_blocked_run {inp : Input} {s s2 : State} {as2 : List Action} {t : Nat}
    {args : DoTaskArgs} {w : String} (hI : Inv inp s) (hH : Hist s) (hcap : inp.cap = 0)
    (hret : s.main = MainPc.returned)
    (ht : s.tasks[t]? = some { args := args, pc := Pc.pushing w })
    (hrun : run inp s as2 = some s2) :
    s2.tasks[t]? = some { args := args, pc := Pc.pushing w } ∧
      s2.log.countP (Event.isPushOf t) = 0 := by
  have h := run_induction
    (fun x => Inv inp x ∧ Hist x ∧ x.main = MainPc.returned ∧
      x.tasks[t]? = some { args := args, pc := Pc.pushing w })
    (fun x a y hx hs =>
      ⟨inv_step hx.1 hs, hist_step hx.2.1 hs,
        (pushing_blocked_step hx.1 hcap hx.2.2.1 hx.2.2.2 hs).1,
        (pushing_blocked_step hx.1 hcap hx.2.2.1 hx.2.2.2 hs).2⟩)
    as2 s s2 ⟨hI, hH, hret, ht⟩ hrun
  refine ⟨h.2.2.2, ?_⟩
  rw [h.2.1.pushes t, pcAt_of_getElem? h.2.2.2]
  rfl

/-- C3, as stated, fails: the send comes after `wg.Done()` and blocks. On the
unbuffered channel of `sampleInput` the sample execution returns while
goroutine 1, whose invocation on `w` returned `true`, stands at its send; in
every continuation it still stands there and its send has not completed: the
handle is not pushed back and the loop does not terminate. -/
theorem last_send_never_completes :
    run sampleInput init sampleRun = some sampleFinal ∧ sampleInput.cap = 0 ∧
      sampleFinal.main = MainPc.returned ∧
      Event.call 1 "w" (sampleArgs 1 "b.txt") true ∈ sampleFinal.log ∧
      sampleFinal.tasks[1]? = some { args := sampleArgs 1 "b.txt", pc := Pc.pushing "w" } ∧
      ∀ as2 s2, run sampleInput sampleFinal as2 = some s2 →
        s2.tasks[1]? = some { args := sampleArgs 1 "b.txt", pc := Pc.pushing "w" } ∧
        s2.log.countP (Event.isPushOf 1) = 0 :=
  ⟨sampleRun_final, rfl, rfl, by decide, rfl, fun _ _ h =>
    pushing_blocked_run (inv_run sampleRun_final) (hist_run sampleRun_final) rfl rfl rfl h⟩

/-- C3, amended: in every reachable state, for every task goroutine `t`
holding a handle `w` it received from the stream: (1) when its invocation
returns `true` it goes on to `wg.Done()`; (2) there `wg.Done()` is enabled,
takes exactly one off the counter, and is the only step the goroutine takes
part in; (3) then it stands at the send of that same `w`, which completes
when, and only when, the buffer has room, which puts `w` at the end of the
buffer, or a goroutine stands at its receive with the buffer empty, which
hands `w` to that other goroutine; until then the goroutine stays at its
send, and on an unbuffered channel it stays there for ever once `schedule`
has returned; a handle at the head of the buffer is what the next receive
obtains; (4) once the send has completed the goroutine is over and takes part
in no step; (5) in the history, after a successful invocation by `t` there is
no receive and no invocation by `t`, at most one `wg.Done()` and one send by
`t`, that send is of the handle of the successful invocation, and before it
there is none of them. -/
theorem success_done_push_finish (inp : Input) (as : List Action) (s : State)
    (hrun : run inp init as = some s) (t : Nat) (args : DoTaskArgs) (w : String) :
    (s.tasks[t]? = some { args := args, pc := Pc.invoking w } →
      step inp s (Action.callRet t true) = some
        { s with tasks := s.tasks.set t { args := args, pc := Pc.succeeded w },
                 log := Event.call t w args true :: s.log }) ∧
    (s.tasks[t]? = some { args := args, pc := Pc.succeeded w } →
      step inp s (Action.done t) = some
        { s with wg := s.wg - 1,
                 tasks := s.tasks.set t { args := args, pc := Pc.pushing w },
                 log := Event.done t :: s.log } ∧
      ∀ a s2, step inp s a = some s2 →
        s2.tasks[t]? = some { args := args, pc := Pc.succeeded w } ∨
        (a = Action.done t ∧ s2.tasks[t]? = some { args := args, pc := Pc.pushing w } ∧
          s2.wg = s.wg - 1 ∧ s2.chan = s.chan ∧ s2.offers = s.offers ∧
          s2.panicked = false)) ∧
    (s.tasks[t]? = some { args := args, pc := Pc.pushing w } →
      (s.chan.length < inp.cap →
        step inp s (Action.send t) = some
          { s with chan := s.chan ++ [w],
                   tasks := s.tasks.set t { args := args, pc := Pc.finished },
                   log := Event.push t w :: s.log }) ∧
      (∀ u args2, s.chan = [] → s.tasks[u]? = some { args := args2, pc := Pc.awaiting } →
        step inp s (Action.hand t u) = some
          { s with tasks := (s.tasks.set t { args := args, pc := Pc.finished }).set u
                     { args := args2, pc := Pc.invoking w },
                   log := Event.pull u w :: Event.push t w :: s.log }) ∧
      (∀ a s2, step inp s a = some s2 →
        s2.tasks[t]? = some { args := args, pc := Pc.pushing w } ∨
        (s2.tasks[t]? = some { args := args, pc := Pc.finished } ∧ s2.wg = s.wg ∧
          s2.offers = s.offers ∧
          ((a = Action.send t ∧ s2.chan = s.chan ++ [w]) ∨
            ∃ u args2, a = Action.hand t u ∧ u ≠ t ∧
              s.tasks[u]? = some { args := args2, pc := Pc.awaiting } ∧
              s2.tasks[u]? = some { args := args2, pc := Pc.invoking w } ∧
              s2.chan = s.chan))) ∧
      (step inp s (Action.send t) ≠ none ↔ s.chan.length < inp.cap) ∧
      (∀ u, step inp s (Action.hand t u) ≠ none ↔
        s.chan = [] ∧ ∃ args2, s.tasks[u]? = some { args := args2, pc := Pc.awaiting }) ∧
      (inp.cap = 0 → s.main = MainPc.returned → ∀ as2 s2, run inp s as2 = some s2 →
        s2.tasks[t]? = some { args := args, pc := Pc.pushing w } ∧
        s2.log.countP (Event.isPushOf t) = 0)) ∧
    (∀ u args2 rest, s.chan = w :: rest →
      s.tasks[u]? = some { args := args2, pc := Pc.awaiting } →
      step inp s (Action.recv u) = some
        { s with chan := rest,
                 tasks := s.tasks.set u { args := args2, pc := Pc.invoking w },
                 log := Event.pull u w :: s.log }) ∧
    (s.tasks[t]? = some { args := args, pc := Pc.finished } →
      ∀ a s2, step inp s a = some s2 →
        s2.tasks[t]? = some { args := args, pc := Pc.finished }) ∧
    (∀ l1 l2, s.log = l1 ++ Event.call t w args true :: l2 →
      (∀ e ∈ l1, e.isPullOf t = false ∧ e.isCallOf t = false) ∧
      l1.countP (Event.isDoneOf t) ≤ 1 ∧ l1.countP (Event.isPushOf t) ≤ 1 ∧
      (∀ w3, Event.push t w3 ∈ l1 → w3 = w) ∧
      l2.countP (Event.isDoneOf t) = 0 ∧ l2.countP (Event.isPushOf t) = 0 ∧
      l2.countP (Event.isSuccessOf t) = 0) := by
  have hI := inv_run hrun
  have hH := hist_run hrun
  refine ⟨?_, ?_, ?_, ?_, ?_, ?_⟩
  · intro ht
    exact step_complete (Step.callRet t true args w hI.noPanic ht)
  · intro ht
    have hpend := inv_pending hI ht (by simp [Pc.isDone])
    exact ⟨step_complete (Step.done t args w hI.noPanic ht (by omega)),
      fun a s2 h => succeeded_next (step_sound h) ht⟩
  · intro ht
    refine ⟨fun hc => step_complete (Step.send t args w hI.noPanic ht hc),
      fun u args2 hc hu => step_complete (Step.hand t u args args2 w hI.noPanic ht hu hc),
      fun a s2 h => pushing_next (step_sound h) ht, ?_, ?_,
      fun hcap hret as2 s2 h => pushing_blocked_run hI hH hcap hret ht h⟩
    · constructor
      · intro hne
        cases hs : step inp s (Action.send t) with
        | none => exact absurd hs hne
        | some s2 =>
          have hst := step_sound hs
          cases hst with
          | send _ a2 w2 hp hu hc => exact hc
      · intro hc
        rw [step_complete (Step.send t args w hI.noPanic ht hc)]
        simp
    · intro u
      constructor
      · intro hne
        cases hs : step inp s (Action.hand t u) with
        | none => exact absurd hs hne
        | some s2 =>
          have hst := step_sound hs
          cases hst with
          | hand _ _ a2 a3 w2 hp hv hu hc => exact ⟨hc, a3, hu⟩
      · rintro ⟨hc, args2, hu⟩
        rw [step_complete (Step.hand t u args args2 w hI.noPanic ht hu hc)]
        simp
  · intro u args2 rest hc hu
    exact step_complete (Step.recv u args2 w rest hI.noPanic hu hc)
  · intro ht a s2 h
    exact finished_stays (step_sound h) ht
  · intro l1 l2 hlog
    exact after_success hH hlog

/-- Witness of the amended C3, on the history of the sample execution: after
the successful invocation by goroutine 0 on `w` it executes `wg.Done()` once
and the handle it sends is `w`. -/
theorem success_done_push_finish_witness :
    run sampleInput init sampleRun = some sampleFinal ∧
      List.countP (Event.isDoneOf 0)
        [Event.ret, Event.done 1, Event.call 1 "w" (sampleArgs 1 "b.txt") true,
          Event.pull 1 "w", Event.push 0 "w", Event.done 0] ≤ 1 ∧
      ∀ w3, Event.push 0 w3 ∈
        [Event.ret, Event.done 1, Event.call 1 "w" (sampleArgs 1 "b.txt") true,
          Event.pull 1 "w", Event.push 0 "w", Event.done 0] → w3 = "w" :=
  ⟨sampleRun_final,
    ((success_done_push_finish sampleInput sampleRun sampleFinal sampleRun_final 0
      (sampleArgs 0 "a.txt") "w").2.2.2.2.2
      [Event.ret, Event.done 1, Event.call 1 "w" (sampleArgs 1 "b.txt") true,
        Event.pull 1 "w", Event.push 0 "w", Event.done 0]
      [Event.pull 0 "w", Event.register "w"] rfl).2.1,
    ((success_done_push_finish sampleInput sampleRun sampleFinal sampleRun_final 0
      (sampleArgs 0 "a.txt") "w").2.2.2.2.2
      [Event.ret, Event.done 1, Event.call 1 "w" (sampleArgs 1 "b.txt") true,
        Event.pull 1 "w", Event.push 0 "w", Event.done 0]
      [Event.pull 0 "w", Event.register "w"] rfl).2.2.2.1⟩

end mapreduce

namespace mapreduce

theorem sampleRetryRun_final : run sampleInput init sampleRetryRun = some sampleRetried := by
  decide

theorem registered_append (l1 l2 : List Event) :
    registered (l1 ++ l2) = registered l1 ++ registered l2 := by
  induction l1 with
  | nil => rfl
  | cons e l1 ih => cases e <;> simp [registered, ih]

/-- When no handle is registered twice, a handle on which an invocation
failed is not received again. -/
theorem no_pull_after_failure {s : State} (hT : Tokens s) (hnd : (registered s.log).Nodup)
    {l1 l2 : List Event} {t : Nat} {w : String} {a : DoTaskArgs}
    (hlog : s.log = l1 ++ Event.call t w a false :: l2) (u : Nat) :
    Event.pull u w ∉ l1 := by
  intro hmem
  obtain ⟨la, lb, hab⟩ := List.append_of_mem hmem
  have hlog2 : s.log = la ++ Event.pull u w :: (lb ++ Event.call t w a false :: l2) := by
    rw [hlog, hab]; simp
  have hlive := (eachAfter_iff Event.pullLive s.log).1 hT.live la _ _ hlog2
  simp only [Event.pullLive] at hlive
  have hfail : 0 < (lb ++ Event.call t w a false :: l2).countP (Event.isFailureOn w) := by
    rw [countP_split]
    have : Event.isFailureOn w (Event.call t w a false) = true := by simp [Event.isFailureOn]
    rw [this]; simp
  have hcount : (registered s.log).count w ≤ 1 := List.nodup_iff_count_le_one.1 hnd w
  have hreg : (registered s.log).count w
      = (registered la).count w + (registered (lb ++ Event.call t w a false :: l2)).count w := by
    rw [hlog2, registered_append, List.count_append]
    rfl
  omega

/-- Task 0 can fail any number of times and still go back to its receive. -/
theorem retry_many (inp : Input) (args : DoTaskArgs) :
    ∀ (k : Nat) (s : State), s.panicked = false →
      s.tasks[0]? = some { args := args, pc := Pc.awaiting } → s.chan = [] →
      ∃ as2 s2, run inp s as2 = some s2 ∧ s2.panicked = false ∧
        s2.tasks[0]? = some { args := args, pc := Pc.awaiting } ∧ s2.chan = [] ∧
        s2.main = s.main ∧
        s2.log.countP (Event.isFailureOf 0) = s.log.countP (Event.isFailureOf 0) + k := by
  intro k
  induction k with
  | zero => intro s hp ht hc; exact ⟨[], s, rfl, hp, ht, hc, rfl, rfl⟩
  | succ k ih =>
    intro s hp ht hc
    have h1 : Step inp s (Action.register (toString k))
        { s with offers := toString k :: s.offers,
                 log := Event.register (toString k) :: s.log } :=
      Step.register _ hp
    have h2 : Step inp
        { s with offers := toString k :: s.offers,
                 log := Event.register (toString k) :: s.log }
        (Action.extHand (toString k) 0)
        { s with offers := (toString k :: s.offers).erase (toString k),
                 tasks := s.tasks.set 0 { args := args, pc := Pc.invoking (toString k) },
                 log := Event.pull 0 (toString k) :: Event.register (toString k) :: s.log } :=
      Step.extHand (toString k) 0 args hp ht (List.mem_cons_self _ _) hc
    have ht2 : (s.tasks.set 0 { args := args, pc := Pc.invoking (toString k) })[0]?
        = some { args := args, pc := Pc.invoking (toString k) } := getElem?_set_same ht
    have h3 : Step inp
        { s with offers := (toString k :: s.offers).erase (toString k),
                 tasks := s.tasks.set 0 { args := args, pc := Pc.invoking (toString k) },
                 log := Event.pull 0 (toString k) :: Event.register (toString k) :: s.log }
        (Action.callRet 0 false)
        { s with offers := (toString k :: s.offers).erase (toString k),
                 tasks := (s.tasks.set 0 { args := args, pc := Pc.invoking (toString k) }).set 0
                   { args := args, pc := Pc.awaiting },
                 log := Event.call 0 (toString k) args false :: Event.pull 0 (toString k) ::
                   Event.register (toString k) :: s.log } :=
      Step.callRet 0 false args (toString k) hp ht2
    have ht3 : ((s.tasks.set 0 { args := args, pc := Pc.invoking (toString k) }).set 0
        { args := args, pc := Pc.awaiting })[0]? = some { args := args, pc := Pc.awaiting } :=
      getElem?_set_same ht2
    obtain ⟨as2, s2, hrun, hp2, ht4, hc2, hm2, hcount⟩ := ih
      { s with offers := (toString k :: s.offers).erase (toString k),
               tasks := (s.tasks.set 0 { args := args, pc := Pc.invoking (toString k) }).set 0
                 { args := args, pc := Pc.awaiting },
               log := Event.call 0 (toString k) args false :: Event.pull 0 (toString k) ::
                 Event.register (toString k) :: s.log }
      hp ht3 hc
    refine ⟨_ :: _ :: _ :: as2, s2,
      run_cons_of_step h1 (run_cons_of_step h2 (run_cons_of_step h3 hrun)), hp2, ht4, hc2,
      hm2, ?_⟩
    rw [hcount]
    simp only [List.countP_cons, Event.isFailureOf, beq_self_eq_true, if_true,
      Bool.false_eq_true, if_false]
    omega

end mapreduce

namespace mapreduce

/-- From the start, task 0 can be made to fail `k` times, for every `k`. -/
theorem retry_unbounded (inp : Input) (h0 : 0 < taskCount inp) (k : Nat) :
    ∃ as2 s2, run inp init as2 = some s2 ∧
      s2.log.countP (Event.isFailureOf 0) = k ∧ s2.pcAt 0 = some Pc.awaiting ∧
      s2.main ≠ MainPc.returned := by
  have hlt : ((0 : Nat) : Int) < ntasks inp := (lt_taskCount_iff inp 0).1 h0
  obtain ⟨args0, hargs0⟩ : ∃ a, mkArgs inp 0 = some a := ⟨_, mkArgs_of_lt inp 0 hlt⟩
  have h1 : Step inp init Action.main
      { init with main := MainPc.added 0 args0, wg := init.wg + 1 } :=
    Step.enter 0 args0 rfl rfl hlt hargs0
  have h2 : Step inp { init with main := MainPc.added 0 args0, wg := init.wg + 1 } Action.main
      { init with main := MainPc.loop (0 + 1), wg := init.wg + 1,
                  tasks := init.tasks ++ [{ args := args0, pc := Pc.awaiting }] } :=
    Step.go 0 args0 rfl rfl
  obtain ⟨as2, s2, hrun, _, ht, _, hm, hcount⟩ := retry_many inp args0 k
    { init with main := MainPc.loop (0 + 1), wg := init.wg + 1,
                tasks := init.tasks ++ [{ args := args0, pc := Pc.awaiting }] }
    rfl rfl rfl
  refine ⟨_ :: _ :: as2, s2, run_cons_of_step h1 (run_cons_of_step h2 hrun), ?_,
    pcAt_of_getElem? ht, ?_⟩
  · rw [hcount]; simp [init]
  · rw [hm]; simp

/-- C4: in every reachable state, for every task goroutine `t` whose
invocation on a handle `w` is in flight: (1) the invocation can return
`false`, whatever came before, and this leaves the counter, the buffer of the
channel and the offers as they are, puts `w` nowhere (there is one handle and
one `w` less in the system), and takes the goroutine, with the same
descriptor, back to its receive; (2) from there the goroutine receives the
next handle available, from the buffer or from a sender, and takes part in
no other step; (3) there is no retry limit: task 0 can fail any number of
times and go back to its receive; (4) when no handle is registered twice, a
handle on which an invocation failed is never received again in that
execution. -/
theorem failure_drops_handle_task_retries (inp : Input) (as : List Action) (s : State)
    (hrun : run inp init as = some s) (t : Nat) (args : DoTaskArgs) (w : String) :
    (s.tasks[t]? = some { args := args, pc := Pc.invoking w } →
      step inp s (Action.callRet t false) = some
        { s with tasks := s.tasks.set t { args := args, pc := Pc.awaiting },
                 log := Event.call t w args false :: s.log } ∧
      occurrences w
        { s with tasks := s.tasks.set t { args := args, pc := Pc.awaiting },
                 log := Event.call t w args false :: s.log } + 1 = occurrences w s ∧
      tokens
        { s with tasks := s.tasks.set t { args := args, pc := Pc.awaiting },
                 log := Event.call t w args false :: s.log } + 1 = tokens s ∧
      ∀ a s2, step inp s a = some s2 →
        s2.tasks[t]? = some { args := args, pc := Pc.invoking w } ∨
        ∃ ok, a = Action.callRet t ok ∧
          s2 = { s with tasks := s.tasks.set t
                          { args := args, pc := if ok then Pc.succeeded w else Pc.awaiting },
                        log := Event.call t w args ok :: s.log }) ∧
    (s.tasks[t]? = some { args := args, pc := Pc.awaiting } →
      (∀ w2 rest, s.chan = w2 :: rest →
        step inp s (Action.recv t) = some
          { s with chan := rest,
                   tasks := s.tasks.set t { args := args, pc := Pc.invoking w2 },
                   log := Event.pull t w2 :: s.log }) ∧
      (∀ w2, w2 ∈ s.offers → s.chan = [] →
        step inp s (Action.extHand w2 t) = some
          { s with offers := s.offers.erase w2,
                   tasks := s.tasks.set t { args := args, pc := Pc.invoking w2 },
                   log := Event.pull t w2 :: s.log }) ∧
      ∀ a s2, step inp s a = some s2 →
        s2.tasks[t]? = some { args := args, pc := Pc.awaiting } ∨
        ∃ w2, s2.tasks[t]? = some { args := args, pc := Pc.invoking w2 } ∧ s2.wg = s.wg ∧
          (a = Action.recv t ∨ a = Action.extHand w2 t ∨ ∃ u, a = Action.hand u t)) ∧
    (0 < taskCount inp → ∀ k, ∃ as2 s2, run inp init as2 = some s2 ∧
      s2.log.countP (Event.isFailureOf 0) = k ∧ s2.pcAt 0 = some Pc.awaiting ∧
      s2.main ≠ MainPc.returned) ∧
    ((registered s.log).Nodup →
      ∀ l1 l2 t2 a, s.log = l1 ++ Event.call t2 w a false :: l2 →
        ∀ u, Event.pull u w ∉ l1) := by
  have hI := inv_run hrun
  have hT := tokens_run hrun
  refine ⟨?_, ?_, fun h0 k => retry_unbounded inp h0 k, ?_⟩
  · intro ht
    refine ⟨step_complete (Step.callRet t false args w hI.noPanic ht), ?_, ?_,
      fun a s2 h => invoking_next (step_sound h) ht⟩
    · have hh := holds_set w Pc.awaiting ht
      simp only [holds_awaiting, holds_invoking, if_true] at hh
      simp only [occurrences]
      omega
    · have hg := holding_set Pc.awaiting ht
      simp only [holding_awaiting, holding_invoking] at hg
      simp only [tokens]
      omega
  · intro ht
    exact ⟨fun w2 rest hc => step_complete (Step.recv t args w2 rest hI.noPanic ht hc),
      fun w2 hw hc => step_complete (Step.extHand w2 t args hI.noPanic ht hw hc),
      fun a s2 h => awaiting_next (step_sound h) ht⟩
  · intro hnd l1 l2 t2 a hlog u
    exact no_pull_after_failure hT hnd hlog u

/-- Witness of C4: in the sample execution with a failure, the handle `w1`
of the failed invocation is not received afterwards. -/
theorem failure_drops_handle_task_retries_witness :
    run sampleInput init sampleRetryRun = some sampleRetried ∧
      (registered sampleRetried.log).Nodup ∧
      ∀ u, Event.pull u "w1" ∉
        [Event.call 0 "w2" (sampleArgs 0 "a.txt") true, Event.pull 0 "w2",
          Event.register "w2"] :=
  ⟨sampleRetryRun_final, by decide,
    (failure_drops_handle_task_retries sampleInput sampleRetryRun sampleRetried
      sampleRetryRun_final 0 (sampleArgs 0 "a.txt") "w1").2.2.2 (by decide)
      [Event.call 0 "w2" (sampleArgs 0 "a.txt") true, Event.pull 0 "w2", Event.register "w2"]
      [Event.pull 0 "w1", Event.register "w1"] 0 (sampleArgs 0 "a.txt") rfl⟩

end mapreduce

namespace mapreduce

theorem sum_map_set_of_getElem? {α : Type} (f : α → Nat) :
    ∀ (l : List α) (i : Nat) (g a : α), l[i]? = some g →
      ((l.set i a).map f).sum + f g = (l.map f).sum + f a := by
  intro l
  induction l with
  | nil => intro i g a h; simp at h
  | cons x l ih =>
    intro i g a h
    cases i with
    | zero =>
      simp only [List.getElem?_cons_zero, Option.some.injEq] at h
      subst h
      simp only [List.set_cons_zero, List.map_cons, List.sum_cons]
      omega
    | succ i =>
      simp only [List.getElem?_cons_succ] at h
      have := ih i g a h
      simp only [List.set_cons_succ, List.map_cons, List.sum_cons]
      omega

theorem weight_set {s : State} {t : Nat} {args : DoTaskArgs} {pc : Pc} (pc2 : Pc)
    (ht : s.tasks[t]? = some { args := args, pc := pc }) :
    ((s.tasks.set t { args := args, pc := pc2 }).map fun g => g.pc.weight).sum + pc.weight
      = (s.tasks.map fun g => g.pc.weight).sum + pc2.weight :=
  sum_map_set_of_getElem? (fun g : Goroutine => g.pc.weight) s.tasks t _ _ ht

theorem weight_awaiting : Pc.weight Pc.awaiting = 4 := rfl

theorem weight_invoking (w : String) : Pc.weight (Pc.invoking w) = 3 := rfl

theorem weight_succeeded (w : String) : Pc.weight (Pc.succeeded w) = 2 := rfl

theorem weight_pushing (w : String) : Pc.weight (Pc.pushing w) = 1 := rfl

theorem weight_finished : Pc.weight Pc.finished = 0 := rfl

/-- A step other than a registration and a failed invocation takes at least
one off the bound, and adds no registration and no failure to the history. -/
theorem steady_step {inp : Input} {s s2 : State} {a : Action} (hI : Inv inp s)
    (h : Step inp s a s2) (ha : a.steady = true) :
    remaining inp s2 < remaining inp s ∧ registered s2.log = registered s.log ∧
      s2.log.countP Event.isFailure = s.log.countP Event.isFailure := by
  cases h with
  | enter i args hp hm hlt hargs =>
    have := (lt_taskCount_iff inp i).2 hlt
    refine ⟨?_, rfl, rfl⟩
    simp only [remaining, hm, MainPc.weight]
    omega
  | indexPanic i hp hm hlt hargs =>
    rw [mkArgs_of_lt inp i hlt] at hargs; simp at hargs
  | wait i hp hm hlt =>
    have := (lt_taskCount_iff inp i).not.2 hlt
    refine ⟨?_, rfl, rfl⟩
    simp only [remaining, hm, MainPc.weight]
    omega
  | go i args hp hm =>
    obtain ⟨_, h2, _⟩ := hI.atAdded i args hm
    refine ⟨?_, rfl, rfl⟩
    simp only [remaining, hm, MainPc.weight, List.map_append, List.sum_append, List.map_cons,
      List.map_nil, List.sum_cons, List.sum_nil, weight_awaiting]
    omega
  | ret hp hm hwg =>
    refine ⟨?_, rfl, rfl⟩
    simp only [remaining, hm, MainPc.weight]
    omega
  | register w hp => simp [Action.steady] at ha
  | extSend w hp hw hc =>
    have hl := List.length_erase_of_mem hw
    have hpos := List.length_pos_of_mem hw
    refine ⟨?_, rfl, rfl⟩
    simp only [remaining, hl]
    omega
  | extHand w t args hp ht hw hc =>
    have hl := List.length_erase_of_mem hw
    have hwt := weight_set (Pc.invoking w) ht
    simp only [weight_awaiting, weight_invoking, weight_succeeded, weight_pushing,
      weight_finished] at hwt
    refine ⟨?_, rfl, rfl⟩
    simp only [remaining, hl]
    omega
  | recv t args w rest hp ht hc =>
    have hwt := weight_set (Pc.invoking w) ht
    simp only [weight_awaiting, weight_invoking, weight_succeeded, weight_pushing,
      weight_finished] at hwt
    refine ⟨?_, rfl, rfl⟩
    simp only [remaining]
    omega
  | callRet t ok args w hp ht =>
    cases ok with
    | false => simp [Action.steady] at ha
    | true =>
      have hwt := weight_set (Pc.succeeded w) ht
      simp only [weight_awaiting, weight_invoking, weight_succeeded, weight_pushing,
      weight_finished] at hwt
      refine ⟨?_, rfl, rfl⟩
      simp only [remaining, if_true]
      omega
  | done t args w hp ht hwg =>
    have hwt := weight_set (Pc.pushing w) ht
    simp only [weight_awaiting, weight_invoking, weight_succeeded, weight_pushing,
      weight_finished] at hwt
    refine ⟨?_, rfl, rfl⟩
    simp only [remaining]
    omega
  | donePanic t args w hp ht hwg =>
    have hpend := inv_pending hI ht (by simp [Pc.isDone])
    omega
  | send t args w hp ht hc =>
    have hwt := weight_set Pc.finished ht
    simp only [weight_awaiting, weight_invoking, weight_succeeded, weight_pushing,
      weight_finished] at hwt
    refine ⟨?_, rfl, rfl⟩
    simp only [remaining]
    omega
  | hand t u args args2 w hp ht hu hc =>
    have hne : t ≠ u := by
      intro e; subst e; rw [ht] at hu; simp at hu
    have hu2 : (s.tasks.set t { args := args, pc := Pc.finished })[u]?
        = some { args := args2, pc := Pc.awaiting } := by
      rw [List.getElem?_set_ne hne]; exact hu
    have hwt := weight_set Pc.finished ht
    have hwt2 := weight_set
      (s := { s with tasks := s.tasks.set t { args := args, pc := Pc.finished } })
      (Pc.invoking w) hu2
    simp only [weight_awaiting, weight_invoking, weight_succeeded, weight_pushing,
      weight_finished] at hwt hwt2
    refine ⟨?_, rfl, rfl⟩
    simp only [remaining]
    omega

end mapreduce

namespace mapreduce

/-- With one handle in the system, a reachable state in which `schedule` has
not returned has a step that is neither a registration nor a failed
invocation. -/
theorem one_worker_progress {inp : Input} {s : State} (hI : Inv inp s)
    (htok : tokens s = 1) (hret : s.main ≠ MainPc.returned) :
    ∃ a s2, a.steady = true ∧ Step inp s a s2 := by
  have hp := hI.noPanic
  -- a goroutine holding the handle can move, given a goroutine `t` at its receive
  have hholder : ∀ (t : Nat) (args : DoTaskArgs),
      s.tasks[t]? = some { args := args, pc := Pc.awaiting } → s.chan = [] →
      ∀ (u : Nat) (g : Goroutine), s.tasks[u]? = some g → g.pc.holding = true →
      ∃ a s2, a.steady = true ∧ Step inp s a s2 := by
    intro t args ht hc u g hu hg
    obtain ⟨a2, pc⟩ := g
    cases pc with
    | awaiting => simp [Pc.holding] at hg
    | finished => simp [Pc.holding] at hg
    | invoking w => exact ⟨Action.callRet u true, _, rfl, Step.callRet u true a2 w hp hu⟩
    | succeeded w =>
      have hpend := inv_pending hI hu (by simp [Pc.isDone])
      exact ⟨Action.done u, _, rfl, Step.done u a2 w hp hu (by omega)⟩
    | pushing w => exact ⟨Action.hand u t, _, rfl, Step.hand u t a2 args w hp hu ht hc⟩
  cases hm : s.main with
  | returned => exact absurd hm hret
  | added i args => exact ⟨Action.main, _, rfl, Step.go i args hp hm⟩
  | loop i =>
    by_cases hlt : (i : Int) < ntasks inp
    · exact ⟨Action.main, _, rfl, Step.enter i _ hp hm hlt (mkArgs_of_lt inp i hlt)⟩
    · exact ⟨Action.main, _, rfl, Step.wait i hp hm hlt⟩
  | waiting =>
    by_cases hwg : s.wg = 0
    · exact ⟨Action.main, _, rfl, Step.ret hp hm hwg⟩
    · obtain ⟨h1, h2⟩ := hI.atWait hm
      have hle : doneCount s ≤ s.tasks.length := List.countP_le_length _
      have hlt : s.tasks.countP (fun g => g.pc.isDone) < s.tasks.length := by
        simp only [doneCount] at h2 hle; omega
      obtain ⟨t, g, ht, hg⟩ := exists_of_countP_lt_length _ s.tasks hlt
      obtain ⟨args, pc⟩ := g
      cases pc with
      | pushing w => simp [Pc.isDone] at hg
      | finished => simp [Pc.isDone] at hg
      | invoking w => exact ⟨Action.callRet t true, _, rfl, Step.callRet t true args w hp ht⟩
      | succeeded w =>
        have hpend := inv_pending hI ht (by simp [Pc.isDone])
        exact ⟨Action.done t, _, rfl, Step.done t args w hp ht (by omega)⟩
      | awaiting =>
        cases hc : s.chan with
        | cons w rest => exact ⟨Action.recv t, _, rfl, Step.recv t args w rest hp ht hc⟩
        | nil =>
          cases ho : s.offers with
          | cons w rest =>
            exact ⟨Action.extHand w t, _, rfl,
              Step.extHand w t args hp ht (by rw [ho]; exact List.mem_cons_self _ _) hc⟩
          | nil =>
            have hpos : 0 < s.tasks.countP fun g => g.pc.holding := by
              simp only [tokens, hc, ho, List.length_nil] at htok
              omega
            obtain ⟨g, hgm, hgh⟩ := List.countP_pos_iff.1 hpos
            obtain ⟨u, hu⟩ := List.getElem?_of_mem hgm
            exact hholder t args ht hc u g hu hgh

theorem inFlight_le_holding (s : State) :
    (s.tasks.countP fun g => g.pc.inFlight) ≤ s.tasks.countP fun g => g.pc.holding := by
  apply List.countP_mono_left
  intro g _ h
  cases hpc : g.pc <;> simp_all [Pc.inFlight, Pc.holding]

/-- Along steps that are neither registrations nor failed invocations, the
invariants and the absence of registrations and failures are kept, and the
number of steps is bounded. -/
theorem steady_run {inp : Input} :
    ∀ (as2 : List Action) (s s2 : State), Inv inp s → (∀ a ∈ as2, a.steady = true) →
      run inp s as2 = some s2 →
      as2.length + remaining inp s2 ≤ remaining inp s ∧
      registered s2.log = registered s.log ∧
      s2.log.countP Event.isFailure = s.log.countP Event.isFailure := by
  intro as2
  induction as2 with
  | nil =>
    intro s s2 _ _ h
    simp only [run, Option.some.injEq] at h
    subst h
    exact ⟨by simp, rfl, rfl⟩
  | cons a as2 ih =>
    intro s s2 hI hst h
    simp only [run] at h
    cases hs : step inp s a with
    | none => simp [hs] at h
    | some s1 =>
      simp only [hs] at h
      have hstep := step_sound hs
      obtain ⟨h1, h2, h3⟩ := steady_step hI hstep (hst a (List.mem_cons_self _ _))
      obtain ⟨i1, i2, i3⟩ := ih s1 s2 (inv_step hI hstep)
        (fun b hb => hst b (List.mem_cons_of_mem _ hb)) h
      refine ⟨?_, by rw [i2, h2], by rw [i3, h3]⟩
      simp only [List.length_cons]
      omega

/-- With one handle and no failure, `schedule` returns within the bound. -/
theorem one_worker_returns {inp : Input} :
    ∀ (n : Nat) (s : State), Inv inp s → Tokens s → remaining inp s ≤ n →
      (registered s.log).length = 1 → s.log.countP Event.isFailure = 0 →
      ∃ as2 s2, (∀ a ∈ as2, a.steady = true) ∧ run inp s as2 = some s2 ∧
        s2.main = MainPc.returned := by
  intro n
  induction n with
  | zero =>
    intro s hI hT hn hone hnf
    by_cases hret : s.main = MainPc.returned
    · exact ⟨[], s, by simp, rfl, hret⟩
    · have htok : tokens s = 1 := by have := hT.total; omega
      obtain ⟨a, s2, ha, hstep⟩ := one_worker_progress hI htok hret
      have := (steady_step hI hstep ha).1
      omega
  | succ n ih =>
    intro s hI hT hn hone hnf
    by_cases hret : s.main = MainPc.returned
    · exact ⟨[], s, by simp, rfl, hret⟩
    · have htok : tokens s = 1 := by have := hT.total; omega
      obtain ⟨a, s1, ha, hstep⟩ := one_worker_progress hI htok hret
      obtain ⟨h1, h2, h3⟩ := steady_step hI hstep ha
      obtain ⟨as2, s2, hst, hrun, hr⟩ := ih s1 (inv_step hI hstep) (tokens_step hT hstep)
        (by omega) (by rw [h2]; exact hone) (by rw [h3]; exact hnf)
      refine ⟨a :: as2, s2, ?_, run_cons_of_step hstep hrun, hr⟩
      intro b hb
      rcases List.mem_cons.1 hb with h | h
      · rw [h]; exact ha
      · exact hst b h

end mapreduce

namespace mapreduce

/-- C7: in every reachable state of an execution in which exactly one worker
handle was registered and no invocation failed: there is exactly one handle
in the system, so at most one goroutine holds it and at most one invocation
is in flight; if `schedule` has not returned, some step is enabled that is
neither a further registration nor a failure (no deadlock); every
continuation by such steps has a bounded length; and some continuation by
such steps makes `schedule` return, with all `N` tasks completed, one
success for each task index. -/
theorem one_worker_serial_no_deadlock (inp : Input) (as : List Action) (s : State)
    (hrun : run inp init as = some s) (hone : (registered s.log).length = 1)
    (hnofail : s.log.countP Event.isFailure = 0) :
    tokens s = 1 ∧
    (s.tasks.countP fun g => g.pc.holding) ≤ 1 ∧
    (s.tasks.countP fun g => g.pc.inFlight) ≤ 1 ∧
    (s.main ≠ MainPc.returned → ∃ a s2, a.steady = true ∧ step inp s a = some s2) ∧
    (∀ as2 s2, (∀ a ∈ as2, a.steady = true) → run inp s as2 = some s2 →
      as2.length ≤ remaining inp s ∧ tokens s2 = 1 ∧
      (s2.tasks.countP fun g => g.pc.inFlight) ≤ 1 ∧
      (s2.main ≠ MainPc.returned → ∃ a s3, a.steady = true ∧ step inp s2 a = some s3)) ∧
    (∃ as2 s2, (∀ a ∈ as2, a.steady = true) ∧ run inp s as2 = some s2 ∧
      s2.main = MainPc.returned ∧ (successes s2.log).length = taskCount inp ∧
      ∀ i, i < taskCount inp →
        (successes s2.log).countP (fun a => a.TaskNumber = (i : Int)) = 1) := by
  have hI := inv_run hrun
  have hT := tokens_run hrun
  have htok : tokens s = 1 := by have := hT.total; omega
  have hhold : (s.tasks.countP fun g => g.pc.holding) ≤ 1 := by
    simp only [tokens] at htok; omega
  refine ⟨htok, hhold, le_trans (inFlight_le_holding s) hhold, ?_, ?_, ?_⟩
  · intro hret
    obtain ⟨a, s2, ha, hstep⟩ := one_worker_progress hI htok hret
    exact ⟨a, s2, ha, step_complete hstep⟩
  · intro as2 s2 hst hrun2
    obtain ⟨h1, h2, h3⟩ := steady_run as2 s s2 hI hst hrun2
    have hrun3 : run inp init (as ++ as2) = some s2 := by
      rw [run_append, hrun]; exact hrun2
    have hI2 := inv_run hrun3
    have hT2 := tokens_run hrun3
    have htok2 : tokens s2 = 1 := by
      have := hT2.total
      rw [h2, h3] at this
      omega
    have hhold2 : (s2.tasks.countP fun g => g.pc.holding) ≤ 1 := by
      simp only [tokens] at htok2; omega
    refine ⟨by omega, htok2, le_trans (inFlight_le_holding s2) hhold2, ?_⟩
    intro hret
    obtain ⟨a, s3, ha, hstep⟩ := one_worker_progress hI2 htok2 hret
    exact ⟨a, s3, ha, step_complete hstep⟩
  · obtain ⟨as2, s2, hst, hrun2, hret⟩ :=
      one_worker_returns (remaining inp s) s hI hT (le_refl _) hone hnofail
    have hrun3 : run inp init (as ++ as2) = some s2 := by
      rw [run_append, hrun]; exact hrun2
    obtain ⟨h1, h2, _⟩ := successes_of_returned (inv_run hrun3) (hist_run hrun3) hret
    exact ⟨as2, s2, hst, hrun2, hret, h1, h2⟩

/-- Witness of C7: the sample execution has the single worker `w`, no
failure, and one handle in the system at its end. -/
theorem one_worker_serial_no_deadlock_witness :
    run sampleInput init sampleRun = some sampleFinal ∧
      (registered sampleFinal.log).length = 1 ∧
      sampleFinal.log.countP Event.isFailure = 0 ∧ tokens sampleFinal = 1 :=
  ⟨sampleRun_final, by decide, by decide,
    (one_worker_serial_no_deadlock sampleInput sampleRun sampleFinal sampleRun_final
      (by decide) (by decide)).1⟩

end mapreduce
